import Mathlib

/-!
# pbxsetting::Value — setting-string values

A shallow embedding of `Sources/pbxsetting/Value.cpp`: the entry/value data
model, structural equality, `raw`, `operator+`, the recursive-descent
`ParseValue`, the constructors `Parse`, `String`, `Variable`, `Empty` and the
scalar adapter `FromObject`.

Conventions of the embedding

* `std::string` is a `List Char`; offsets (`size_t`) are `Nat`, and a
  difference of two offsets is the `Nat` difference (truncated at zero).
* `std::string::npos` is `none` in an `Option Nat`; the comparisons the source
  makes against possibly-`npos` offsets are `Npos.le` / `Npos.lt`, which order
  `none` above every position (as `npos` is the largest `size_t`).
* `Value` is its entry vector `_entries`; an `Entry` is the tagged union of
  the source (`type == String` carries `string`, `type == Value` carries the
  pointed-to value).
* The `do { ... } while (true)` loop of `ParseValue` together with its
  recursive call is one function `ParseValueLoop`, recursive on a fuel
  counter; running out of fuel is `none`, a returned `ParseResult` is `some`.
-/

namespace pbxsetting

/-! ## Data model -/

/-- `Value::Entry`: a literal run (`type == String`) or a nested value
(`type == Value`). A `Value` is the list of its entries. -/
inductive Entry where
  | String (string : List Char)
  | Value (value : List Entry)

/-- `pbxsetting::Value`, represented by its `_entries`. -/
abbrev Value := List Entry

mutual
/-- Equality of entries is decidable. -/
def Entry.decEq : (a b : Entry) → Decidable (a = b)
  | .String s, .String t =>
    if h : s = t then isTrue (congrArg Entry.String h)
    else isFalse (fun e => h (Entry.String.inj e))
  | .Value v, .Value w =>
    match Value.decEq v w with
    | isTrue h => isTrue (congrArg Entry.Value h)
    | isFalse h => isFalse (fun e => h (Entry.Value.inj e))
  | .String _, .Value _ => isFalse (fun e => Entry.noConfusion e)
  | .Value _, .String _ => isFalse (fun e => Entry.noConfusion e)
/-- Equality of entry lists is decidable. -/
def Value.decEq : (a b : List Entry) → Decidable (a = b)
  | [], [] => isTrue rfl
  | a :: as, b :: bs =>
    match Entry.decEq a b with
    | isFalse h1 => isFalse (fun e => h1 (List.cons.inj e).1)
    | isTrue h1 =>
      match Value.decEq as bs with
      | isTrue h2 => isTrue (h1 ▸ h2 ▸ rfl)
      | isFalse h2 => isFalse (fun e => h2 (List.cons.inj e).2)
  | [], _ :: _ => isFalse (fun e => List.noConfusion e)
  | _ :: _, [] => isFalse (fun e => List.noConfusion e)
end

instance : DecidableEq Entry := Entry.decEq

mutual
/-- `Value::Entry::operator==`. -/
def Entry.beq : Entry → Entry → Bool
  | .String string, .String rhs => decide (string = rhs)
  | .Value value, .Value rhs => Value.beq value rhs
  | _, _ => false
/-- `Value::operator==`: `_entries == rhs._entries`, the element-wise
comparison of two vectors with `Entry::operator==`. -/
def Value.beq : List Entry → List Entry → Bool
  | [], [] => true
  | e :: es, r :: rs => Entry.beq e r && Value.beq es rs
  | _, _ => false
end

mutual
/-- What one entry adds to `out` in the loop of `Value::raw` (the `switch`). -/
def Entry.raw : Entry → List Char
  | .String string => string
  | .Value value => ['$', '('] ++ Value.raw value ++ [')']
/-- `Value::raw`: the loop over `_entries`. -/
def Value.raw : List Entry → List Char
  | [] => []
  | entry :: rest => Entry.raw entry ++ Value.raw rest
end

/-- `Value::operator+`: copy the left entries; when both sides are non-empty
and the left's last and the right's first entry are both `String`, append the
right's first string to the left's last one and skip it; then append what
remains of the right entries. -/
def Value.add (lhs rhs : Value) : Value :=
  if !lhs.isEmpty && !rhs.isEmpty then
    match lhs.getLast?, rhs with
    | some (.String back), .String first :: rest =>
      lhs.dropLast ++ [.String (back ++ first)] ++ rest
    | _, _ => lhs ++ rhs
  else lhs ++ rhs

/-- `Value::Empty`. -/
def Value.Empty : Value := []

/-- `Value::String`. -/
def Value.String (value : List Char) : Value :=
  if value.isEmpty then Value.Empty else [.String value]

/-- `Value::Variable`. -/
def Value.Variable (value : List Char) : Value :=
  [.Value [.String value]]

/-! ## String searching -/

/-- The first offset `i`, counted from `pos`, at which the remaining text
satisfies `p`; `none` when no non-empty remainder does. -/
def findAux (p : List Char → Bool) : List Char → Nat → Option Nat
  | [], _ => none
  | c :: cs, pos => if p (c :: cs) then some pos else findAux p cs (pos + 1)

/-- Search `value` from offset `pos` on: the shape shared by `std::string::find`
and `find_first_not_of` (`npos`, here `none`, when `pos` is past the end or
nothing matches). -/
def findFrom (p : List Char → Bool) (value : List Char) (pos : Nat) : Option Nat :=
  findAux p (value.drop pos) pos

/-- `value.find(c, pos)` for a character `c`. -/
def find_char (c : Char) (value : List Char) (pos : Nat) : Option Nat :=
  findFrom (fun t => t.head? == some c) value pos

/-- `value.find(str, pos)` for a non-empty string `str`. -/
def find_str (str : List Char) (value : List Char) (pos : Nat) : Option Nat :=
  findFrom (fun t => str.isPrefixOf t) value pos

/-- `value.find_first_not_of(set, pos)`. -/
def find_first_not_of (set : List Char) (value : List Char) (pos : Nat) : Option Nat :=
  findFrom (fun t => match t with
    | [] => false
    | c :: _ => !set.contains c) value pos

/-- `value.substr(pos, len)` for `pos` within the text: the characters from
`pos` on, at most `len` of them. -/
def substr (value : List Char) (pos len : Nat) : List Char :=
  (value.drop pos).take len

/-- The alphabet of `kDelimiterIdentifier`. -/
def identifier : List Char :=
  "abcdefghijklmnopqrstuvwxyzABCDEFGHIJKLMNOPQRSTUVWXYZ0123456789_".toList

/-- `a <= b` on offsets that may be `npos` (`none`), the largest offset. -/
def Npos.le : Option Nat → Option Nat → Bool
  | some a, some b => decide (a ≤ b)
  | _, none => true
  | none, some _ => false

/-- `a < b` on offsets that may be `npos` (`none`), the largest offset. -/
def Npos.lt : Option Nat → Option Nat → Bool
  | some a, some b => decide (a < b)
  | some _, none => true
  | none, _ => false

/-! ## The parser -/

/-- `struct ParseResult`. -/
structure ParseResult where
  found : Bool
  end_ : Nat
  value : Value

/-- `enum ValueDelimiter`. -/
inductive ValueDelimiter where
  | kDelimiterNone
  | kDelimiterParentheses
  | kDelimiterBraces
  | kDelimiterIdentifier
  deriving DecidableEq

open ValueDelimiter

/-- The terminator offset `to` (here `to_`) computed at the head of each loop
iteration of `ParseValue` (the `switch (end)`), `none` for `npos`. -/
def terminator (value : List Char) (end_ : ValueDelimiter) (search_offset : Nat) :
    Option Nat :=
  match end_ with
  | kDelimiterNone => some value.length
  | kDelimiterParentheses => find_char ')' value search_offset
  | kDelimiterBraces => find_char '}' value search_offset
  | kDelimiterIdentifier =>
    let to_ := find_first_not_of identifier value search_offset
    let to_ := match to_ with
      | none => value.length
      | some to_ => to_
    if to_ - search_offset = 0 then none else some to_

/-- The opening marker chosen in one loop iteration of `ParseValue`:
`(open, openlen, start, closelen)` from the three searches `pno`, `cbo`, `ido`. -/
def selectMarker (value : List Char) (search_offset : Nat) :
    Option Nat × Nat × ValueDelimiter × Nat :=
  let pno := find_str ['$', '('] value search_offset
  let cbo := find_str ['$', '{'] value search_offset
  let ido := find_str ['$'] value search_offset
  if pno != none && (Npos.le pno ido || ido == none) && (Npos.lt pno cbo || cbo == none) then
    (pno, 2, kDelimiterParentheses, 1)
  else if cbo != none && (Npos.le cbo ido || ido == none) && (Npos.lt cbo pno || pno == none) then
    (cbo, 2, kDelimiterBraces, 1)
  else if ido != none && (Npos.lt ido pno || pno == none) && (Npos.lt ido cbo || cbo == none) then
    (ido, 1, kDelimiterIdentifier, 0)
  else
    (none, 0, kDelimiterNone, 0)

/-- `entries.push_back` of the literal `value.substr(append_offset, length)`
when `length > 0`. -/
def pushLiteral (entries : List Entry) (value : List Char) (append_offset length : Nat) :
    List Entry :=
  if length > 0 then entries ++ [.String (substr value append_offset length)] else entries

/-- `ParseValue`: the loop state is `(search_offset, append_offset, entries)`;
one unit of fuel is spent per loop iteration and per nested call. The nested
call `ParseValue(value, open + openlen, start)` is the loop entered with both
offsets at `open + openlen` and no entries. -/
def ParseValueLoop : Nat → List Char → Nat → ValueDelimiter → Nat → Nat → List Entry →
    Option ParseResult
  | 0, _, _, _, _, _, _ => none
  | fuel + 1, value, from_, end_, search_offset, append_offset, entries =>
    match terminator value end_ search_offset with
    | none => some { found := false, end_ := from_, value := entries }
    | some to_ =>
      match selectMarker value search_offset with
      | (none, _, _, _) =>
        some { found := true, end_ := to_,
               value := pushLiteral entries value append_offset (to_ - append_offset) }
      | (some open_, openlen, start, closelen) =>
        if start = kDelimiterNone ∨ open_ ≥ to_ then
          some { found := true, end_ := to_,
                 value := pushLiteral entries value append_offset (to_ - append_offset) }
        else
          match ParseValueLoop fuel value (open_ + openlen) start
              (open_ + openlen) (open_ + openlen) [] with
          | none => none
          | some result =>
            if result.found then
              ParseValueLoop fuel value from_ end_
                (result.end_ + closelen) (result.end_ + closelen)
                (pushLiteral entries value append_offset (open_ - append_offset)
                  ++ [.Value result.value])
            else
              ParseValueLoop fuel value from_ end_
                (search_offset + openlen) append_offset entries

/-- `ParseValue(value, from, end)`, with fuel for every offset of `value`
(`ParseValueLoop_total`: with this much fuel the loop returns a result, the same
for any larger amount). -/
def ParseValue (value : List Char) (from_ : Nat) (end_ : ValueDelimiter) :
    Option ParseResult :=
  ParseValueLoop (value.length + 1) value from_ end_ from_ from_ []

/-- `Value::Parse`. -/
def Value.Parse (value : List Char) : Option Value :=
  (ParseValue value 0 kDelimiterNone).map (fun result => result.value)

/-! ## Shapes of values the properties speak about -/

/-- The entry is a literal (`type == String`). -/
def Entry.isString : Entry → Bool
  | .String _ => true
  | .Value _ => false

/-- The first entry, if any, is a literal. -/
def startsWithString : List Entry → Bool
  | [] => false
  | entry :: _ => entry.isString

mutual
/-- A literal is non-empty; a reference holds a well-formed value. -/
def Entry.wellFormed : Entry → Bool
  | .String string => !string.isEmpty
  | .Value value => Value.wellFormed value
/-- At every nesting level: no literal with empty text, no two adjacent
literals. -/
def Value.wellFormed : List Entry → Bool
  | [] => true
  | entry :: rest =>
    Entry.wellFormed entry && !(entry.isString && startsWithString rest) &&
      Value.wellFormed rest
end

mutual
/-- No literal of the entry, at any nesting level, contains the character `c`. -/
def Entry.literalsAvoid (c : Char) : Entry → Bool
  | .String string => !string.contains c
  | .Value value => Value.literalsAvoid c value
/-- No literal of the value, at any nesting level, contains the character `c`. -/
def Value.literalsAvoid (c : Char) : List Entry → Bool
  | [] => true
  | entry :: rest => Entry.literalsAvoid c entry && Value.literalsAvoid c rest
end

/-- No literal nested inside a reference of the value contains the character `c`
(the literals of the value's own level are not constrained). -/
def Value.nestedLiteralsAvoid (c : Char) : List Entry → Bool
  | [] => true
  | .String _ :: rest => Value.nestedLiteralsAvoid c rest
  | .Value value :: rest => Value.literalsAvoid c value && Value.nestedLiteralsAvoid c rest

/-! ## Shapes of texts the properties speak about -/

/-- Some `$` of the text is immediately followed by a character satisfying `p`. -/
def dollarFollowedBy (p : Char → Bool) : List Char → Bool
  | [] => false
  | c :: rest =>
    (c == '$' && (match rest with
      | [] => false
      | d :: _ => p d)) || dollarFollowedBy p rest

/-- Some occurrence of `$` followed by `opener` has the character `closer`
somewhere after it. -/
def openerHasCloser (opener closer : Char) : List Char → Bool
  | [] => false
  | c :: rest =>
    (c == '$' && rest.head? == some opener && (rest.drop 1).contains closer) ||
      openerHasCloser opener closer rest

/-! ## Auxiliary definitions of the proofs -/

/-- The kind of the marker whose `$` stands at offset `i`, as
`(openlen, start, closelen)`: decided by the character after the `$`. -/
def markerKind (s : List Char) (i : Nat) : Nat × ValueDelimiter × Nat :=
  if s[i + 1]? = some '(' then (2, kDelimiterParentheses, 1)
  else if s[i + 1]? = some '{' then (2, kDelimiterBraces, 1)
  else (1, kDelimiterIdentifier, 0)

/-- Width of the closing delimiter of a terminator mode (`closelen`). -/
def closeLen : ValueDelimiter → Nat
  | kDelimiterParentheses => 1
  | kDelimiterBraces => 1
  | _ => 0

/-- The result of the loop of `ParseValue` run with fuel for every remaining
offset (a proof device: `ParseValueLoop_eq_PVL` ties it to the parser). -/
def PVL (s : List Char) (from_ : Nat) (end_ : ValueDelimiter) (so ao : Nat)
    (E : List Entry) : ParseResult :=
  (ParseValueLoop (s.length + 1 - so) s from_ end_ so ao E).getD
    { found := false, end_ := from_, value := [] }

/-- The entries end with a reference, or there are none. -/
def endsOpen : List Entry → Bool
  | [] => true
  | [entry] => !entry.isString
  | _ :: rest => endsOpen rest

mutual
/-- Number of constructors of an entry. -/
def Entry.size : Entry → Nat
  | .String _ => 1
  | .Value value => 1 + Value.size value
/-- Number of constructors of the entries of a value. -/
def Value.size : List Entry → Nat
  | [] => 0
  | entry :: rest => Entry.size entry + Value.size rest
end

/-- What the terminator mode asks of a value serialized before the text `suf`:
at top level nothing follows and only nested literals must avoid `)`; inside a
parenthesised reference a `)` follows and all literals avoid `)`. -/
def ModeOk (m : ValueDelimiter) (v : List Entry) (suf : List Char) : Prop :=
  (m = kDelimiterNone ∧ suf = [] ∧ Value.nestedLiteralsAvoid ')' v = true) ∨
  (m = kDelimiterParentheses ∧ (∃ suf', suf = ')' :: suf') ∧
    Value.literalsAvoid ')' v = true)

/-- The result with its end offset moved by `n`. -/
def ParseResult.shift (n : Nat) (r : ParseResult) : ParseResult :=
  { found := r.found, end_ := r.end_ + n, value := r.value }

/-! ## Sample texts -/

/-- The text `${$(${)}})`: an unterminated brace marker followed by a
parenthesised reference that holds a brace reference around `)` and then a
closing brace. -/
def hiddenBrace : List Char :=
  ['$', '\x7b', '$', '(', '$', '\x7b', ')', '\x7d', '\x7d', ')']

/-! ## The scalar adapter -/

/-- Modelled from the spec: `plist::Object`, whose declaration is not among the
sources, as far as `Value::FromObject` distinguishes objects with `CastTo`: a
string, a boolean, an integer, an array of objects, or an object of another
kind. `arrayValue->count()` is the length of `items` and
`arrayValue->value <plist::String> (n)` is the `n`-th item when it is a string. -/
inductive plist.Object where
  | String (value : List Char)
  | Boolean (value : Bool)
  | Integer (value : Int)
  | Array (items : List plist.Object)
  | Other

/-- `std::to_string` of an integer: its decimal digits, after a `-` when it is
negative. -/
def to_string : Int → List Char
  | Int.ofNat m => Nat.toDigits 10 m
  | Int.negSucc m => '-' :: Nat.toDigits 10 (m + 1)

/-- The loop of `Value::FromObject` over an array: `items` are the elements from
index `n` on and `value` is the string built so far. -/
def arrayJoin : List plist.Object → Nat → List Char → List Char
  | [], _, value => value
  | item :: rest, n, value =>
    match item with
    | .String arg =>
      arrayJoin rest (n + 1) ((if n != 0 then value ++ [' '] else value) ++ arg)
    | _ => arrayJoin rest (n + 1) value

/-- `Value::FromObject`; `none` is the null pointer. The warning printed for an
object of another kind is not part of the result. -/
def Value.FromObject : Option plist.Object → Option Value
  | none => some Value.Empty
  | some (.String stringValue) => Value.Parse stringValue
  | some (.Boolean booleanValue) =>
    Value.Parse (if booleanValue then ['Y', 'E', 'S'] else ['N', 'O'])
  | some (.Integer integerValue) => Value.Parse (to_string integerValue)
  | some (.Array items) => Value.Parse (arrayJoin items 0 [])
  | some .Other => some Value.Empty

/-- The string elements of an array, in order. -/
def stringItems : List plist.Object → List (List Char)
  | [] => []
  | .String arg :: rest => arg :: stringItems rest
  | _ :: rest => stringItems rest

/-- The strings joined with one space between consecutive ones. -/
def joinWithSpace : List (List Char) → List Char
  | [] => []
  | [a] => a
  | a :: b :: rest => a ++ ' ' :: joinWithSpace (b :: rest)

/-! ## The reference parser of the recovery rule -/

/-- The parser as the specification words its recovery rule: `ParseValueLoop`
with one change, in the last branch: when the nested parse of the marker at
`open` fails, the search resumes at `open + openlen`, just past the marker's
opening characters (the source has `search_offset += openlen`); `append_offset`
is left as it is. -/
def ParseValueLoopResume : Nat → List Char → Nat → ValueDelimiter → Nat → Nat → List Entry →
    Option ParseResult
  | 0, _, _, _, _, _, _ => none
  | fuel + 1, value, from_, end_, search_offset, append_offset, entries =>
    match terminator value end_ search_offset with
    | none => some { found := false, end_ := from_, value := entries }
    | some to_ =>
      match selectMarker value search_offset with
      | (none, _, _, _) =>
        some { found := true, end_ := to_,
               value := pushLiteral entries value append_offset (to_ - append_offset) }
      | (some open_, openlen, start, closelen) =>
        if start = kDelimiterNone ∨ open_ ≥ to_ then
          some { found := true, end_ := to_,
                 value := pushLiteral entries value append_offset (to_ - append_offset) }
        else
          match ParseValueLoopResume fuel value (open_ + openlen) start
              (open_ + openlen) (open_ + openlen) [] with
          | none => none
          | some result =>
            if result.found then
              ParseValueLoopResume fuel value from_ end_
                (result.end_ + closelen) (result.end_ + closelen)
                (pushLiteral entries value append_offset (open_ - append_offset)
                  ++ [.Value result.value])
            else
              ParseValueLoopResume fuel value from_ end_
                (open_ + openlen) append_offset entries

/-- `ParseValue` with the recovery rule of the specification. -/
def ParseValueResume (value : List Char) (from_ : Nat) (end_ : ValueDelimiter) :
    Option ParseResult :=
  ParseValueLoopResume (value.length + 1) value from_ end_ from_ from_ []

/-- `Value::Parse` with the recovery rule of the specification. -/
def Value.ParseResume (value : List Char) : Option Value :=
  (ParseValueResume value 0 kDelimiterNone).map (fun result => result.value)

/-! ## The states of the loop -/

/-- The variables of one loop iteration of one call of `ParseValue`: the call's
`from` and `end`, and `search_offset` and `append_offset` at the head of the
iteration. -/
structure LoopState where
  from_ : Nat
  end_ : ValueDelimiter
  search_offset : Nat
  append_offset : Nat

/-- The loop states that `ParseValue(value, from0, end0)` and its nested calls go
through. `start`: the first iteration of the call. `nested`: from an iteration
that selects a marker before the terminator, the first iteration of the nested
call `ParseValue(value, open + openlen, start)`. `found`: when that nested call
returns `found`, the next iteration has both offsets at `result.end + closelen`.
`failed`: when it does not, the next iteration has `search_offset += openlen`. -/
inductive Reachable (value : List Char) (from0 : Nat) (end0 : ValueDelimiter) :
    LoopState → Prop
  | start : Reachable value from0 end0
      { from_ := from0, end_ := end0, search_offset := from0, append_offset := from0 }
  | nested {st : LoopState} {to_ open_ openlen closelen : Nat} {start : ValueDelimiter} :
      Reachable value from0 end0 st →
      terminator value st.end_ st.search_offset = some to_ →
      selectMarker value st.search_offset = (some open_, openlen, start, closelen) →
      open_ < to_ →
      Reachable value from0 end0
        { from_ := open_ + openlen, end_ := start, search_offset := open_ + openlen,
          append_offset := open_ + openlen }
  | found {st : LoopState} {to_ open_ openlen closelen : Nat} {start : ValueDelimiter}
      {result : ParseResult} :
      Reachable value from0 end0 st →
      terminator value st.end_ st.search_offset = some to_ →
      selectMarker value st.search_offset = (some open_, openlen, start, closelen) →
      open_ < to_ →
      ParseValue value (open_ + openlen) start = some result → result.found = true →
      Reachable value from0 end0
        { from_ := st.from_, end_ := st.end_, search_offset := result.end_ + closelen,
          append_offset := result.end_ + closelen }
  | failed {st : LoopState} {to_ open_ openlen closelen : Nat} {start : ValueDelimiter}
      {result : ParseResult} :
      Reachable value from0 end0 st →
      terminator value st.end_ st.search_offset = some to_ →
      selectMarker value st.search_offset = (some open_, openlen, start, closelen) →
      open_ < to_ →
      ParseValue value (open_ + openlen) start = some result → result.found = false →
      Reachable value from0 end0
        { from_ := st.from_, end_ := st.end_, search_offset := st.search_offset + openlen,
          append_offset := st.append_offset }

/-! ## Structural equality -/

mutual
theorem Entry.beq_iff_eq : ∀ (a b : Entry), Entry.beq a b = true ↔ a = b
  | .String s, .String t => by simp [Entry.beq]
  | .Value v, .Value w => by simp [Entry.beq, Value.beq_iff v w]
  | .String _, .Value _ => by simp [Entry.beq]
  | .Value _, .String _ => by simp [Entry.beq]
theorem Value.beq_iff : ∀ (a b : List Entry), Value.beq a b = true ↔ a = b
  | [], [] => by simp [Value.beq]
  | e :: es, r :: rs => by simp [Value.beq, Entry.beq_iff_eq e r, Value.beq_iff es rs]
  | [], _ :: _ => by simp [Value.beq]
  | _ :: _, [] => by simp [Value.beq]
end

theorem Value.beq_self (a : Value) : Value.beq a a = true := (Value.beq_iff a a).2 rfl

/-! ## Concatenation -/

theorem Value.add_nil_left (b : Value) : Value.add [] b = b := by
  simp [Value.add]

theorem Value.add_nil_right (a : Value) : Value.add a [] = a := by
  simp [Value.add]

/-- Concatenation onto a single entry: merge with a leading literal, else prepend. -/
theorem Value.add_singleton (x : Entry) (b : Value) :
    Value.add [x] b =
      match x, b with
      | .String s, .String t :: rest => .String (s ++ t) :: rest
      | _, _ => x :: b := by
  cases b with
  | nil => cases x <;> simp [Value.add]
  | cons y rest => cases x <;> cases y <;> simp [Value.add]

/-- Only the last entry of the left operand takes part in the merge. -/
theorem Value.add_cons_of_ne_nil (x : Entry) {t : Value} (ht : t ≠ []) (b : Value) :
    Value.add (x :: t) b = x :: Value.add t b := by
  cases t with
  | nil => exact absurd rfl ht
  | cons y t' =>
    cases b with
    | nil => simp [Value.add]
    | cons z b' =>
      simp only [Value.add, List.isEmpty_cons, Bool.not_false, Bool.and_self, if_true,
        List.getLast?_cons_cons, List.dropLast_cons₂]
      split <;> simp_all

theorem Value.add_ne_nil_left {a : Value} (ha : a ≠ []) (b : Value) : Value.add a b ≠ [] := by
  induction a with
  | nil => exact absurd rfl ha
  | cons x t ih =>
    by_cases ht : t = []
    · subst ht
      rw [Value.add_singleton]
      split <;> simp
    · rw [Value.add_cons_of_ne_nil x ht]; simp

theorem Value.add_assoc (a b c : Value) :
    Value.add (Value.add a b) c = Value.add a (Value.add b c) := by
  induction a with
  | nil => simp [Value.add_nil_left]
  | cons x t ih =>
    by_cases ht : t = []
    · subst ht
      cases b with
      | nil => simp [Value.add_nil_left, Value.add_nil_right]
      | cons y b' =>
        by_cases hb : b' = []
        · subst hb
          cases c with
          | nil => simp [Value.add_nil_right]
          | cons z c' =>
            cases x <;> cases y <;> cases z <;> simp [Value.add_singleton, Value.add_cons_of_ne_nil]
        · rw [Value.add_cons_of_ne_nil y hb c]
          cases x <;> cases y <;>
            simp [Value.add_singleton, Value.add_cons_of_ne_nil, hb]
    · rw [Value.add_cons_of_ne_nil x ht b,
        Value.add_cons_of_ne_nil x (Value.add_ne_nil_left ht b) c, ih,
        Value.add_cons_of_ne_nil x ht]

/-! ## Searching: specification of `findFrom` -/

theorem findAux_some {p : List Char → Bool} :
    ∀ (l : List Char) (pos i : Nat), findAux p l pos = some i →
      pos ≤ i ∧ i < pos + l.length ∧ p (l.drop (i - pos)) = true ∧
        ∀ j, pos ≤ j → j < i → p (l.drop (j - pos)) = false := by
  intro l
  induction l with
  | nil => intro pos i h; simp [findAux] at h
  | cons c cs ih =>
    intro pos i h
    simp only [findAux] at h
    by_cases hp : p (c :: cs) = true
    · simp only [hp, if_true, Option.some.injEq] at h
      subst h
      refine ⟨le_refl _, by simp, by simpa using hp, ?_⟩
      intro j h1 h2; omega
    · simp only [hp] at h
      obtain ⟨h1, h2, h3, h4⟩ := ih (pos + 1) i h
      refine ⟨by omega, by simp only [List.length_cons]; omega, ?_, ?_⟩
      · have : i - pos = (i - (pos + 1)) + 1 := by omega
        rw [this, List.drop_succ_cons]; exact h3
      · intro j hj1 hj2
        by_cases hj : j = pos
        · subst hj; simpa using hp
        · have : j - pos = (j - (pos + 1)) + 1 := by omega
          rw [this, List.drop_succ_cons]; exact h4 j (by omega) hj2

theorem findAux_none {p : List Char → Bool} :
    ∀ (l : List Char) (pos : Nat), findAux p l pos = none →
      ∀ k, k < l.length → p (l.drop k) = false := by
  intro l
  induction l with
  | nil => intro pos _ k hk; simp at hk
  | cons c cs ih =>
    intro pos h k hk
    simp only [findAux] at h
    by_cases hp : p (c :: cs) = true
    · simp [hp] at h
    · simp only [hp] at h
      cases k with
      | zero => simpa using hp
      | succ k => rw [List.drop_succ_cons]; exact ih (pos + 1) h k (by simpa using hk)

theorem findFrom_some {p : List Char → Bool} {s : List Char} {pos i : Nat}
    (h : findFrom p s pos = some i) :
    pos ≤ i ∧ i < s.length ∧ p (s.drop i) = true ∧
      ∀ j, pos ≤ j → j < i → p (s.drop j) = false := by
  obtain ⟨h1, h2, h3, h4⟩ := findAux_some _ _ _ h
  rw [List.length_drop] at h2
  refine ⟨h1, by omega, ?_, ?_⟩
  · rw [List.drop_drop] at h3
    have : pos + (i - pos) = i := by omega
    rwa [this] at h3
  · intro j hj1 hj2
    have := h4 j hj1 hj2
    rw [List.drop_drop] at this
    have e : pos + (j - pos) = j := by omega
    rwa [e] at this

theorem findFrom_none {p : List Char → Bool} {s : List Char} {pos : Nat}
    (h : findFrom p s pos = none) :
    ∀ j, pos ≤ j → j < s.length → p (s.drop j) = false := by
  intro j hj1 hj2
  have := findAux_none _ _ h (j - pos) (by rw [List.length_drop]; omega)
  rw [List.drop_drop] at this
  have e : pos + (j - pos) = j := by omega
  rwa [e] at this

/-- The first match at or after `pos`, characterised. -/
theorem findFrom_eq_some {p : List Char → Bool} {s : List Char} {pos i : Nat}
    (h1 : pos ≤ i) (h2 : i < s.length) (h3 : p (s.drop i) = true)
    (h4 : ∀ j, pos ≤ j → j < i → p (s.drop j) = false) :
    findFrom p s pos = some i := by
  cases h : findFrom p s pos with
  | none =>
    have := findFrom_none h i h1 h2
    rw [h3] at this; cases this
  | some k =>
    obtain ⟨k1, k2, k3, k4⟩ := findFrom_some h
    rcases Nat.lt_trichotomy k i with hlt | heq | hgt
    · have := h4 k k1 hlt; rw [k3] at this; cases this
    · rw [heq]
    · have := k4 i h1 hgt; rw [h3] at this; cases this

theorem findFrom_eq_none {p : List Char → Bool} {s : List Char} {pos : Nat}
    (h : ∀ j, pos ≤ j → j < s.length → p (s.drop j) = false) :
    findFrom p s pos = none := by
  cases hf : findFrom p s pos with
  | none => rfl
  | some k =>
    obtain ⟨k1, k2, k3, _⟩ := findFrom_some hf
    have := h k k1 k2; rw [k3] at this; cases this

theorem head_drop (s : List Char) (j : Nat) : (s.drop j).head? = s[j]? := by
  simp [List.head?_drop]

theorem one_isPrefixOf (a : Char) (t : List Char) :
    [a].isPrefixOf t = true ↔ t.head? = some a := by
  cases t with
  | nil => simp [List.isPrefixOf]
  | cons c cs =>
    simp only [List.isPrefixOf, Bool.and_true, beq_iff_eq, List.head?_cons, Option.some.injEq]
    exact eq_comm

theorem two_isPrefixOf (a b : Char) (t : List Char) :
    [a, b].isPrefixOf t = true ↔ t.head? = some a ∧ t.tail.head? = some b := by
  cases t with
  | nil => simp [List.isPrefixOf]
  | cons c cs =>
    cases cs with
    | nil => simp [List.isPrefixOf]
    | cons d ds =>
      simp only [List.isPrefixOf, Bool.and_true, Bool.and_eq_true, beq_iff_eq, List.head?_cons,
        List.tail_cons, Option.some.injEq]
      constructor
      · rintro ⟨h1, h2⟩; exact ⟨h1.symm, h2.symm⟩
      · rintro ⟨h1, h2⟩; exact ⟨h1.symm, h2.symm⟩

/-- `find(c, pos)` in terms of the characters of the text. -/
theorem find_char_eq_some_iff {c : Char} {s : List Char} {pos i : Nat} :
    find_char c s pos = some i ↔
      pos ≤ i ∧ s[i]? = some c ∧ ∀ j, pos ≤ j → j < i → s[j]? ≠ some c := by
  unfold find_char
  constructor
  · intro h
    obtain ⟨h1, h2, h3, h4⟩ := findFrom_some h
    refine ⟨h1, by simpa [head_drop] using h3, ?_⟩
    intro j hj1 hj2
    have := h4 j hj1 hj2
    simpa [head_drop] using this
  · rintro ⟨h1, h2, h3⟩
    have hi : i < s.length := by
      by_contra hn
      rw [List.getElem?_eq_none (by omega)] at h2; cases h2
    refine findFrom_eq_some h1 hi (by simpa [head_drop] using h2) ?_
    intro j hj1 hj2
    simpa [head_drop] using h3 j hj1 hj2

theorem find_char_eq_none_iff {c : Char} {s : List Char} {pos : Nat} :
    find_char c s pos = none ↔ ∀ j, pos ≤ j → s[j]? ≠ some c := by
  unfold find_char
  constructor
  · intro h j hj
    by_cases hl : j < s.length
    · simpa [head_drop] using findFrom_none h j hj hl
    · rw [List.getElem?_eq_none (by omega)]; simp
  · intro h
    refine findFrom_eq_none ?_
    intro j hj1 _
    simpa [head_drop] using h j hj1

/-- `find("$", pos)` finds the same offset as `find('$', pos)`. -/
theorem find_str_one (a : Char) (s : List Char) (pos : Nat) :
    find_str [a] s pos = find_char a s pos := by
  unfold find_str find_char
  congr 1
  funext t
  cases t with
  | nil => simp [List.isPrefixOf]
  | cons c cs =>
    simp only [List.isPrefixOf, Bool.and_true, List.head?_cons]
    by_cases h : a = c
    · subst h; simp
    · have h2 : ¬ c = a := fun e => h e.symm
      simp [h, h2]

theorem find_str_two_eq_some_iff {a b : Char} {s : List Char} {pos i : Nat} :
    find_str [a, b] s pos = some i ↔
      pos ≤ i ∧ (s[i]? = some a ∧ s[i + 1]? = some b) ∧
        ∀ j, pos ≤ j → j < i → ¬ (s[j]? = some a ∧ s[j + 1]? = some b) := by
  unfold find_str
  have key : ∀ j, ([a, b].isPrefixOf (s.drop j) = true) ↔
      (s[j]? = some a ∧ s[j + 1]? = some b) := by
    intro j
    rw [two_isPrefixOf, List.tail_drop, head_drop, head_drop]
  constructor
  · intro h
    obtain ⟨h1, h2, h3, h4⟩ := findFrom_some h
    refine ⟨h1, (key i).1 h3, ?_⟩
    intro j hj1 hj2 hc
    have := h4 j hj1 hj2
    rw [(key j).2 hc] at this; cases this
  · rintro ⟨h1, h2, h3⟩
    have hi : i < s.length := by
      by_contra hn
      rw [List.getElem?_eq_none (by omega)] at h2; cases h2.1
    refine findFrom_eq_some h1 hi ((key i).2 h2) ?_
    intro j hj1 hj2
    have := h3 j hj1 hj2
    cases hq : [a, b].isPrefixOf (s.drop j) with
    | false => rfl
    | true => exact absurd ((key j).1 hq) this

theorem find_str_two_eq_none_iff {a b : Char} {s : List Char} {pos : Nat} :
    find_str [a, b] s pos = none ↔
      ∀ j, pos ≤ j → ¬ (s[j]? = some a ∧ s[j + 1]? = some b) := by
  unfold find_str
  have key : ∀ j, ([a, b].isPrefixOf (s.drop j) = true) ↔
      (s[j]? = some a ∧ s[j + 1]? = some b) := by
    intro j
    rw [two_isPrefixOf, List.tail_drop, head_drop, head_drop]
  constructor
  · intro h j hj hc
    by_cases hl : j < s.length
    · have := findFrom_none h j hj hl
      rw [(key j).2 hc] at this; cases this
    · rw [List.getElem?_eq_none (by omega)] at hc; cases hc.1
  · intro h
    refine findFrom_eq_none ?_
    intro j hj1 _
    cases hq : [a, b].isPrefixOf (s.drop j) with
    | false => rfl
    | true => exact absurd ((key j).1 hq) (h j hj1)

theorem find_first_not_of_eq_some_iff {set s : List Char} {pos i : Nat} :
    find_first_not_of set s pos = some i ↔
      pos ≤ i ∧ (∃ c, s[i]? = some c ∧ c ∉ set) ∧
        ∀ j, pos ≤ j → j < i → ∀ c, s[j]? = some c → c ∈ set := by
  unfold find_first_not_of
  have key : ∀ j, ((match s.drop j with
      | [] => false
      | c :: _ => !set.contains c) = true) ↔ (∃ c, s[j]? = some c ∧ c ∉ set) := by
    intro j
    rw [← head_drop]
    cases s.drop j with
    | nil => simp
    | cons c cs => simp
  constructor
  · intro h
    obtain ⟨h1, h2, h3, h4⟩ := findFrom_some h
    refine ⟨h1, (key i).1 h3, ?_⟩
    intro j hj1 hj2 c hc
    by_contra hn
    have := h4 j hj1 hj2
    have k := (key j).2 ⟨c, hc, hn⟩
    simp only [] at this k
    rw [k] at this; cases this
  · rintro ⟨h1, h2, h3⟩
    have hi : i < s.length := by
      by_contra hn
      obtain ⟨c, hc, _⟩ := h2
      rw [List.getElem?_eq_none (by omega)] at hc; cases hc
    refine findFrom_eq_some h1 hi ((key i).2 h2) ?_
    intro j hj1 hj2
    cases hq : (match s.drop j with
      | [] => false
      | c :: _ => !set.contains c) with
    | false => rfl
    | true =>
      obtain ⟨c, hc, hn⟩ := (key j).1 hq
      exact absurd (h3 j hj1 hj2 c hc) hn

theorem find_first_not_of_eq_none_iff {set s : List Char} {pos : Nat} :
    find_first_not_of set s pos = none ↔ ∀ j, pos ≤ j → ∀ c, s[j]? = some c → c ∈ set := by
  unfold find_first_not_of
  have key : ∀ j, ((match s.drop j with
      | [] => false
      | c :: _ => !set.contains c) = true) ↔ (∃ c, s[j]? = some c ∧ c ∉ set) := by
    intro j
    rw [← head_drop]
    cases s.drop j with
    | nil => simp
    | cons c cs => simp
  constructor
  · intro h j hj c hc
    by_contra hn
    have hl : j < s.length := by
      by_contra hl
      rw [List.getElem?_eq_none (by omega)] at hc; cases hc
    have := findFrom_none h j hj hl
    have k := (key j).2 ⟨c, hc, hn⟩
    simp only [] at this k
    rw [k] at this; cases this
  · intro h
    refine findFrom_eq_none ?_
    intro j hj1 _
    cases hq : (match s.drop j with
      | [] => false
      | c :: _ => !set.contains c) with
    | false => rfl
    | true =>
      obtain ⟨c, hc, hn⟩ := (key j).1 hq
      exact absurd (h j hj1 c hc) hn

/-! ## Marker selection -/

theorem find_str_two_of_dollar_none {b : Char} {s : List Char} {so : Nat}
    (h : find_char '$' s so = none) : find_str ['$', b] s so = none := by
  rw [find_str_two_eq_none_iff]
  intro j hj hc
  exact (find_char_eq_none_iff.1 h) j hj hc.1

theorem find_str_two_of_dollar_hit {b : Char} {s : List Char} {so i : Nat}
    (h : find_char '$' s so = some i) (hb : s[i + 1]? = some b) :
    find_str ['$', b] s so = some i := by
  obtain ⟨h1, h2, h3⟩ := find_char_eq_some_iff.1 h
  rw [find_str_two_eq_some_iff]
  exact ⟨h1, ⟨h2, hb⟩, fun j hj1 hj2 hc => h3 j hj1 hj2 hc.1⟩

theorem find_str_two_of_dollar_miss {b : Char} {s : List Char} {so i : Nat}
    (h : find_char '$' s so = some i) (hb : s[i + 1]? ≠ some b) :
    find_str ['$', b] s so = none ∨ ∃ k, i < k ∧ find_str ['$', b] s so = some k := by
  obtain ⟨h1, h2, h3⟩ := find_char_eq_some_iff.1 h
  cases hf : find_str ['$', b] s so with
  | none => exact Or.inl rfl
  | some k =>
    right
    obtain ⟨k1, k2, _⟩ := find_str_two_eq_some_iff.1 hf
    refine ⟨k, ?_, rfl⟩
    rcases Nat.lt_trichotomy k i with hlt | heq | hgt
    · exact absurd k2.1 (h3 k k1 hlt)
    · subst heq; exact absurd k2.2 hb
    · exact hgt

/-- The marker selected in one loop iteration is the first `$` at or after
`search_offset`, with the kind given by the character that follows it. -/
theorem selectMarker_eq (s : List Char) (so : Nat) :
    selectMarker s so =
      match find_char '$' s so with
      | none => (none, 0, kDelimiterNone, 0)
      | some i => (some i, markerKind s i) := by
  unfold selectMarker
  rw [find_str_one]
  cases h : find_char '$' s so with
  | none =>
    simp [find_str_two_of_dollar_none h]
  | some i =>
    simp only [markerKind]
    by_cases hp : s[i + 1]? = some '('
    · have hc : s[i + 1]? ≠ some '{' := by rw [hp]; decide
      rw [find_str_two_of_dollar_hit h hp]
      rcases find_str_two_of_dollar_miss h hc with e | ⟨k, hk, e⟩
      · simp [e, hp, Npos.le, Npos.lt]
      · simp [e, hp, Npos.le, Npos.lt, hk]
    · by_cases hc : s[i + 1]? = some '{'
      · rw [find_str_two_of_dollar_hit h hc]
        rcases find_str_two_of_dollar_miss h hp with e | ⟨k, hk, e⟩
        · simp [e, hp, hc, Npos.le, Npos.lt]
        · have : ¬ k ≤ i := by omega
          simp [e, hp, hc, Npos.le, Npos.lt, hk, this]
      · rcases find_str_two_of_dollar_miss h hp with e | ⟨k, hk, e⟩ <;>
          rcases find_str_two_of_dollar_miss h hc with e2 | ⟨k2, hk2, e2⟩
        · simp [e, e2, hp, hc, Npos.le, Npos.lt]
        · have : ¬ k2 ≤ i := by omega
          simp [e, e2, hp, hc, Npos.le, Npos.lt, hk2, this]
        · have : ¬ k ≤ i := by omega
          simp [e, e2, hp, hc, Npos.le, Npos.lt, hk, this]
        · have : ¬ k ≤ i := by omega
          have : ¬ k2 ≤ i := by omega
          simp [e, e2, hp, hc, Npos.le, Npos.lt, hk, hk2, *]

theorem markerKind_start_ne_none (s : List Char) (i : Nat) :
    (markerKind s i).2.1 ≠ kDelimiterNone := by
  unfold markerKind
  split
  · simp
  · split <;> simp

/-- One loop iteration of `ParseValue`, with the marker selection resolved. -/
theorem ParseValueLoop_succ (fuel : Nat) (s : List Char) (from_ : Nat) (end_ : ValueDelimiter)
    (so ao : Nat) (E : List Entry) :
    ParseValueLoop (fuel + 1) s from_ end_ so ao E =
      match terminator s end_ so with
      | none => some { found := false, end_ := from_, value := E }
      | some to_ =>
        match find_char '$' s so with
        | none => some { found := true, end_ := to_,
                         value := pushLiteral E s ao (to_ - ao) }
        | some i =>
          if i ≥ to_ then
            some { found := true, end_ := to_, value := pushLiteral E s ao (to_ - ao) }
          else
            match ParseValueLoop fuel s (i + (markerKind s i).1) (markerKind s i).2.1
                (i + (markerKind s i).1) (i + (markerKind s i).1) [] with
            | none => none
            | some result =>
              if result.found then
                ParseValueLoop fuel s from_ end_
                  (result.end_ + (markerKind s i).2.2) (result.end_ + (markerKind s i).2.2)
                  (pushLiteral E s ao (i - ao) ++ [.Value result.value])
              else
                ParseValueLoop fuel s from_ end_ (so + (markerKind s i).1) ao E := by
  rw [ParseValueLoop]
  cases ht : terminator s end_ so with
  | none => rfl
  | some to_ =>
    simp only []
    rw [selectMarker_eq]
    cases hd : find_char '$' s so with
    | none => rfl
    | some i =>
      simp only [markerKind_start_ne_none, false_or]

/-! ## Offsets stay inside the text; fuel -/

theorem getElem?_lt_of_eq_some {s : List Char} {i : Nat} {c : Char} (h : s[i]? = some c) :
    i < s.length := by
  by_contra hn
  rw [List.getElem?_eq_none (by omega)] at h; cases h

theorem terminator_bounds {s : List Char} {end_ : ValueDelimiter} {so t : Nat}
    (hso : so ≤ s.length) (h : terminator s end_ so = some t) :
    so ≤ t ∧ t + closeLen end_ ≤ s.length := by
  cases end_ with
  | kDelimiterNone =>
    simp only [terminator, Option.some.injEq] at h
    subst h; exact ⟨hso, by simp [closeLen]⟩
  | kDelimiterParentheses =>
    simp only [terminator] at h
    obtain ⟨h1, h2, _⟩ := find_char_eq_some_iff.1 h
    have := getElem?_lt_of_eq_some h2
    exact ⟨h1, by simp only [closeLen]; omega⟩
  | kDelimiterBraces =>
    simp only [terminator] at h
    obtain ⟨h1, h2, _⟩ := find_char_eq_some_iff.1 h
    have := getElem?_lt_of_eq_some h2
    exact ⟨h1, by simp only [closeLen]; omega⟩
  | kDelimiterIdentifier =>
    simp only [terminator] at h
    cases hf : find_first_not_of identifier s so with
    | none =>
      simp only [hf] at h
      split at h
      · cases h
      · simp only [Option.some.injEq] at h
        subst h; exact ⟨hso, by simp [closeLen]⟩
    | some k =>
      simp only [hf] at h
      obtain ⟨k1, ⟨c, k2, _⟩, _⟩ := find_first_not_of_eq_some_iff.1 hf
      have := getElem?_lt_of_eq_some k2
      split at h
      · cases h
      · simp only [Option.some.injEq] at h
        subst h; exact ⟨k1, by simp only [closeLen]; omega⟩

theorem markerKind_facts {s : List Char} {i : Nat} (h : s[i]? = some '$') :
    1 ≤ (markerKind s i).1 ∧ i + (markerKind s i).1 ≤ s.length ∧
      (markerKind s i).2.2 = closeLen (markerKind s i).2.1 := by
  have hi := getElem?_lt_of_eq_some h
  unfold markerKind
  by_cases hp : s[i + 1]? = some '('
  · have h2 := getElem?_lt_of_eq_some hp
    rw [if_pos hp]
    exact ⟨by simp, by simp only []; omega, rfl⟩
  · by_cases hc : s[i + 1]? = some '{'
    · have h2 := getElem?_lt_of_eq_some hc
      rw [if_neg hp, if_pos hc]
      exact ⟨by simp, by simp only []; omega, rfl⟩
    · rw [if_neg hp, if_neg hc]
      exact ⟨by simp, by simp only []; omega, rfl⟩

/-- With fuel for every remaining offset the loop returns a result, the same for
any such fuel; a successful result ends at a terminator found from an offset at
or after `search_offset`. -/
theorem ParseValueLoop_total :
    ∀ (fuel : Nat) (s : List Char) (from_ : Nat) (end_ : ValueDelimiter) (so ao : Nat)
      (E : List Entry), so ≤ s.length → s.length + 1 - so ≤ fuel →
      ∃ r, ParseValueLoop fuel s from_ end_ so ao E = some r ∧
        (r.found = true → ∃ so', so ≤ so' ∧ so' ≤ s.length ∧
          terminator s end_ so' = some r.end_) ∧
        (∀ fuel', s.length + 1 - so ≤ fuel' →
          ParseValueLoop fuel' s from_ end_ so ao E = some r) := by
  intro fuel
  induction fuel with
  | zero => intro s from_ end_ so ao E h1 h2; omega
  | succ fuel ih =>
    intro s from_ end_ so ao E hso hfuel
    have unfold' : ∀ fuel', s.length + 1 - so ≤ fuel' →
        ∃ f, fuel' = f + 1 ∧ s.length - so ≤ f := by
      intro fuel' h
      exact ⟨fuel' - 1, by omega, by omega⟩
    rw [ParseValueLoop_succ]
    cases ht : terminator s end_ so with
    | none =>
      refine ⟨_, rfl, by simp, ?_⟩
      intro fuel' hf
      obtain ⟨f, rfl, _⟩ := unfold' fuel' hf
      rw [ParseValueLoop_succ, ht]
    | some to_ =>
      have hfin : ∀ v, ∃ r, some ({ found := true, end_ := to_, value := v } : ParseResult) = some r ∧
          (r.found = true → ∃ so', so ≤ so' ∧ so' ≤ s.length ∧
            terminator s end_ so' = some r.end_) := by
        intro v
        exact ⟨_, rfl, fun _ => ⟨so, le_refl _, hso, ht⟩⟩
      simp only []
      cases hd : find_char '$' s so with
      | none =>
        obtain ⟨r, hr, hp⟩ := hfin (pushLiteral E s ao (to_ - ao))
        refine ⟨r, hr, hp, ?_⟩
        intro fuel' hf
        obtain ⟨f, rfl, _⟩ := unfold' fuel' hf
        rw [ParseValueLoop_succ, ht]; simp only []; rw [hd]; exact hr
      | some i =>
        simp only []
        by_cases hge : i ≥ to_
        · simp only [hge, if_true]
          obtain ⟨r, hr, hp⟩ := hfin (pushLiteral E s ao (to_ - ao))
          refine ⟨r, hr, hp, ?_⟩
          intro fuel' hf
          obtain ⟨f, rfl, _⟩ := unfold' fuel' hf
          rw [ParseValueLoop_succ, ht]; simp only []; rw [hd]; simp only [hge, if_true]; exact hr
        · simp only [hge, if_false]
          obtain ⟨i1, i2, _⟩ := find_char_eq_some_iff.1 hd
          obtain ⟨k1, k2, k3⟩ := markerKind_facts i2
          obtain ⟨r1, hr1, hb1, hi1⟩ := ih s (i + (markerKind s i).1) (markerKind s i).2.1
            (i + (markerKind s i).1) (i + (markerKind s i).1) [] k2 (by omega)
          rw [hr1]
          simp only []
          by_cases hfound : r1.found = true
          · simp only [hfound, if_true]
            obtain ⟨so1, s1, s2, s3⟩ := hb1 hfound
            obtain ⟨t1, t2⟩ := terminator_bounds s2 s3
            rw [← k3] at t2
            obtain ⟨r, hr, hb, hi⟩ := ih s from_ end_ (r1.end_ + (markerKind s i).2.2)
              (r1.end_ + (markerKind s i).2.2)
              (pushLiteral E s ao (i - ao) ++ [.Value r1.value]) t2 (by omega)
            refine ⟨r, hr, ?_, ?_⟩
            · intro h
              obtain ⟨so', a1, a2, a3⟩ := hb h
              exact ⟨so', by omega, a2, a3⟩
            · intro fuel' hf
              obtain ⟨f, rfl, _⟩ := unfold' fuel' hf
              rw [ParseValueLoop_succ, ht]; simp only []; rw [hd]
              simp only [hge, if_false]
              rw [hi1 f (by omega)]
              simp only [hfound, if_true]
              exact hi f (by omega)
          · simp only [hfound]
            obtain ⟨r, hr, hb, hi⟩ := ih s from_ end_ (so + (markerKind s i).1) ao E
              (by omega) (by omega)
            refine ⟨r, hr, ?_, ?_⟩
            · intro h
              obtain ⟨so', a1, a2, a3⟩ := hb h
              exact ⟨so', by omega, a2, a3⟩
            · intro fuel' hf
              obtain ⟨f, rfl, _⟩ := unfold' fuel' hf
              rw [ParseValueLoop_succ, ht]; simp only []; rw [hd]
              simp only [hge, if_false]
              rw [hi1 f (by omega)]
              simp only [hfound]
              exact hi f (by omega)

theorem ParseValueLoop_eq_PVL {s : List Char} {so : Nat} (hso : so ≤ s.length)
    {fuel : Nat} (hfuel : s.length + 1 - so ≤ fuel) (from_ : Nat) (end_ : ValueDelimiter)
    (ao : Nat) (E : List Entry) :
    ParseValueLoop fuel s from_ end_ so ao E = some (PVL s from_ end_ so ao E) := by
  obtain ⟨r, _, _, hi⟩ := ParseValueLoop_total fuel s from_ end_ so ao E hso hfuel
  rw [PVL, hi _ (le_refl _), hi _ hfuel]; rfl

/-- A successful result ends at a terminator found from an offset at or after
`search_offset`. -/
theorem PVL_found {s : List Char} {so : Nat} (hso : so ≤ s.length) (from_ : Nat)
    (end_ : ValueDelimiter) (ao : Nat) (E : List Entry)
    (h : (PVL s from_ end_ so ao E).found = true) :
    ∃ so', so ≤ so' ∧ so' ≤ s.length ∧
      terminator s end_ so' = some (PVL s from_ end_ so ao E).end_ := by
  obtain ⟨r, hr, hb, _⟩ :=
    ParseValueLoop_total _ s from_ end_ so ao E hso (le_refl _)
  have : PVL s from_ end_ so ao E = r := by rw [PVL, hr]; rfl
  rw [this] at h ⊢
  exact hb h

theorem PVL_found_bounds {s : List Char} {so : Nat} (hso : so ≤ s.length) (from_ : Nat)
    (end_ : ValueDelimiter) (ao : Nat) (E : List Entry)
    (h : (PVL s from_ end_ so ao E).found = true) :
    so ≤ (PVL s from_ end_ so ao E).end_ ∧
      (PVL s from_ end_ so ao E).end_ + closeLen end_ ≤ s.length := by
  obtain ⟨so', h1, h2, h3⟩ := PVL_found hso from_ end_ ao E h
  obtain ⟨t1, t2⟩ := terminator_bounds h2 h3
  exact ⟨by omega, t2⟩

/-- The loop of `ParseValue`, one iteration unfolded, free of fuel. -/
theorem PVL_unfold {s : List Char} {so : Nat} (hso : so ≤ s.length) (from_ : Nat)
    (end_ : ValueDelimiter) (ao : Nat) (E : List Entry) :
    PVL s from_ end_ so ao E =
      match terminator s end_ so with
      | none => { found := false, end_ := from_, value := E }
      | some to_ =>
        match find_char '$' s so with
        | none => { found := true, end_ := to_, value := pushLiteral E s ao (to_ - ao) }
        | some i =>
          if i ≥ to_ then
            { found := true, end_ := to_, value := pushLiteral E s ao (to_ - ao) }
          else
            if (PVL s (i + (markerKind s i).1) (markerKind s i).2.1
                (i + (markerKind s i).1) (i + (markerKind s i).1) []).found then
              PVL s from_ end_
                ((PVL s (i + (markerKind s i).1) (markerKind s i).2.1
                  (i + (markerKind s i).1) (i + (markerKind s i).1) []).end_
                    + (markerKind s i).2.2)
                ((PVL s (i + (markerKind s i).1) (markerKind s i).2.1
                  (i + (markerKind s i).1) (i + (markerKind s i).1) []).end_
                    + (markerKind s i).2.2)
                (pushLiteral E s ao (i - ao) ++
                  [.Value (PVL s (i + (markerKind s i).1) (markerKind s i).2.1
                    (i + (markerKind s i).1) (i + (markerKind s i).1) []).value])
            else
              PVL s from_ end_ (so + (markerKind s i).1) ao E := by
  have e : s.length + 1 - so = (s.length - so) + 1 := by omega
  conv_lhs => rw [PVL, e, ParseValueLoop_succ]
  cases ht : terminator s end_ so with
  | none => rfl
  | some to_ =>
    simp only []
    cases hd : find_char '$' s so with
    | none => rfl
    | some i =>
      simp only []
      by_cases hge : i ≥ to_
      · simp only [hge, if_true]; rfl
      · simp only [hge, if_false]
        obtain ⟨i1, i2, _⟩ := find_char_eq_some_iff.1 hd
        obtain ⟨k1, k2, k3⟩ := markerKind_facts i2
        rw [ParseValueLoop_eq_PVL k2 (by omega)]
        simp only []
        by_cases hfound : (PVL s (i + (markerKind s i).1) (markerKind s i).2.1
            (i + (markerKind s i).1) (i + (markerKind s i).1) []).found = true
        · simp only [hfound, if_true]
          obtain ⟨b1, b2⟩ := PVL_found_bounds k2 _ _ _ _ hfound
          rw [← k3] at b2
          rw [ParseValueLoop_eq_PVL b2 (by omega)]; rfl
        · have hf : (PVL s (i + (markerKind s i).1) (markerKind s i).2.1
              (i + (markerKind s i).1) (i + (markerKind s i).1) []).found = false := by
            simpa using hfound
          simp only [hf, Bool.false_eq_true, if_false]
          rw [ParseValueLoop_eq_PVL (by omega) (by omega)]; rfl

/-- `ParseValue` returns the loop's result. -/
theorem ParseValue_eq {s : List Char} {from_ : Nat} (h : from_ ≤ s.length)
    (end_ : ValueDelimiter) :
    ParseValue s from_ end_ = some (PVL s from_ end_ from_ from_ []) :=
  ParseValueLoop_eq_PVL h (by omega) _ _ _ _

theorem Parse_eq (s : List Char) :
    Value.Parse s = some (PVL s 0 kDelimiterNone 0 0 []).value := by
  rw [Value.Parse, ParseValue_eq (Nat.zero_le _)]; rfl

/-- Induction along the runs of the loop of `ParseValue`: a property of
`(from, end, search_offset, append_offset, entries, result)` that holds where
the loop returns, and is carried over a nested call followed by the next
iteration, holds of every run. -/
theorem PVL_induct (s : List Char)
    (P : Nat → ValueDelimiter → Nat → Nat → List Entry → ParseResult → Prop)
    (h_fail : ∀ from_ end_ so ao E, so ≤ s.length → terminator s end_ so = none →
      P from_ end_ so ao E { found := false, end_ := from_, value := E })
    (h_fin : ∀ from_ end_ so ao E to_, so ≤ s.length → terminator s end_ so = some to_ →
      (find_char '$' s so = none ∨ ∃ i, find_char '$' s so = some i ∧ i ≥ to_) →
      P from_ end_ so ao E
        { found := true, end_ := to_, value := pushLiteral E s ao (to_ - ao) })
    (h_ref : ∀ from_ end_ so ao E to_ i r1, so ≤ s.length →
      terminator s end_ so = some to_ → find_char '$' s so = some i → i < to_ →
      so ≤ i → s[i]? = some '$' →
      r1 = PVL s (i + (markerKind s i).1) (markerKind s i).2.1
        (i + (markerKind s i).1) (i + (markerKind s i).1) [] →
      P (i + (markerKind s i).1) (markerKind s i).2.1
        (i + (markerKind s i).1) (i + (markerKind s i).1) [] r1 →
      r1.found = true →
      P from_ end_ (r1.end_ + (markerKind s i).2.2) (r1.end_ + (markerKind s i).2.2)
        (pushLiteral E s ao (i - ao) ++ [.Value r1.value])
        (PVL s from_ end_ (r1.end_ + (markerKind s i).2.2) (r1.end_ + (markerKind s i).2.2)
          (pushLiteral E s ao (i - ao) ++ [.Value r1.value])) →
      P from_ end_ so ao E
        (PVL s from_ end_ (r1.end_ + (markerKind s i).2.2) (r1.end_ + (markerKind s i).2.2)
          (pushLiteral E s ao (i - ao) ++ [.Value r1.value])))
    (h_skip : ∀ from_ end_ so ao E to_ i r1, so ≤ s.length →
      terminator s end_ so = some to_ → find_char '$' s so = some i → i < to_ →
      so ≤ i → s[i]? = some '$' →
      r1 = PVL s (i + (markerKind s i).1) (markerKind s i).2.1
        (i + (markerKind s i).1) (i + (markerKind s i).1) [] →
      P (i + (markerKind s i).1) (markerKind s i).2.1
        (i + (markerKind s i).1) (i + (markerKind s i).1) [] r1 →
      r1.found = false →
      P from_ end_ (so + (markerKind s i).1) ao E
        (PVL s from_ end_ (so + (markerKind s i).1) ao E) →
      P from_ end_ so ao E (PVL s from_ end_ (so + (markerKind s i).1) ao E)) :
    ∀ from_ end_ so ao E, so ≤ s.length → P from_ end_ so ao E (PVL s from_ end_ so ao E) := by
  have main : ∀ n, ∀ from_ end_ so ao E, so ≤ s.length → s.length - so ≤ n →
      P from_ end_ so ao E (PVL s from_ end_ so ao E) := by
    intro n
    induction n with
    | zero =>
      intro from_ end_ so ao E hso hn
      have hsl : so = s.length := by omega
      rw [PVL_unfold hso]
      cases ht : terminator s end_ so with
      | none => exact h_fail _ _ _ _ _ hso ht
      | some to_ =>
        simp only []
        cases hd : find_char '$' s so with
        | none => exact h_fin _ _ _ _ _ _ hso ht (Or.inl hd)
        | some i =>
          obtain ⟨i1, i2, _⟩ := find_char_eq_some_iff.1 hd
          have := getElem?_lt_of_eq_some i2
          omega
    | succ n ih =>
      intro from_ end_ so ao E hso hn
      rw [PVL_unfold hso]
      cases ht : terminator s end_ so with
      | none => exact h_fail _ _ _ _ _ hso ht
      | some to_ =>
        simp only []
        cases hd : find_char '$' s so with
        | none => exact h_fin _ _ _ _ _ _ hso ht (Or.inl hd)
        | some i =>
          simp only []
          by_cases hge : i ≥ to_
          · simp only [hge, if_true]
            exact h_fin _ _ _ _ _ _ hso ht (Or.inr ⟨i, hd, hge⟩)
          · simp only [hge, if_false]
            obtain ⟨i1, i2, _⟩ := find_char_eq_some_iff.1 hd
            obtain ⟨k1, k2, k3⟩ := markerKind_facts i2
            have p1 := ih (i + (markerKind s i).1) (markerKind s i).2.1
              (i + (markerKind s i).1) (i + (markerKind s i).1) [] k2 (by omega)
            by_cases hfound : (PVL s (i + (markerKind s i).1) (markerKind s i).2.1
                (i + (markerKind s i).1) (i + (markerKind s i).1) []).found = true
            · simp only [hfound, if_true]
              obtain ⟨b1, b2⟩ := PVL_found_bounds k2 _ _ _ _ hfound
              rw [← k3] at b2
              exact h_ref _ _ _ _ _ _ _ _ hso ht hd (by omega) i1 i2 rfl p1 hfound
                (ih _ _ _ _ _ b2 (by omega))
            · have hf : (PVL s (i + (markerKind s i).1) (markerKind s i).2.1
                  (i + (markerKind s i).1) (i + (markerKind s i).1) []).found = false := by
                simpa using hfound
              simp only [hf, Bool.false_eq_true, if_false]
              exact h_skip _ _ _ _ _ _ _ _ hso ht hd (by omega) i1 i2 rfl p1 hf
                (ih _ _ _ _ _ (by omega) (by omega))
  intro from_ end_ so ao E hso
  exact main _ _ _ _ _ _ hso (le_refl _)

/-! ## The top-level parse always succeeds -/

theorem PVL_none_mode (s : List Char) :
    ∀ from_ so ao E, so ≤ s.length →
      (PVL s from_ kDelimiterNone so ao E).found = true ∧
        (PVL s from_ kDelimiterNone so ao E).end_ = s.length := by
  have h := PVL_induct s
    (fun _ end_ _ _ _ r => end_ = kDelimiterNone → r.found = true ∧ r.end_ = s.length)
    (by intro from_ end_ so ao E _ ht he; subst he; simp [terminator] at ht)
    (by
      intro from_ end_ so ao E to_ _ ht _ he
      subst he
      simp only [terminator, Option.some.injEq] at ht
      exact ⟨rfl, ht.symm⟩)
    (by intro from_ end_ so ao E to_ i r1 _ _ _ _ _ _ _ _ _ hc he; exact hc he)
    (by intro from_ end_ so ao E to_ i r1 _ _ _ _ _ _ _ _ _ hc he; exact hc he)
  intro from_ so ao E hso
  exact h from_ _ so ao E hso rfl

/-! ## The parser's output is well formed -/

theorem endsOpen_cons_cons (a b : Entry) (l : List Entry) :
    endsOpen (a :: b :: l) = endsOpen (b :: l) := rfl

theorem endsOpen_append_value (E : List Entry) (w : List Entry) :
    endsOpen (E ++ [.Value w]) = true := by
  induction E with
  | nil => rfl
  | cons a t ih =>
    cases t with
    | nil => rfl
    | cons b l => simpa [endsOpen_cons_cons] using ih

theorem wellFormed_append_value {E : List Entry} (hE : Value.wellFormed E = true)
    {w : List Entry} (hw : Value.wellFormed w = true) :
    Value.wellFormed (E ++ [.Value w]) = true := by
  induction E with
  | nil => simp [Value.wellFormed, Entry.wellFormed, hw, Entry.isString]
  | cons a t ih =>
    simp only [Value.wellFormed, Bool.and_eq_true] at hE
    obtain ⟨⟨h1, h2⟩, h3⟩ := hE
    simp only [List.cons_append, Value.wellFormed, Bool.and_eq_true]
    refine ⟨⟨h1, ?_⟩, ih h3⟩
    cases t with
    | nil => simp [startsWithString, Entry.isString]
    | cons b l => simpa [startsWithString] using h2

theorem wellFormed_append_string {E : List Entry} (hE : Value.wellFormed E = true)
    (hopen : endsOpen E = true) {l : List Char} (hl : l ≠ []) :
    Value.wellFormed (E ++ [.String l]) = true := by
  induction E with
  | nil => simp [Value.wellFormed, Entry.wellFormed, hl, startsWithString]
  | cons a t ih =>
    simp only [Value.wellFormed, Bool.and_eq_true] at hE
    obtain ⟨⟨h1, h2⟩, h3⟩ := hE
    simp only [List.cons_append, Value.wellFormed, Bool.and_eq_true]
    cases t with
    | nil =>
      simp only [endsOpen] at hopen
      refine ⟨⟨h1, ?_⟩, ?_⟩
      · cases a <;> simp_all [startsWithString, Entry.isString]
      · simp [Value.wellFormed, Entry.wellFormed, hl, startsWithString]
    | cons b l' =>
      rw [endsOpen_cons_cons] at hopen
      exact ⟨⟨h1, by simpa [startsWithString] using h2⟩, ih h3 hopen⟩

theorem substr_ne_nil {s : List Char} {ao len : Nat} (h1 : ao < s.length) (h2 : 0 < len) :
    substr s ao len ≠ [] := by
  unfold substr
  intro h
  have := congrArg List.length h
  simp only [List.length_take, List.length_drop, List.length_nil] at this
  omega

theorem wellFormed_pushLiteral {E : List Entry} (hE : Value.wellFormed E = true)
    (hopen : endsOpen E = true) {s : List Char} {ao b : Nat} (hb : b ≤ s.length) :
    Value.wellFormed (pushLiteral E s ao (b - ao)) = true := by
  unfold pushLiteral
  split
  · exact wellFormed_append_string hE hopen (substr_ne_nil (by omega) (by omega))
  · exact hE

theorem PVL_wellFormed (s : List Char) :
    ∀ from_ end_ so ao E, so ≤ s.length →
      Value.wellFormed E = true → endsOpen E = true →
      (PVL s from_ end_ so ao E).found = true →
      Value.wellFormed (PVL s from_ end_ so ao E).value = true := by
  refine PVL_induct s
    (fun _ _ _ _ E r => Value.wellFormed E = true → endsOpen E = true →
      r.found = true → Value.wellFormed r.value = true) ?_ ?_ ?_ ?_
  · intro from_ end_ so ao E _ _ _ _ hf; cases hf
  · intro from_ end_ so ao E to_ hso ht _ hE hopen _
    have hto := (terminator_bounds hso ht).2
    exact wellFormed_pushLiteral hE hopen (by omega)
  · intro from_ end_ so ao E to_ i r1 hso ht hd hlt _ _ _ p1 hfound pc hE hopen hf
    have hto := (terminator_bounds hso ht).2
    refine pc ?_ (endsOpen_append_value _ _) hf
    exact wellFormed_append_value
      (wellFormed_pushLiteral hE hopen (by omega)) (p1 rfl rfl hfound)
  · intro from_ end_ so ao E to_ i r1 _ _ _ _ _ _ _ _ _ pc hE hopen hf
    exact pc hE hopen hf

/-! ## Single steps of the loop -/

theorem PVL_fail {s : List Char} {so : Nat} (hso : so ≤ s.length) {end_ : ValueDelimiter}
    (ht : terminator s end_ so = none) (from_ ao : Nat) (E : List Entry) :
    PVL s from_ end_ so ao E = { found := false, end_ := from_, value := E } := by
  rw [PVL_unfold hso, ht]

theorem PVL_fin {s : List Char} {so : Nat} (hso : so ≤ s.length) {end_ : ValueDelimiter}
    {to_ : Nat} (ht : terminator s end_ so = some to_)
    (hd : ∀ i, find_char '$' s so = some i → to_ ≤ i) (from_ ao : Nat) (E : List Entry) :
    PVL s from_ end_ so ao E =
      { found := true, end_ := to_, value := pushLiteral E s ao (to_ - ao) } := by
  rw [PVL_unfold hso, ht]
  simp only []
  cases h : find_char '$' s so with
  | none => rfl
  | some i =>
    have := hd i h
    simp only []
    rw [if_pos this]

theorem PVL_ref {s : List Char} {so : Nat} (hso : so ≤ s.length) {end_ : ValueDelimiter}
    {to_ i : Nat} (ht : terminator s end_ so = some to_)
    (hd : find_char '$' s so = some i) (hlt : i < to_)
    {ol cl : Nat} {st : ValueDelimiter} (hk : markerKind s i = (ol, st, cl))
    {r1 : ParseResult} (hr1 : PVL s (i + ol) st (i + ol) (i + ol) [] = r1)
    (hfound : r1.found = true) (from_ ao : Nat) (E : List Entry) :
    PVL s from_ end_ so ao E =
      PVL s from_ end_ (r1.end_ + cl) (r1.end_ + cl)
        (pushLiteral E s ao (i - ao) ++ [.Value r1.value]) := by
  rw [PVL_unfold hso, ht]
  simp only []
  rw [hd]
  simp only []
  rw [if_neg (by omega), hk]
  simp only []
  rw [hr1, if_pos hfound]

theorem PVL_skip {s : List Char} {so : Nat} (hso : so ≤ s.length) {end_ : ValueDelimiter}
    {to_ i : Nat} (ht : terminator s end_ so = some to_)
    (hd : find_char '$' s so = some i) (hlt : i < to_)
    {ol cl : Nat} {st : ValueDelimiter} (hk : markerKind s i = (ol, st, cl))
    (hfound : (PVL s (i + ol) st (i + ol) (i + ol) []).found = false)
    (from_ ao : Nat) (E : List Entry) :
    PVL s from_ end_ so ao E = PVL s from_ end_ (so + ol) ao E := by
  rw [PVL_unfold hso, ht]
  simp only []
  rw [hd]
  simp only []
  rw [if_neg (by omega), hk]
  simp only []
  rw [hfound]
  simp

/-! ## Terminators -/

theorem terminator_none (s : List Char) (so : Nat) :
    terminator s kDelimiterNone so = some s.length := rfl

theorem terminator_close {s : List Char} {end_ : ValueDelimiter} {so t : Nat}
    (hm : end_ = kDelimiterParentheses ∨ end_ = kDelimiterBraces)
    (h : terminator s end_ so = some t) :
    so ≤ t ∧ s[t]? = some (if end_ = kDelimiterParentheses then ')' else '}') ∧
      ∀ j, so ≤ j → j < t →
        s[j]? ≠ some (if end_ = kDelimiterParentheses then ')' else '}') := by
  rcases hm with rfl | rfl
  · simp only [terminator] at h
    simpa using find_char_eq_some_iff.1 h
  · simp only [terminator] at h
    simpa using find_char_eq_some_iff.1 h

theorem terminator_identifier_some {s : List Char} {so t : Nat}
    (h : terminator s kDelimiterIdentifier so = some t) :
    so < t ∧ t ≤ s.length ∧ ∀ j, so ≤ j → j < t → ∀ c, s[j]? = some c → c ∈ identifier := by
  simp only [terminator] at h
  cases hf : find_first_not_of identifier s so with
  | none =>
    simp only [hf] at h
    split at h
    · cases h
    · simp only [Option.some.injEq] at h
      subst h
      refine ⟨by omega, le_refl _, ?_⟩
      intro j hj _ c hc
      exact find_first_not_of_eq_none_iff.1 hf j hj c hc
  | some k =>
    simp only [hf] at h
    obtain ⟨k1, ⟨c, k2, _⟩, k3⟩ := find_first_not_of_eq_some_iff.1 hf
    have := getElem?_lt_of_eq_some k2
    split at h
    · cases h
    · simp only [Option.some.injEq] at h
      subst h
      exact ⟨by omega, by omega, k3⟩

/-- A `$` that is not followed by an identifier character opens no
bare-identifier reference. -/
theorem terminator_identifier_none {s : List Char} {so : Nat}
    (h : ∀ c, s[so]? = some c → c ∉ identifier) :
    terminator s kDelimiterIdentifier so = none := by
  cases ht : terminator s kDelimiterIdentifier so with
  | none => rfl
  | some t =>
    obtain ⟨h1, h2, h3⟩ := terminator_identifier_some ht
    have hlt : so < s.length := by omega
    have hc : s[so]? = some s[so] := List.getElem?_eq_getElem hlt
    exact absurd (h3 so (le_refl _) h1 _ hc) (h _ hc)

theorem dollar_not_identifier : '$' ∉ identifier := by decide

/-- In bare-identifier mode the loop returns in its first iteration. -/
theorem PVL_identifier {s : List Char} {so : Nat} (hso : so ≤ s.length)
    (from_ ao : Nat) (E : List Entry) :
    PVL s from_ kDelimiterIdentifier so ao E =
      match terminator s kDelimiterIdentifier so with
      | none => { found := false, end_ := from_, value := E }
      | some to_ => { found := true, end_ := to_, value := pushLiteral E s ao (to_ - ao) } := by
  cases ht : terminator s kDelimiterIdentifier so with
  | none => exact PVL_fail hso ht _ _ _
  | some to_ =>
    refine PVL_fin hso ht ?_ _ _ _
    intro i hi
    obtain ⟨i1, i2, _⟩ := find_char_eq_some_iff.1 hi
    obtain ⟨_, _, h3⟩ := terminator_identifier_some ht
    by_contra hn
    exact dollar_not_identifier (h3 i i1 (by omega) _ i2)

/-! ## Text predicates, character by character -/

theorem dollarFollowedBy_false {p : Char → Bool} :
    ∀ {s : List Char}, dollarFollowedBy p s = false →
      ∀ i c, s[i]? = some '$' → s[i + 1]? = some c → p c = false := by
  intro s
  induction s with
  | nil => intro _ i c h; simp at h
  | cons a t ih =>
    intro h i c h1 h2
    simp only [dollarFollowedBy, Bool.or_eq_false_iff, Bool.and_eq_false_iff] at h
    obtain ⟨h3, h4⟩ := h
    cases i with
    | zero =>
      simp only [List.getElem?_cons_zero, Option.some.injEq] at h1
      subst h1
      simp only [zero_add, List.getElem?_cons_succ] at h2
      cases t with
      | nil => simp at h2
      | cons d t' =>
        simp only [List.getElem?_cons_zero, Option.some.injEq] at h2
        subst h2
        simpa using h3
    | succ i =>
      simp only [List.getElem?_cons_succ] at h1 h2
      exact ih h4 i c h1 h2

theorem openerHasCloser_false {o c : Char} :
    ∀ {s : List Char}, openerHasCloser o c s = false →
      ∀ i j, s[i]? = some '$' → s[i + 1]? = some o → i + 2 ≤ j → s[j]? ≠ some c := by
  intro s
  induction s with
  | nil => intro _ i j h; simp at h
  | cons a t ih =>
    intro h i j h1 h2 hj
    simp only [openerHasCloser, Bool.or_eq_false_iff] at h
    obtain ⟨h3, h4⟩ := h
    cases i with
    | zero =>
      simp only [List.getElem?_cons_zero, Option.some.injEq] at h1
      subst h1
      simp only [zero_add, List.getElem?_cons_succ] at h2
      obtain ⟨j', rfl⟩ : ∃ j', j = j' + 2 := ⟨j - 2, by omega⟩
      simp only [List.getElem?_cons_succ]
      cases t with
      | nil => simp
      | cons d t' =>
        simp only [List.getElem?_cons_zero, Option.some.injEq] at h2
        subst h2
        simp only [List.getElem?_cons_succ]
        intro hc
        have hm : c ∈ t' := List.mem_iff_getElem?.2 ⟨_, hc⟩
        simp [hm] at h3
    | succ i =>
      simp only [List.getElem?_cons_succ] at h1 h2
      obtain ⟨j', rfl⟩ : ∃ j', j = j' + 1 := ⟨j - 1, by omega⟩
      simp only [List.getElem?_cons_succ]
      exact ih h4 i j' h1 h2 (by omega)

/-! ## Substrings and `raw` -/

theorem substr_zero (s : List Char) (a : Nat) : substr s a 0 = [] := by
  simp [substr]

theorem substr_append {s : List Char} {a b c : Nat} (h1 : a ≤ b) (h2 : b ≤ c) :
    substr s a (b - a) ++ substr s b (c - b) = substr s a (c - a) := by
  unfold substr
  have e : c - a = (b - a) + (c - b) := by omega
  rw [e, List.take_add, List.drop_drop]
  have e2 : a + (b - a) = b := by omega
  rw [e2]

theorem substr_snoc {s : List Char} {a i : Nat} {c : Char} (h1 : a ≤ i)
    (h2 : s[i]? = some c) : substr s a (i - a) ++ [c] = substr s a (i + 1 - a) := by
  have h3 : substr s i (i + 1 - i) = [c] := by
    have hi := getElem?_lt_of_eq_some h2
    have e : i + 1 - i = 1 := by omega
    rw [e]
    unfold substr
    rw [List.drop_eq_getElem_cons hi]
    rw [List.getElem?_eq_getElem hi] at h2
    simp only [Option.some.injEq] at h2
    simp [h2]
  rw [← h3]
  exact substr_append h1 (by omega)

theorem substr_full (s : List Char) : substr s 0 s.length = s := by
  simp [substr]

theorem Value.raw_nil : Value.raw [] = [] := by simp [Value.raw]

theorem Value.raw_cons (e : Entry) (rest : List Entry) :
    Value.raw (e :: rest) = Entry.raw e ++ Value.raw rest := by simp [Value.raw]

theorem Value.raw_append (E F : List Entry) :
    Value.raw (E ++ F) = Value.raw E ++ Value.raw F := by
  induction E with
  | nil => simp [Value.raw_nil]
  | cons e t ih => simp [Value.raw_cons, ih]

theorem Value.raw_string (l : List Char) : Value.raw [.String l] = l := by
  simp [Value.raw, Entry.raw]

theorem Value.raw_value (w : List Entry) :
    Value.raw [.Value w] = ['$', '('] ++ Value.raw w ++ [')'] := by
  simp [Value.raw, Entry.raw]

theorem raw_pushLiteral (E : List Entry) (s : List Char) (ao len : Nat) :
    Value.raw (pushLiteral E s ao len) = Value.raw E ++ substr s ao len := by
  unfold pushLiteral
  split
  · rw [Value.raw_append, Value.raw_string]
  · have : len = 0 := by omega
    subst this
    simp [substr_zero]

/-! ## Texts whose only references are parenthesised -/

/-- When no `$` is followed by `{` or by an identifier character, a marker whose
nested parse succeeds is a `$(`. -/
theorem markerKind_of_found {s : List Char}
    (hb : dollarFollowedBy (fun c => c == '{') s = false)
    (hi : dollarFollowedBy (fun c => identifier.contains c) s = false)
    {i : Nat} (h : s[i]? = some '$')
    (hfound : (PVL s (i + (markerKind s i).1) (markerKind s i).2.1
      (i + (markerKind s i).1) (i + (markerKind s i).1) []).found = true) :
    s[i + 1]? = some '(' ∧ markerKind s i = (2, kDelimiterParentheses, 1) := by
  by_cases hp : s[i + 1]? = some '('
  · exact ⟨hp, by simp [markerKind, hp]⟩
  · exfalso
    have hc : s[i + 1]? ≠ some '{' := by
      intro hc
      have := dollarFollowedBy_false hb i '{' h hc
      simp at this
    have hk : markerKind s i = (1, kDelimiterIdentifier, 0) := by
      simp [markerKind, hp, hc]
    rw [hk] at hfound
    simp only [] at hfound
    have hlen : i + 1 ≤ s.length := getElem?_lt_of_eq_some h
    rw [PVL_identifier hlen, terminator_identifier_none] at hfound
    · cases hfound
    · intro c hc2 hmem
      have := dollarFollowedBy_false hi i c h hc2
      simp only [List.contains_iff_exists_mem_beq, beq_iff_eq, exists_eq_right',
        decide_eq_false_iff_not] at this
      simp_all

theorem PVL_raw {s : List Char}
    (hb : dollarFollowedBy (fun c => c == '{') s = false)
    (hi : dollarFollowedBy (fun c => identifier.contains c) s = false) :
    ∀ from_ end_ so ao E, so ≤ s.length → ao ≤ so →
      (PVL s from_ end_ so ao E).found = true →
      Value.raw (PVL s from_ end_ so ao E).value =
        Value.raw E ++ substr s ao ((PVL s from_ end_ so ao E).end_ - ao) := by
  refine PVL_induct s
    (fun _ _ so ao E r => ao ≤ so → r.found = true →
      Value.raw r.value = Value.raw E ++ substr s ao (r.end_ - ao)) ?_ ?_ ?_ ?_
  · intro from_ end_ so ao E _ _ _ hf; cases hf
  · intro from_ end_ so ao E to_ hso ht _ _ _
    exact raw_pushLiteral _ _ _ _
  · intro from_ end_ so ao E to_ i r1 hso ht hd hlt hsoi hdol hr1 p1 hfound pc hao hf
    have hfound' := hfound
    rw [hr1] at hfound'
    obtain ⟨hparen, hk⟩ := markerKind_of_found hb hi hdol hfound'
    rw [hk] at hr1 p1 pc hf ⊢
    simp only [] at hr1 p1 pc hf ⊢
    have hlen2 : i + 2 ≤ s.length := getElem?_lt_of_eq_some hparen
    -- the nested span
    have q1 := p1 (le_refl _) hfound
    rw [Value.raw_nil, List.nil_append] at q1
    have hfound2 := hfound
    rw [hr1] at hfound2
    obtain ⟨so1, a1, a2, a3⟩ := PVL_found hlen2 _ _ _ _ hfound2
    rw [← hr1] at a3
    obtain ⟨c1, c2, _⟩ := terminator_close (Or.inl rfl) a3
    simp only [if_true] at c2
    have hend : r1.end_ + 1 ≤ s.length := getElem?_lt_of_eq_some c2
    -- the rest of the span
    have q2 := pc (le_refl _) hf
    obtain ⟨b1, _⟩ := PVL_found_bounds hend _ _ _ _ hf
    rw [q2, Value.raw_append, raw_pushLiteral, Value.raw_value, q1]
    simp only [List.append_assoc]
    congr 1
    have e1 : substr s ao (i - ao) ++ ['$'] = substr s ao (i + 1 - ao) :=
      substr_snoc (by omega) hdol
    have e2 : substr s ao (i + 1 - ao) ++ ['('] = substr s ao (i + 2 - ao) :=
      substr_snoc (by omega) hparen
    have e3 : substr s ao (i + 2 - ao) ++ substr s (i + 2) (r1.end_ - (i + 2)) =
        substr s ao (r1.end_ - ao) := substr_append (by omega) (by omega)
    have e4 : substr s ao (r1.end_ - ao) ++ [')'] = substr s ao (r1.end_ + 1 - ao) :=
      substr_snoc (by omega) c2
    have e5 := @substr_append s ao (r1.end_ + 1) _ (by omega) b1
    rw [← e5, ← e4, ← e3, ← e2, ← e1]
    simp [List.append_assoc]
  · intro from_ end_ so ao E to_ i r1 _ _ _ _ _ _ _ _ _ pc hao hf
    exact pc (by omega) hf

/-! ## Texts without a well-formed reference -/

/-- When no `$(` has a `)` after it, no `${` has a `}` after it and no `$` is
followed by an identifier character, no marker opens a reference. -/
theorem nested_not_found {s : List Char}
    (hp : openerHasCloser '(' ')' s = false) (hb : openerHasCloser '{' '}' s = false)
    (hi : dollarFollowedBy (fun c => identifier.contains c) s = false)
    {i : Nat} (h : s[i]? = some '$') :
    (PVL s (i + (markerKind s i).1) (markerKind s i).2.1
      (i + (markerKind s i).1) (i + (markerKind s i).1) []).found = false := by
  obtain ⟨_, k2, _⟩ := markerKind_facts h
  cases hfound : (PVL s (i + (markerKind s i).1) (markerKind s i).2.1
      (i + (markerKind s i).1) (i + (markerKind s i).1) []).found with
  | false => rfl
  | true =>
    exfalso
    obtain ⟨so1, a1, a2, a3⟩ := PVL_found k2 _ _ _ _ hfound
    by_cases hq : s[i + 1]? = some '('
    · have hk : markerKind s i = (2, kDelimiterParentheses, 1) := by simp [markerKind, hq]
      rw [hk] at a1 a3
      simp only [] at a1 a3
      obtain ⟨c1, c2, _⟩ := terminator_close (Or.inl rfl) a3
      simp only [if_true] at c2
      exact openerHasCloser_false hp i _ h hq (by omega) c2
    · by_cases hc : s[i + 1]? = some '{'
      · have hk : markerKind s i = (2, kDelimiterBraces, 1) := by simp [markerKind, hc]
        rw [hk] at a1 a3
        simp only [] at a1 a3
        obtain ⟨c1, c2, _⟩ := terminator_close (Or.inr rfl) a3
        simp only [reduceCtorEq, if_false] at c2
        exact openerHasCloser_false hb i _ h hc (by omega) c2
      · have hk : markerKind s i = (1, kDelimiterIdentifier, 0) := by
          simp [markerKind, hq, hc]
        rw [hk] at hfound
        simp only [] at hfound
        have hlen : i + 1 ≤ s.length := getElem?_lt_of_eq_some h
        rw [PVL_identifier hlen, terminator_identifier_none] at hfound
        · cases hfound
        · intro c hc2 hmem
          have := dollarFollowedBy_false hi i c h hc2
          simp only [List.contains_iff_exists_mem_beq, beq_iff_eq, exists_eq_right',
            decide_eq_false_iff_not] at this
          simp_all

theorem pushLiteral_whole (s : List Char) :
    pushLiteral [] s 0 (s.length - 0) = Value.String s := by
  unfold pushLiteral Value.String Value.Empty
  cases s with
  | nil => simp
  | cons c t => simp [substr]

theorem PVL_literal {s : List Char}
    (hp : openerHasCloser '(' ')' s = false) (hb : openerHasCloser '{' '}' s = false)
    (hi : dollarFollowedBy (fun c => identifier.contains c) s = false) :
    ∀ from_ so, so ≤ s.length →
      (PVL s from_ kDelimiterNone so 0 []).value = Value.String s := by
  have h := PVL_induct s
    (fun _ end_ _ ao E r => end_ = kDelimiterNone → ao = 0 → E = [] →
      r.value = Value.String s)
    (by intro from_ end_ so ao E _ ht he; subst he; simp [terminator] at ht)
    (by
      intro from_ end_ so ao E to_ _ ht _ he hao hE
      subst he hao hE
      simp only [terminator, Option.some.injEq] at ht
      subst ht
      exact pushLiteral_whole s)
    (by
      intro from_ end_ so ao E to_ i r1 _ _ _ _ _ hdol hr1 _ hfound _ _ _ _
      rw [hr1, nested_not_found hp hb hi hdol] at hfound
      cases hfound)
    (by intro from_ end_ so ao E to_ i r1 _ _ _ _ _ _ _ _ _ pc he hao hE; exact pc he hao hE)
  intro from_ so hso
  exact h from_ _ so 0 [] hso rfl rfl rfl

theorem Value.raw_String (s : List Char) : Value.raw (Value.String s) = s := by
  unfold Value.String Value.Empty
  cases s with
  | nil => simp [Value.raw_nil]
  | cons c t => simp [Value.raw_string]

/-! ## Characters of concatenated texts -/

theorem getElem?_append_cons (A : List Char) (c : Char) (B : List Char) :
    (A ++ c :: B)[A.length]? = some c := by
  rw [List.getElem?_append_right (le_refl _)]
  simp

theorem getElem?_append_mid (A M B : List Char) {j : Nat} (h1 : A.length ≤ j)
    (h2 : j < A.length + M.length) : (A ++ (M ++ B))[j]? = M[j - A.length]? := by
  rw [List.getElem?_append_right h1, List.getElem?_append_left (by omega)]

theorem not_mem_of_contains_false {l : List Char} {c : Char} (h : (!l.contains c) = true) :
    c ∉ l := by
  simpa using h

theorem getElem?_ne_of_not_mem {l : List Char} {c : Char} (h : c ∉ l) (k : Nat) :
    l[k]? ≠ some c := by
  intro hk
  exact h (List.mem_iff_getElem?.2 ⟨k, hk⟩)

/-- In `A ++ M ++ B`, the characters at the offsets of `M` avoid what `M` avoids. -/
theorem getElem?_mid_ne (A M B : List Char) {c : Char} (h : c ∉ M) {j : Nat}
    (h1 : A.length ≤ j) (h2 : j < A.length + M.length) : (A ++ (M ++ B))[j]? ≠ some c := by
  rw [getElem?_append_mid A M B h1 h2]
  exact getElem?_ne_of_not_mem h _

theorem substr_mid (A M B : List Char) : substr (A ++ (M ++ B)) A.length M.length = M := by
  simp [substr]

/-- The first `c` at or after the start of `M` in `A ++ M ++ c :: B`, when `M`
has no `c`, is the one right after `M`. -/
theorem find_char_after (A M B : List Char) {c : Char} (h : c ∉ M) :
    find_char c (A ++ (M ++ c :: B)) A.length = some (A.length + M.length) := by
  rw [find_char_eq_some_iff]
  refine ⟨by omega, ?_, ?_⟩
  · have := getElem?_append_cons (A ++ M) c B
    simpa [List.append_assoc] using this
  · intro j h1 h2
    exact getElem?_mid_ne A M (c :: B) h h1 h2

/-- A search that starts inside a stretch free of `c` finds nothing before the
end of that stretch. -/
theorem find_char_ge (A M B : List Char) {c : Char} (h : c ∉ M) {i : Nat}
    (hf : find_char c (A ++ (M ++ B)) A.length = some i) : A.length + M.length ≤ i := by
  obtain ⟨h1, h2, _⟩ := find_char_eq_some_iff.1 hf
  by_contra hn
  exact getElem?_mid_ne A M B h h1 (by omega) h2

/-! ## Size of a value, for induction over nested values -/

theorem Value.size_cons_string (l : List Char) (rest : List Entry) :
    Value.size (.String l :: rest) = 1 + Value.size rest := by
  simp [Value.size, Entry.size]

theorem Value.size_cons_value (w rest : List Entry) :
    Value.size (.Value w :: rest) = 1 + Value.size w + Value.size rest := by
  simp [Value.size, Entry.size]

theorem Value.literalsAvoid_nested {c : Char} :
    ∀ {v : List Entry}, Value.literalsAvoid c v = true →
      Value.nestedLiteralsAvoid c v = true := by
  intro v
  induction v with
  | nil => intro _; rfl
  | cons e t ih =>
    intro h
    simp only [Value.literalsAvoid, Bool.and_eq_true] at h
    cases e with
    | String l => simpa [Value.nestedLiteralsAvoid] using ih h.2
    | Value w =>
      simp only [Entry.literalsAvoid] at h
      simp [Value.nestedLiteralsAvoid, h.1, ih h.2]

/-! ## Parsing a serialized value -/

theorem terminator_at_end {m : ValueDelimiter} (A M suf : List Char)
    (hm : (m = kDelimiterNone ∧ suf = []) ∨
      (m = kDelimiterParentheses ∧ (∃ suf', suf = ')' :: suf') ∧ ')' ∉ M)) :
    terminator (A ++ (M ++ suf)) m A.length = some (A.length + M.length) := by
  rcases hm with ⟨rfl, rfl⟩ | ⟨rfl, ⟨suf', rfl⟩, h⟩
  · simp [terminator]
  · simp only [terminator]
    exact find_char_after A M suf' h

theorem terminator_past_marker {m : ValueDelimiter} (A M R : List Char)
    (hm : m = kDelimiterNone ∨ (m = kDelimiterParentheses ∧ ')' ∉ M ∧ ')' ∈ R)) :
    ∃ t, terminator (A ++ (M ++ '$' :: R)) m A.length = some t ∧ A.length + M.length < t := by
  rcases hm with rfl | ⟨rfl, h1, h2⟩
  · exact ⟨_, rfl, by simp⟩
  · simp only [terminator]
    cases hf : find_char ')' (A ++ (M ++ '$' :: R)) A.length with
    | none =>
      exfalso
      obtain ⟨k, hk⟩ := List.mem_iff_getElem?.1 h2
      have := find_char_eq_none_iff.1 hf (A.length + M.length + 1 + k) (by omega)
      apply this
      have e : A ++ (M ++ '$' :: R) = (A ++ M ++ ['$']) ++ R := by simp
      rw [e, List.getElem?_append_right (by simp; omega)]
      have e2 : A.length + M.length + 1 + k - (A ++ M ++ ['$']).length = k := by
        simp; omega
      rw [e2]; exact hk
    | some t =>
      refine ⟨t, rfl, ?_⟩
      have hge := find_char_ge A M ('$' :: R) h1 hf
      obtain ⟨_, h3, _⟩ := find_char_eq_some_iff.1 hf
      rcases Nat.lt_or_ge (A.length + M.length) t with h | h
      · exact h
      · exfalso
        have e : t = A.length + M.length := by omega
        subst e
        have := getElem?_append_cons (A ++ M) '$' R
        simp only [List.append_assoc, List.length_append] at this
        rw [this] at h3
        simp at h3

theorem pushLiteral_mid (E : List Entry) (A M B : List Char) :
    pushLiteral E (A ++ (M ++ B)) A.length M.length =
      if M = [] then E else E ++ [.String M] := by
  unfold pushLiteral
  cases M with
  | nil => simp
  | cons c t =>
    have : 0 < (c :: t).length := by simp
    rw [if_pos this, substr_mid]
    simp

/-- One serialized reference, preceded by pending literal text `l`: the loop
flushes `l`, appends the reference and goes on after its `)`. -/
theorem PVL_ref_step {m : ValueDelimiter} (pre l : List Char) (w : List Entry)
    (R : List Char) {s : List Char}
    (hs : s = pre ++ (l ++ ('$' :: '(' :: (Value.raw w ++ ')' :: R))))
    (hl : '$' ∉ l) (hm : m = kDelimiterNone ∨ (m = kDelimiterParentheses ∧ ')' ∉ l))
    (hnested : PVL s (pre.length + l.length + 2) kDelimiterParentheses
      (pre.length + l.length + 2) (pre.length + l.length + 2) [] =
      { found := true, end_ := pre.length + l.length + 2 + (Value.raw w).length, value := w })
    (from_ : Nat) (E : List Entry) :
    PVL s from_ m pre.length pre.length E =
      PVL s from_ m (pre.length + l.length + 2 + (Value.raw w).length + 1)
        (pre.length + l.length + 2 + (Value.raw w).length + 1)
        ((if l = [] then E else E ++ [.String l]) ++ [.Value w]) := by
  have hso : pre.length ≤ s.length := by rw [hs]; simp
  obtain ⟨t, ht, hlt⟩ := terminator_past_marker (m := m) pre l
    ('(' :: (Value.raw w ++ ')' :: R))
    (by
      rcases hm with h | ⟨h1, h2⟩
      · exact Or.inl h
      · exact Or.inr ⟨h1, h2, by simp⟩)
  rw [← hs] at ht
  have hd : find_char '$' s pre.length = some (pre.length + l.length) := by
    rw [hs]; exact find_char_after pre l _ hl
  have hparen : s[pre.length + l.length + 1]? = some '(' := by
    have e : s = (pre ++ l ++ ['$']) ++ '(' :: (Value.raw w ++ ')' :: R) := by
      rw [hs]; simp
    have := getElem?_append_cons (pre ++ l ++ ['$']) '(' (Value.raw w ++ ')' :: R)
    rw [← e] at this
    simpa using this
  have hk : markerKind s (pre.length + l.length) = (2, kDelimiterParentheses, 1) := by
    simp [markerKind, hparen]
  have h := PVL_ref hso ht hd hlt hk hnested rfl from_ pre.length E
  rw [h]
  simp only []
  have e1 : pre.length + l.length - pre.length = l.length := by omega
  rw [e1]
  have e2 : pushLiteral E s pre.length l.length = if l = [] then E else E ++ [.String l] := by
    rw [hs]; exact pushLiteral_mid E pre l _
  rw [e2]

theorem ModeOk_string {m : ValueDelimiter} {l : List Char} {rest : List Entry}
    {suf : List Char} (h : ModeOk m (.String l :: rest) suf) :
    (m = kDelimiterNone ∨ (m = kDelimiterParentheses ∧ ')' ∉ l)) ∧ ModeOk m rest suf := by
  rcases h with ⟨h1, h2, h3⟩ | ⟨h1, h2, h3⟩
  · exact ⟨Or.inl h1, Or.inl ⟨h1, h2, by simpa [Value.nestedLiteralsAvoid] using h3⟩⟩
  · simp only [Value.literalsAvoid, Entry.literalsAvoid, Bool.and_eq_true] at h3
    exact ⟨Or.inr ⟨h1, not_mem_of_contains_false h3.1⟩, Or.inr ⟨h1, h2, h3.2⟩⟩

theorem ModeOk_value {m : ValueDelimiter} {w rest : List Entry} {suf : List Char}
    (h : ModeOk m (.Value w :: rest) suf) :
    Value.literalsAvoid ')' w = true ∧ ModeOk m rest suf := by
  rcases h with ⟨h1, h2, h3⟩ | ⟨h1, h2, h3⟩
  · simp only [Value.nestedLiteralsAvoid, Bool.and_eq_true] at h3
    exact ⟨h3.1, Or.inl ⟨h1, h2, h3.2⟩⟩
  · simp only [Value.literalsAvoid, Entry.literalsAvoid, Bool.and_eq_true] at h3
    exact ⟨h3.1, Or.inr ⟨h1, h2, h3.2⟩⟩

theorem ModeOk_end {m : ValueDelimiter} {v : List Entry} {suf : List Char}
    (h : ModeOk m v suf) {l : List Char}
    (hl : m = kDelimiterNone ∨ (m = kDelimiterParentheses ∧ ')' ∉ l)) :
    (m = kDelimiterNone ∧ suf = []) ∨
      (m = kDelimiterParentheses ∧ (∃ suf', suf = ')' :: suf') ∧ ')' ∉ l) := by
  rcases h with ⟨h1, h2, _⟩ | ⟨h1, h2, _⟩
  · exact Or.inl ⟨h1, h2⟩
  · rcases hl with h | ⟨_, h⟩
    · rw [h1] at h; cases h
    · exact Or.inr ⟨h1, h2, h⟩

/-- Pending literal text `l` up to the terminator: the loop finalizes with `l`. -/
theorem PVL_of_raw_literal {m : ValueDelimiter} (pre l suf : List Char) {s : List Char}
    (hs : s = pre ++ (l ++ suf)) (hl : '$' ∉ l)
    (hm : (m = kDelimiterNone ∧ suf = []) ∨
      (m = kDelimiterParentheses ∧ (∃ suf', suf = ')' :: suf') ∧ ')' ∉ l))
    (from_ : Nat) (E : List Entry) :
    PVL s from_ m pre.length pre.length E =
      { found := true, end_ := pre.length + l.length,
        value := if l = [] then E else E ++ [.String l] } := by
  have hso : pre.length ≤ s.length := by rw [hs]; simp
  have ht : terminator s m pre.length = some (pre.length + l.length) := by
    rw [hs]; exact terminator_at_end pre l suf hm
  have hd : ∀ i, find_char '$' s pre.length = some i → pre.length + l.length ≤ i := by
    intro i hi
    rw [hs] at hi
    exact find_char_ge pre l suf hl hi
  rw [PVL_fin hso ht hd]
  have e1 : pre.length + l.length - pre.length = l.length := by omega
  rw [e1, hs, pushLiteral_mid]

theorem Entry.size_pos (e : Entry) : 1 ≤ Entry.size e := by
  cases e <;> simp [Entry.size]

/-- Parsing the serialization of a value gives the value back: `v` is well
formed, its literals avoid `$`, and avoid `)` as far as the mode requires. -/
theorem PVL_of_raw : ∀ (n : Nat) (v : List Entry), Value.size v ≤ n →
    ∀ (m : ValueDelimiter) (s pre suf : List Char) (p from_ : Nat) (E : List Entry),
      s = pre ++ (Value.raw v ++ suf) → p = pre.length →
      Value.wellFormed v = true → Value.literalsAvoid '$' v = true → ModeOk m v suf →
      PVL s from_ m p p E =
        { found := true, end_ := p + (Value.raw v).length, value := E ++ v } := by
  intro n
  induction n with
  | zero =>
    intro v hv m s pre suf p from_ E hs hp _ _ hm
    cases v with
    | nil =>
      subst hp
      have := PVL_of_raw_literal (m := m) pre [] suf (by simpa [Value.raw_nil] using hs)
        (by simp) (ModeOk_end hm (by
          rcases hm with ⟨h, _⟩ | ⟨h, _⟩
          · exact Or.inl h
          · exact Or.inr ⟨h, by simp⟩)) from_ E
      simpa [Value.raw_nil] using this
    | cons e t =>
      have := Entry.size_pos e
      simp only [Value.size] at hv
      omega
  | succ n ih =>
    intro v hv m s pre suf p from_ E hs hp hwf hdol hm
    subst hp
    -- a reference preceded by pending literal text `l`
    have key : ∀ (l : List Char) (w rest : List Entry),
        Value.size w ≤ n → Value.size rest ≤ n →
        s = pre ++ (l ++ ('$' :: '(' :: (Value.raw w ++ ')' :: (Value.raw rest ++ suf)))) →
        '$' ∉ l → (m = kDelimiterNone ∨ (m = kDelimiterParentheses ∧ ')' ∉ l)) →
        Value.wellFormed w = true → Value.literalsAvoid '$' w = true →
        Value.literalsAvoid ')' w = true →
        Value.wellFormed rest = true → Value.literalsAvoid '$' rest = true →
        ModeOk m rest suf →
        PVL s from_ m pre.length pre.length E =
          { found := true,
            end_ := pre.length + l.length + 2 + (Value.raw w).length + 1
              + (Value.raw rest).length,
            value := (if l = [] then E else E ++ [.String l]) ++ .Value w :: rest } := by
      intro l w rest hw hrest hs' hl hml w1 w2 w3 r1 r2 r3
      have hnested := ih w hw kDelimiterParentheses s (pre ++ (l ++ ['$', '(']))
        (')' :: (Value.raw rest ++ suf)) (pre.length + l.length + 2)
        (pre.length + l.length + 2) [] (by rw [hs']; simp) (by simp; omega) w1 w2
        (Or.inr ⟨rfl, ⟨_, rfl⟩, w3⟩)
      rw [List.nil_append] at hnested
      rw [PVL_ref_step pre l w (Value.raw rest ++ suf) hs' hl hml hnested from_ E]
      have hrestrun := ih rest hrest m s
        (pre ++ (l ++ ('$' :: '(' :: (Value.raw w ++ [')'])))) suf
        (pre.length + l.length + 2 + (Value.raw w).length + 1) from_
        ((if l = [] then E else E ++ [.String l]) ++ [.Value w])
        (by rw [hs']; simp) (by simp; omega) r1 r2 r3
      rw [hrestrun]
      simp
    cases v with
    | nil =>
      have := PVL_of_raw_literal (m := m) pre [] suf (by simpa [Value.raw_nil] using hs)
        (by simp) (ModeOk_end hm (by
          rcases hm with ⟨h, _⟩ | ⟨h, _⟩
          · exact Or.inl h
          · exact Or.inr ⟨h, by simp⟩)) from_ E
      simpa [Value.raw_nil] using this
    | cons e rest =>
      cases e with
      | String l =>
        simp only [Value.wellFormed, Entry.wellFormed, Bool.and_eq_true] at hwf
        obtain ⟨⟨hl1, hadj⟩, hwfr⟩ := hwf
        simp only [Value.literalsAvoid, Entry.literalsAvoid, Bool.and_eq_true] at hdol
        obtain ⟨hl2, hdolr⟩ := hdol
        have hl3 := not_mem_of_contains_false hl2
        have hne : l ≠ [] := by
          intro h; subst h; simp at hl1
        obtain ⟨hml, hmr⟩ := ModeOk_string hm
        cases rest with
        | nil =>
          have := PVL_of_raw_literal (m := m) pre l suf
            (by simpa [Value.raw_cons, Value.raw_nil, Entry.raw] using hs) hl3
            (ModeOk_end hm hml) from_ E
          simpa [Value.raw_cons, Value.raw_nil, Entry.raw, hne] using this
        | cons e2 rest' =>
          cases e2 with
          | String l2 => simp [Entry.isString, startsWithString] at hadj
          | Value w =>
            simp only [Value.wellFormed, Entry.wellFormed, Bool.and_eq_true] at hwfr
            simp only [Value.literalsAvoid, Entry.literalsAvoid, Bool.and_eq_true] at hdolr
            obtain ⟨hmw, hmr'⟩ := ModeOk_value hmr
            rw [Value.size_cons_string, Value.size_cons_value] at hv
            have := key l w rest' (by omega) (by omega)
              (by rw [hs]; simp [Value.raw_cons, Entry.raw]) hl3 hml
              hwfr.1.1 hdolr.1 hmw hwfr.2 hdolr.2 hmr'
            rw [this]
            simp [Value.raw_cons, Entry.raw, hne]
            omega
      | Value w =>
        simp only [Value.wellFormed, Entry.wellFormed, Bool.and_eq_true] at hwf
        simp only [Value.literalsAvoid, Entry.literalsAvoid, Bool.and_eq_true] at hdol
        obtain ⟨hmw, hmr⟩ := ModeOk_value hm
        rw [Value.size_cons_value] at hv
        have := key [] w rest (by omega) (by omega)
          (by rw [hs]; simp [Value.raw_cons, Entry.raw]) (by simp)
          (by
            rcases hm with ⟨h, _⟩ | ⟨h, _⟩
            · exact Or.inl h
            · exact Or.inr ⟨h, by simp⟩)
          hwf.1.1 hdol.1 hmw hwf.2 hdol.2 hmr
        rw [this]
        simp [Value.raw_cons, Entry.raw]
        omega

/-- Parsing the serialization of a well-formed value whose literals avoid `$`
and whose nested literals avoid `)` gives the value back. -/
theorem Parse_raw_of_clean {v : List Entry} (hwf : Value.wellFormed v = true)
    (hdol : Value.literalsAvoid '$' v = true)
    (hpar : Value.nestedLiteralsAvoid ')' v = true) :
    Value.Parse (Value.raw v) = some v := by
  rw [Parse_eq]
  have := PVL_of_raw (Value.size v) v (le_refl _) kDelimiterNone (Value.raw v) [] [] 0 0 []
    (by simp) rfl hwf hdol (Or.inl ⟨rfl, rfl, hpar⟩)
  rw [this]
  simp

/-! ## The three spellings of a reference -/

/-- At the end of the text the top-level loop returns what it has collected. -/
theorem PVL_at_end (s : List Char) (from_ : Nat) (E : List Entry) :
    PVL s from_ kDelimiterNone s.length s.length E =
      { found := true, end_ := s.length, value := E } := by
  have ht : terminator s kDelimiterNone s.length = some s.length := rfl
  rw [PVL_fin (le_refl _) ht (fun i hi => (find_char_eq_some_iff.1 hi).1)]
  simp [pushLiteral]

theorem Parse_brace {X : List Char} (hne : X ≠ []) (hdol : '$' ∉ X) (hclose : '}' ∉ X) :
    Value.Parse (['$', '{'] ++ X ++ ['}']) = some (Value.Variable X) := by
  rw [Parse_eq]
  generalize hs : ['$', '{'] ++ X ++ ['}'] = s
  have hs1 : s = [] ++ ([] ++ '$' :: ('{' :: (X ++ ['}']))) := by rw [← hs]; simp
  have hs2 : s = ['$', '{'] ++ (X ++ '}' :: []) := by rw [← hs]; simp
  have hlen : s.length = 2 + X.length + 1 := by rw [← hs]; simp; omega
  have hd : find_char '$' s 0 = some 0 := by
    rw [hs1]; exact find_char_after [] [] _ (by simp)
  have hk : markerKind s 0 = (2, kDelimiterBraces, 1) := by
    rw [← hs]; simp [markerKind]
  have hnested : PVL s (0 + 2) kDelimiterBraces (0 + 2) (0 + 2) [] =
      { found := true, end_ := 2 + X.length, value := [.String X] } := by
    have ht : terminator s kDelimiterBraces 2 = some (2 + X.length) := by
      rw [hs2]; exact find_char_after ['$', '{'] X [] hclose
    have hd2 : ∀ i, find_char '$' s 2 = some i → 2 + X.length ≤ i := by
      intro i hi
      rw [hs2] at hi
      exact find_char_ge ['$', '{'] X _ hdol hi
    rw [PVL_fin (by omega) ht hd2]
    have e : 2 + X.length - (0 + 2) = X.length := by omega
    rw [e, hs2]
    have := pushLiteral_mid [] ['$', '{'] X ['}']
    simp only [List.length_cons, List.length_nil] at this
    rw [this]; simp [hne]
  rw [PVL_ref (Nat.zero_le _) (terminator_none s 0) hd (by omega) hk hnested rfl]
  simp only []
  have e : 2 + X.length + 1 = s.length := by omega
  rw [e, PVL_at_end]
  simp [pushLiteral, Value.Variable]

theorem Parse_bare {X : List Char} (hne : X ≠ []) (hid : ∀ c ∈ X, c ∈ identifier) :
    Value.Parse ('$' :: X) = some (Value.Variable X) := by
  rw [Parse_eq]
  generalize hs : '$' :: X = s
  have hs1 : s = [] ++ ([] ++ '$' :: X) := by rw [← hs]; simp
  have hs2 : s = ['$'] ++ (X ++ []) := by rw [← hs]; simp
  have hlen : s.length = 1 + X.length := by rw [← hs]; simp; omega
  have hXlen : 0 < X.length := List.length_pos.2 hne
  have hd : find_char '$' s 0 = some 0 := by
    rw [hs1]; exact find_char_after [] [] _ (by simp)
  have hchar : ∀ j, 1 ≤ j → ∀ c, s[j]? = some c → c ∈ identifier := by
    intro j hj c hc
    rw [hs2, List.getElem?_append_right (by simpa using hj)] at hc
    simp only [List.append_nil] at hc
    exact hid c (List.mem_iff_getElem?.2 ⟨_, hc⟩)
  have hk : markerKind s 0 = (1, kDelimiterIdentifier, 0) := by
    have h1 : s[0 + 1]? ≠ some '(' := by
      intro h
      have := hchar 1 (le_refl _) _ h
      revert this; decide
    have h2 : s[0 + 1]? ≠ some '{' := by
      intro h
      have := hchar 1 (le_refl _) _ h
      revert this; decide
    simp [markerKind, h1, h2]
  have hnested : PVL s (0 + 1) kDelimiterIdentifier (0 + 1) (0 + 1) [] =
      { found := true, end_ := s.length, value := [.String X] } := by
    have ht : terminator s kDelimiterIdentifier 1 = some s.length := by
      have hnone : find_first_not_of identifier s 1 = none :=
        find_first_not_of_eq_none_iff.2 hchar
      simp only [terminator, hnone]
      rw [if_neg (by omega)]
    rw [PVL_identifier (by omega), ht]
    simp only []
    have e : s.length - (0 + 1) = X.length := by omega
    rw [e, hs2]
    have := pushLiteral_mid [] ['$'] X []
    simp only [List.length_cons, List.length_nil] at this
    rw [this]; simp [hne]
  rw [PVL_ref (Nat.zero_le _) (terminator_none s 0) hd (by omega) hk hnested rfl]
  simp only [Nat.add_zero]
  rw [PVL_at_end]
  simp [pushLiteral, Value.Variable]

theorem not_mem_of_identifier {X : List Char} (hid : ∀ c ∈ X, c ∈ identifier) {c : Char}
    (hc : c ∉ identifier) : c ∉ X := fun h => hc (hid c h)

theorem Value.raw_Variable (X : List Char) :
    Value.raw (Value.Variable X) = ['$', '('] ++ X ++ [')'] := by
  simp [Value.Variable, Value.raw, Entry.raw]

theorem Parse_paren {X : List Char} (hne : X ≠ []) (hdol : '$' ∉ X) (hclose : ')' ∉ X) :
    Value.Parse (['$', '('] ++ X ++ [')']) = some (Value.Variable X) := by
  rw [← Value.raw_Variable]
  apply Parse_raw_of_clean
  · simp [Value.Variable, Value.wellFormed, Entry.wellFormed, Entry.isString,
      startsWithString, hne]
  · simp [Value.Variable, Value.literalsAvoid, Entry.literalsAvoid, hdol]
  · simp [Value.Variable, Value.nestedLiteralsAvoid, Value.literalsAvoid,
      Entry.literalsAvoid, hclose]

/-! ## Round trips -/

theorem getElem?_shift (L s : List Char) (j : Nat) : (L ++ s)[j + L.length]? = s[j]? := by
  rw [List.getElem?_append_right (by omega)]
  simp

theorem getElem?_shift_ge (L s : List Char) {j : Nat} (h : L.length ≤ j) :
    (L ++ s)[j]? = s[j - L.length]? := by
  rw [List.getElem?_append_right h]

theorem find_char_shift (c : Char) (L s : List Char) (so : Nat) :
    find_char c (L ++ s) (so + L.length) = (find_char c s so).map (fun i => i + L.length) := by
  cases h : find_char c s so with
  | none =>
    simp only [Option.map_none']
    rw [find_char_eq_none_iff]
    intro j hj
    rw [getElem?_shift_ge L s (by omega)]
    exact find_char_eq_none_iff.1 h _ (by omega)
  | some i =>
    simp only [Option.map_some']
    obtain ⟨h1, h2, h3⟩ := find_char_eq_some_iff.1 h
    rw [find_char_eq_some_iff]
    refine ⟨by omega, by rw [getElem?_shift]; exact h2, ?_⟩
    intro j hj1 hj2
    rw [getElem?_shift_ge L s (by omega)]
    exact h3 _ (by omega) (by omega)

theorem find_first_not_of_shift (set L s : List Char) (so : Nat) :
    find_first_not_of set (L ++ s) (so + L.length) =
      (find_first_not_of set s so).map (fun i => i + L.length) := by
  cases h : find_first_not_of set s so with
  | none =>
    simp only [Option.map_none']
    rw [find_first_not_of_eq_none_iff]
    intro j hj c hc
    rw [getElem?_shift_ge L s (by omega)] at hc
    exact find_first_not_of_eq_none_iff.1 h _ (by omega) c hc
  | some i =>
    simp only [Option.map_some']
    obtain ⟨h1, h2, h3⟩ := find_first_not_of_eq_some_iff.1 h
    rw [find_first_not_of_eq_some_iff]
    refine ⟨by omega, by rw [getElem?_shift]; exact h2, ?_⟩
    intro j hj1 hj2 c hc
    rw [getElem?_shift_ge L s (by omega)] at hc
    exact h3 _ (by omega) (by omega) c hc

theorem terminator_shift (L s : List Char) (end_ : ValueDelimiter) (so : Nat) :
    terminator (L ++ s) end_ (so + L.length) =
      (terminator s end_ so).map (fun i => i + L.length) := by
  cases end_ with
  | kDelimiterNone => simp [terminator]; omega
  | kDelimiterParentheses => simp only [terminator]; exact find_char_shift _ _ _ _
  | kDelimiterBraces => simp only [terminator]; exact find_char_shift _ _ _ _
  | kDelimiterIdentifier =>
    simp only [terminator, find_first_not_of_shift]
    cases h : find_first_not_of identifier s so with
    | none =>
      simp only [Option.map_none', List.length_append]
      by_cases hz : s.length - so = 0
      · rw [if_pos hz, if_pos (by omega)]; rfl
      · rw [if_neg hz, if_neg (by omega)]
        simp; omega
    | some i =>
      simp only [Option.map_some']
      by_cases hz : i - so = 0
      · rw [if_pos hz, if_pos (by omega)]; rfl
      · rw [if_neg hz, if_neg (by omega)]
        simp

theorem markerKind_shift (L s : List Char) (i : Nat) :
    markerKind (L ++ s) (i + L.length) = markerKind s i := by
  have e : i + L.length + 1 = (i + 1) + L.length := by omega
  simp only [markerKind, e, getElem?_shift]

theorem substr_shift (L s : List Char) (ao len : Nat) :
    substr (L ++ s) (ao + L.length) len = substr s ao len := by
  unfold substr
  rw [List.drop_append_eq_append_drop]
  have e1 : List.drop (ao + L.length) L = [] := List.drop_eq_nil_of_le (by omega)
  have e2 : ao + L.length - L.length = ao := by omega
  rw [e1, e2, List.nil_append]

theorem pushLiteral_shift (E : List Entry) (L s : List Char) (ao len : Nat) :
    pushLiteral E (L ++ s) (ao + L.length) len = pushLiteral E s ao len := by
  simp only [pushLiteral, substr_shift]

/-- The loop on `L ++ s` from offsets past `L` does what it does on `s`. -/
theorem PVL_shift (L s : List Char) :
    ∀ from_ end_ so ao E, so ≤ s.length →
      PVL (L ++ s) (from_ + L.length) end_ (so + L.length) (ao + L.length) E =
        (PVL s from_ end_ so ao E).shift L.length := by
  refine PVL_induct s
    (fun from_ end_ so ao E r =>
      PVL (L ++ s) (from_ + L.length) end_ (so + L.length) (ao + L.length) E =
        r.shift L.length) ?_ ?_ ?_ ?_
  · intro from_ end_ so ao E hso ht
    have ht' : terminator (L ++ s) end_ (so + L.length) = none := by
      rw [terminator_shift, ht]; rfl
    rw [PVL_fail (by simp; omega) ht']
    rfl
  · intro from_ end_ so ao E to_ hso ht hd
    have ht' : terminator (L ++ s) end_ (so + L.length) = some (to_ + L.length) := by
      rw [terminator_shift, ht]; rfl
    have hd' : ∀ i, find_char '$' (L ++ s) (so + L.length) = some i → to_ + L.length ≤ i := by
      intro i hi
      rw [find_char_shift] at hi
      rcases hd with h | ⟨k, h, hk⟩
      · rw [h] at hi; cases hi
      · rw [h] at hi
        simp only [Option.map_some', Option.some.injEq] at hi
        omega
    rw [PVL_fin (by simp; omega) ht' hd']
    have e : to_ + L.length - (ao + L.length) = to_ - ao := by omega
    rw [e, pushLiteral_shift]
    rfl
  · intro from_ end_ so ao E to_ i r1 hso ht hd hlt hsoi hdol hr1 p1 hfound pc
    have ht' : terminator (L ++ s) end_ (so + L.length) = some (to_ + L.length) := by
      rw [terminator_shift, ht]; rfl
    have hd' : find_char '$' (L ++ s) (so + L.length) = some (i + L.length) := by
      rw [find_char_shift, hd]; rfl
    have hk : markerKind (L ++ s) (i + L.length) =
        ((markerKind s i).1, (markerKind s i).2.1, (markerKind s i).2.2) := by
      rw [markerKind_shift]
    have e1 : i + L.length + (markerKind s i).1 = i + (markerKind s i).1 + L.length := by
      omega
    have hfound' : (r1.shift L.length).found = true := hfound
    rw [PVL_ref (by simp; omega) ht' hd' (by omega) hk (by rw [e1]; exact p1) hfound']
    have e2 : (r1.shift L.length).end_ + (markerKind s i).2.2 =
        r1.end_ + (markerKind s i).2.2 + L.length := by
      simp only [ParseResult.shift]; omega
    have e3 : i + L.length - (ao + L.length) = i - ao := by omega
    rw [e2, e3, pushLiteral_shift]
    exact pc
  · intro from_ end_ so ao E to_ i r1 hso ht hd hlt hsoi hdol hr1 p1 hfound pc
    have ht' : terminator (L ++ s) end_ (so + L.length) = some (to_ + L.length) := by
      rw [terminator_shift, ht]; rfl
    have hd' : find_char '$' (L ++ s) (so + L.length) = some (i + L.length) := by
      rw [find_char_shift, hd]; rfl
    have hk : markerKind (L ++ s) (i + L.length) =
        ((markerKind s i).1, (markerKind s i).2.1, (markerKind s i).2.2) := by
      rw [markerKind_shift]
    have e1 : i + L.length + (markerKind s i).1 = i + (markerKind s i).1 + L.length := by
      omega
    have hfound' : (PVL (L ++ s) (i + L.length + (markerKind s i).1) (markerKind s i).2.1
        (i + L.length + (markerKind s i).1) (i + L.length + (markerKind s i).1) []).found
          = false := by
      rw [e1, p1]; exact hfound
    rw [PVL_skip (by simp; omega) ht' hd' (by omega) hk hfound']
    have e2 : so + L.length + (markerKind s i).1 = so + (markerKind s i).1 + L.length := by
      omega
    rw [e2]
    exact pc

/-! ## Where the search starts does not matter, at top level -/

theorem find_char_skip {c : Char} {s : List Char} {so so' : Nat} (h1 : so ≤ so')
    (h2 : ∀ j, so ≤ j → j < so' → s[j]? ≠ some c) :
    find_char c s so = find_char c s so' := by
  cases h : find_char c s so' with
  | none =>
    rw [find_char_eq_none_iff]
    intro j hj
    by_cases hlt : j < so'
    · exact h2 j hj hlt
    · exact find_char_eq_none_iff.1 h j (by omega)
  | some i =>
    obtain ⟨a1, a2, a3⟩ := find_char_eq_some_iff.1 h
    rw [find_char_eq_some_iff]
    refine ⟨by omega, a2, ?_⟩
    intro j hj1 hj2
    by_cases hlt : j < so'
    · exact h2 j hj1 hlt
    · exact a3 j (by omega) hj2

theorem markerKind_openlen (s : List Char) (i : Nat) :
    (markerKind s i).1 = 1 ∨ ((markerKind s i).1 = 2 ∧ s[i + 1]? ≠ some '$') := by
  unfold markerKind
  by_cases hp : s[i + 1]? = some '('
  · rw [if_pos hp]; right; exact ⟨rfl, by rw [hp]; decide⟩
  · by_cases hc : s[i + 1]? = some '{'
    · rw [if_neg hp, if_pos hc]; right; exact ⟨rfl, by rw [hc]; decide⟩
    · rw [if_neg hp, if_neg hc]; left; rfl

/-- At top level the loop started at `so` does what it does when started at the
first `$` at or after `so`. -/
theorem PVL_none_to_marker (s : List Char) :
    ∀ (n so : Nat), s.length - so ≤ n → so ≤ s.length →
      ∀ i, find_char '$' s so = some i → ∀ from_ ao E,
        PVL s from_ kDelimiterNone so ao E = PVL s from_ kDelimiterNone i ao E := by
  intro n
  induction n with
  | zero =>
    intro so hn hso i hd
    obtain ⟨i1, i2, _⟩ := find_char_eq_some_iff.1 hd
    have := getElem?_lt_of_eq_some i2
    omega
  | succ n ih =>
    intro so hn hso i hd from_ ao E
    obtain ⟨i1, i2, i3⟩ := find_char_eq_some_iff.1 hd
    have hil := getElem?_lt_of_eq_some i2
    by_cases hsi : so = i
    · rw [hsi]
    have hdi : find_char '$' s i = some i :=
      find_char_eq_some_iff.2 ⟨le_refl _, i2, fun j h1 h2 => by omega⟩
    obtain ⟨k1, k2, _⟩ := markerKind_facts i2
    have hk : markerKind s i =
        ((markerKind s i).1, (markerKind s i).2.1, (markerKind s i).2.2) := rfl
    by_cases hfound : (PVL s (i + (markerKind s i).1) (markerKind s i).2.1
        (i + (markerKind s i).1) (i + (markerKind s i).1) []).found = true
    · rw [PVL_ref hso (terminator_none s so) hd hil hk rfl hfound,
        PVL_ref (by omega) (terminator_none s i) hdi hil hk rfl hfound]
    · have hf : (PVL s (i + (markerKind s i).1) (markerKind s i).2.1
          (i + (markerKind s i).1) (i + (markerKind s i).1) []).found = false := by
        simpa using hfound
      rw [PVL_skip hso (terminator_none s so) hd hil hk hf,
        PVL_skip (by omega) (terminator_none s i) hdi hil hk hf]
      by_cases hle : so + (markerKind s i).1 ≤ i
      · have hd2 : find_char '$' s (so + (markerKind s i).1) = some i := by
          rw [← find_char_skip (by omega) (fun j h1 h2 => i3 j h1 (by omega))]
          exact hd
        rw [ih (so + (markerKind s i).1) (by omega) (by omega) i hd2,
          PVL_skip (by omega) (terminator_none s i) hdi hil hk hf]
      · rcases markerKind_openlen s i with h1 | ⟨h2, hne⟩
        · omega
        · have e1 : so + (markerKind s i).1 = i + 1 := by omega
          have e2 : i + (markerKind s i).1 = i + 1 + 1 := by omega
          rw [e1, e2]
          have hsk : find_char '$' s (i + 1) = find_char '$' s (i + 1 + 1) :=
            find_char_skip (by omega) (fun j h1 h2 => by
              have : j = i + 1 := by omega
              subst this; exact hne)
          cases hd3 : find_char '$' s (i + 1 + 1) with
          | none =>
            rw [PVL_fin (by omega) (terminator_none s _) (by rw [hsk, hd3]; intro i h; cases h),
              PVL_fin (by omega) (terminator_none s _) (by rw [hd3]; intro i h; cases h)]
          | some j =>
            rw [ih (i + 1) (by omega) (by omega) j (by rw [hsk]; exact hd3),
              ih (i + 1 + 1) (by omega) (by omega) j hd3]

/-- At top level, moving the start of the search over text without `$` changes
nothing. -/
theorem PVL_none_skip {s : List Char} {so so' : Nat} (h1 : so ≤ so') (h2 : so' ≤ s.length)
    (h3 : ∀ j, so ≤ j → j < so' → s[j]? ≠ some '$') (from_ ao : Nat) (E : List Entry) :
    PVL s from_ kDelimiterNone so ao E = PVL s from_ kDelimiterNone so' ao E := by
  have hsk := find_char_skip h1 h3
  cases hd : find_char '$' s so' with
  | none =>
    rw [PVL_fin (by omega) (terminator_none s _) (by rw [hsk, hd]; intro i h; cases h),
      PVL_fin h2 (terminator_none s _) (by rw [hd]; intro i h; cases h)]
  | some i =>
    rw [PVL_none_to_marker s _ so (le_refl _) (by omega) i (by rw [hsk]; exact hd),
      PVL_none_to_marker s _ so' (le_refl _) h2 i hd]

/-! ## Concatenation against parsing -/

theorem Value.add_append_value (a b : List Entry) (w c : List Entry) :
    Value.add a (b ++ .Value w :: c) = Value.add a b ++ .Value w :: c := by
  induction a with
  | nil => simp [Value.add_nil_left]
  | cons x t ih =>
    by_cases ht : t = []
    · subst ht
      cases b with
      | nil => cases x <;> simp [Value.add_singleton, Value.add_nil_right]
      | cons y b' => cases x <;> cases y <;> simp [Value.add_singleton]
    · rw [Value.add_cons_of_ne_nil x ht, Value.add_cons_of_ne_nil x ht, ih]
      simp

theorem pushLiteral_append_value (F : List Entry) (w : List Entry) (s : List Char)
    (ao len : Nat) :
    pushLiteral (F ++ [.Value w]) s ao len =
      F ++ .Value w :: pushLiteral [] s ao len := by
  unfold pushLiteral
  split <;> simp

/-- Before any reference is appended, the literal pending on `L ++ s` is `L`
followed by the literal pending on `s`. -/
theorem pushLiteral_behind (L s : List Char) (b : Nat) :
    pushLiteral [] (L ++ s) 0 (b + L.length - 0) =
      Value.add (Value.String L) (pushLiteral [] s 0 (b - 0)) := by
  have hsub : substr (L ++ s) 0 (b + L.length) = L ++ substr s 0 b := by
    unfold substr
    simp only [List.drop_zero]
    rw [Nat.add_comm, List.take_append]
  simp only [Nat.sub_zero]
  unfold pushLiteral Value.String Value.Empty
  cases L with
  | nil =>
    simp only [List.length_nil, Nat.add_zero, List.nil_append, List.isEmpty_nil, if_true]
    rw [Value.add_nil_left]
  | cons c t =>
    have hpos : b + (c :: t).length > 0 := by simp
    rw [if_pos hpos, hsub]
    simp only [List.isEmpty_cons, Bool.false_eq_true, if_false, List.nil_append]
    by_cases hb : b > 0
    · rw [if_pos hb, Value.add_singleton]
    · have : b = 0 := by omega
      subst this
      rw [if_neg hb, Value.add_nil_right]
      simp [substr]

/-- The top-level loop on `L ++ s`, past `L`, collects the concatenation of
`Value::String(L)` with what the loop on `s` collects. -/
theorem PVL_behind (L s : List Char) :
    ∀ from_ so ao E, so ≤ s.length → ∀ (aoA fromA : Nat) (EA : List Entry),
      (∀ b, so ≤ b → b ≤ s.length →
        pushLiteral EA (L ++ s) aoA (b + L.length - aoA) =
          Value.add (Value.String L) (pushLiteral E s ao (b - ao))) →
      (PVL (L ++ s) fromA kDelimiterNone (so + L.length) aoA EA).value =
        Value.add (Value.String L) (PVL s from_ kDelimiterNone so ao E).value := by
  have h := PVL_induct s
    (fun _ end_ so ao E r => end_ = kDelimiterNone → ∀ (aoA fromA : Nat) (EA : List Entry),
      (∀ b, so ≤ b → b ≤ s.length →
        pushLiteral EA (L ++ s) aoA (b + L.length - aoA) =
          Value.add (Value.String L) (pushLiteral E s ao (b - ao))) →
      (PVL (L ++ s) fromA kDelimiterNone (so + L.length) aoA EA).value =
        Value.add (Value.String L) r.value)
    (by intro from_ end_ so ao E _ ht he; subst he; simp [terminator] at ht)
    (by
      intro from_ end_ so ao E to_ hso ht hd he aoA fromA EA hJ
      subst he
      simp only [terminator, Option.some.injEq] at ht
      subst ht
      have hd' : ∀ i, find_char '$' (L ++ s) (so + L.length) = some i →
          (L ++ s).length ≤ i := by
        intro i hi
        rw [find_char_shift] at hi
        rcases hd with h | ⟨k, h, hk⟩
        · rw [h] at hi; cases hi
        · rw [h] at hi
          simp only [Option.map_some', Option.some.injEq] at hi
          simp only [List.length_append]; omega
      rw [PVL_fin (by simp; omega) (terminator_none _ _) hd']
      simp only []
      have e : (L ++ s).length = s.length + L.length := by simp; omega
      rw [e]
      exact hJ s.length hso (le_refl _))
    (by
      intro from_ end_ so ao E to_ i r1 hso ht hd hlt hsoi hdol hr1 _ hfound pc he
        aoA fromA EA hJ
      subst he
      simp only [terminator, Option.some.injEq] at ht
      subst ht
      obtain ⟨k1, k2, k3⟩ := markerKind_facts hdol
      have hd' : find_char '$' (L ++ s) (so + L.length) = some (i + L.length) := by
        rw [find_char_shift, hd]; rfl
      have hk : markerKind (L ++ s) (i + L.length) =
          ((markerKind s i).1, (markerKind s i).2.1, (markerKind s i).2.2) := by
        rw [markerKind_shift]
      have e1 : i + L.length + (markerKind s i).1 = i + (markerKind s i).1 + L.length := by
        omega
      have hnested : PVL (L ++ s) (i + L.length + (markerKind s i).1) (markerKind s i).2.1
          (i + L.length + (markerKind s i).1) (i + L.length + (markerKind s i).1) [] =
            r1.shift L.length := by
        rw [e1, PVL_shift L s _ _ _ _ _ k2, hr1]
      have hfound' : (r1.shift L.length).found = true := hfound
      rw [PVL_ref (by simp; omega) (terminator_none _ _) hd' (by simp; omega) hk hnested
        hfound']
      have e2 : (r1.shift L.length).end_ + (markerKind s i).2.2 =
          r1.end_ + (markerKind s i).2.2 + L.length := by
        simp only [ParseResult.shift]; omega
      rw [e2]
      refine pc rfl _ _ _ ?_
      intro b hb1 hb2
      have e3 : b + L.length - (r1.end_ + (markerKind s i).2.2 + L.length) =
          b - (r1.end_ + (markerKind s i).2.2) := by omega
      rw [e3, hJ i hsoi (by omega), pushLiteral_append_value, pushLiteral_append_value,
        Value.add_append_value]
      have e4 := pushLiteral_shift [] L s (r1.end_ + (markerKind s i).2.2)
        (b - (r1.end_ + (markerKind s i).2.2))
      rw [e4]
      rfl)
    (by
      intro from_ end_ so ao E to_ i r1 hso ht hd hlt hsoi hdol hr1 _ hfound pc he
        aoA fromA EA hJ
      subst he
      simp only [terminator, Option.some.injEq] at ht
      subst ht
      obtain ⟨k1, k2, k3⟩ := markerKind_facts hdol
      have hd' : find_char '$' (L ++ s) (so + L.length) = some (i + L.length) := by
        rw [find_char_shift, hd]; rfl
      have hk : markerKind (L ++ s) (i + L.length) =
          ((markerKind s i).1, (markerKind s i).2.1, (markerKind s i).2.2) := by
        rw [markerKind_shift]
      have e1 : i + L.length + (markerKind s i).1 = i + (markerKind s i).1 + L.length := by
        omega
      have hfound' : (PVL (L ++ s) (i + L.length + (markerKind s i).1)
          (markerKind s i).2.1 (i + L.length + (markerKind s i).1)
          (i + L.length + (markerKind s i).1) []).found = false := by
        rw [e1, PVL_shift L s _ _ _ _ _ k2, ← hr1]; exact hfound
      rw [PVL_skip (by simp; omega) (terminator_none _ _) hd' (by simp; omega) hk hfound']
      have e2 : so + L.length + (markerKind s i).1 = so + (markerKind s i).1 + L.length := by
        omega
      rw [e2]
      exact pc rfl _ _ _ (fun b hb1 hb2 => hJ b (by omega) hb2))
  intro from_ so ao E hso aoA fromA EA hJ
  exact h from_ _ so ao E hso rfl aoA fromA EA hJ

theorem Parse_of_no_dollar {L : List Char} (hL : '$' ∉ L) :
    Value.Parse L = some (Value.String L) := by
  rw [Parse_eq]
  have := PVL_of_raw_literal (m := kDelimiterNone) (s := L) [] L [] (by simp) hL
    (Or.inl ⟨rfl, rfl⟩) 0 []
  simp only [List.length_nil] at this
  rw [this]
  unfold Value.String Value.Empty
  cases L <;> simp

theorem Parse_behind_literal {L : List Char} (hL : '$' ∉ L) (s : List Char) :
    (PVL (L ++ s) 0 kDelimiterNone 0 0 []).value =
      Value.add (Value.String L) (PVL s 0 kDelimiterNone 0 0 []).value := by
  have hskip := @PVL_none_skip (L ++ s) 0 L.length (Nat.zero_le _) (by simp)
    (fun j _ hj => by
      rw [List.getElem?_append_left hj]
      exact getElem?_ne_of_not_mem hL j) 0 0 []
  rw [hskip]
  have := PVL_behind L s 0 0 0 [] (Nat.zero_le _) 0 0 []
    (fun b _ _ => pushLiteral_behind L s b)
  simpa using this

/-! ## `raw` and well-formedness under concatenation -/

theorem Value.raw_add (a b : List Entry) :
    Value.raw (Value.add a b) = Value.raw a ++ Value.raw b := by
  induction a with
  | nil => simp [Value.add_nil_left, Value.raw_nil]
  | cons x t ih =>
    by_cases ht : t = []
    · subst ht
      rw [Value.add_singleton]
      cases x with
      | String l =>
        cases b with
        | nil => simp [Value.raw_cons, Value.raw_nil]
        | cons y rest =>
          cases y <;> simp [Value.raw_cons, Value.raw_nil, Entry.raw]
      | Value w => simp [Value.raw_cons, Value.raw_nil]
    · rw [Value.add_cons_of_ne_nil x ht, Value.raw_cons, ih, Value.raw_cons]
      simp

theorem startsWithString_add {t : List Entry} (ht : t ≠ []) (b : List Entry) :
    startsWithString (Value.add t b) = startsWithString t := by
  cases t with
  | nil => exact absurd rfl ht
  | cons y t' =>
    by_cases h : t' = []
    · subst h
      rw [Value.add_singleton]
      cases y with
      | String l => cases b with
        | nil => rfl
        | cons z rest => cases z <;> rfl
      | Value w => rfl
    · rw [Value.add_cons_of_ne_nil y h]; rfl

theorem Value.wellFormed_add {a b : List Entry} (ha : Value.wellFormed a = true)
    (hb : Value.wellFormed b = true) : Value.wellFormed (Value.add a b) = true := by
  induction a with
  | nil => rw [Value.add_nil_left]; exact hb
  | cons x t ih =>
    simp only [Value.wellFormed, Bool.and_eq_true] at ha
    obtain ⟨⟨h1, h2⟩, h3⟩ := ha
    by_cases ht : t = []
    · subst ht
      rw [Value.add_singleton]
      cases x with
      | String l =>
        cases b with
        | nil => simp [Value.wellFormed, h1, startsWithString]
        | cons y rest =>
          cases y with
          | String u =>
            simp only [Value.wellFormed, Entry.wellFormed, Entry.isString, Bool.true_and,
              Bool.and_eq_true] at hb h1 ⊢
            refine ⟨⟨?_, hb.1.2⟩, hb.2⟩
            cases l with
            | nil => simp at h1
            | cons c cs => simp
          | Value w =>
            simp only [Value.wellFormed, Bool.and_eq_true] at hb ⊢
            exact ⟨⟨h1, by simp [startsWithString, Entry.isString]⟩, hb⟩
      | Value w =>
        rw [Value.wellFormed]
        simp only [Bool.and_eq_true]
        exact ⟨⟨h1, by simp [Entry.isString]⟩, hb⟩
    · rw [Value.add_cons_of_ne_nil x ht]
      simp only [Value.wellFormed, Bool.and_eq_true]
      exact ⟨⟨h1, by rw [startsWithString_add ht]; exact h2⟩, ih h3⟩

/-! ## Equality, position by position -/

theorem Value.beq_pointwise :
    ∀ v w : List Entry, Value.beq v w = true ↔
      (v.length = w.length ∧
        ∀ (i : Nat) (e r : Entry), v[i]? = some e → w[i]? = some r → Entry.beq e r = true) := by
  intro v
  induction v with
  | nil =>
    intro w
    cases w with
    | nil => simp [Value.beq]
    | cons r rs => simp [Value.beq]
  | cons e es ih =>
    intro w
    cases w with
    | nil => simp [Value.beq]
    | cons r rs =>
      simp only [Value.beq, Bool.and_eq_true, ih rs, List.length_cons, Nat.add_right_cancel_iff]
      constructor
      · rintro ⟨h1, h2, h3⟩
        refine ⟨h2, ?_⟩
        intro i e' r' he hr
        cases i with
        | zero =>
          simp only [List.getElem?_cons_zero, Option.some.injEq] at he hr
          subst he hr; exact h1
        | succ i =>
          simp only [List.getElem?_cons_succ] at he hr
          exact h3 i e' r' he hr
      · rintro ⟨h1, h2⟩
        refine ⟨h2 0 e r (by simp) (by simp), h1, ?_⟩
        intro i e' r' he hr
        exact h2 (i + 1) e' r' (by simpa using he) (by simpa using hr)

theorem Entry.beq_cases (e r : Entry) :
    Entry.beq e r = true ↔
      match e, r with
      | .String a, .String b => a = b
      | .Value a, .Value b => Value.beq a b = true
      | _, _ => False := by
  cases e <;> cases r <;> simp [Entry.beq]

/-- What the three branch conditions of the marker selection evaluate to. -/
theorem selectMarker_branches (s : List Char) (k : Nat) :
    let pno := find_str ['$', '('] s k
    let cbo := find_str ['$', '{'] s k
    let ido := find_str ['$'] s k
    let c1 := pno != none && (Npos.le pno ido || ido == none) &&
      (Npos.lt pno cbo || cbo == none)
    let c2 := cbo != none && (Npos.le cbo ido || ido == none) &&
      (Npos.lt cbo pno || pno == none)
    let c3 := ido != none && (Npos.lt ido pno || pno == none) &&
      (Npos.lt ido cbo || cbo == none)
    ((c1 && !c2 && !c3) || (!c1 && c2 && !c3) || (!c1 && !c2 && c3)) = ido.isSome := by
  simp only []
  rw [find_str_one]
  cases h : find_char '$' s k with
  | none =>
    simp [find_str_two_of_dollar_none h]
  | some i =>
    by_cases hp : s[i + 1]? = some '('
    · have hc : s[i + 1]? ≠ some '{' := by rw [hp]; decide
      rw [find_str_two_of_dollar_hit h hp]
      rcases find_str_two_of_dollar_miss h hc with e | ⟨k', hk, e⟩
      · simp [e, Npos.le, Npos.lt]
      · have : ¬ k' ≤ i := by omega
        simp [e, Npos.le, Npos.lt, hk, this]
    · by_cases hc : s[i + 1]? = some '{'
      · rw [find_str_two_of_dollar_hit h hc]
        rcases find_str_two_of_dollar_miss h hp with e | ⟨k', hk, e⟩
        · simp [e, Npos.le, Npos.lt]
        · have : ¬ k' ≤ i := by omega
          simp [e, Npos.le, Npos.lt, hk, this]
      · rcases find_str_two_of_dollar_miss h hp with e | ⟨k', hk, e⟩ <;>
          rcases find_str_two_of_dollar_miss h hc with e2 | ⟨k2, hk2, e2⟩
        · simp [e, e2, Npos.le, Npos.lt]
        · have : ¬ k2 ≤ i := by omega
          simp [e, e2, Npos.le, Npos.lt, hk2, this]
        · have : ¬ k' ≤ i := by omega
          simp [e, e2, Npos.le, Npos.lt, hk, this]
        · have : ¬ k' ≤ i := by omega
          have : ¬ k2 ≤ i := by omega
          simp [e, e2, Npos.le, Npos.lt, hk, hk2, *]

/-! ## Scalars -/

theorem ite_ne_char {p : Prop} [Decidable p] {a b c : Char} (ha : a ≠ c) (hb : b ≠ c) :
    (if p then a else b) ≠ c := by
  split <;> assumption

theorem digitChar_ne_dollar (d : Nat) : Nat.digitChar d ≠ '$' := by
  unfold Nat.digitChar
  iterate 16 apply ite_ne_char (by decide)
  decide

theorem toDigitsCore_no_dollar :
    ∀ (fuel n : Nat) (ds : List Char), '$' ∉ ds → '$' ∉ Nat.toDigitsCore 10 fuel n ds := by
  intro fuel
  induction fuel with
  | zero => intro n ds h; simpa [Nat.toDigitsCore] using h
  | succ fuel ih =>
    intro n ds h
    simp only [Nat.toDigitsCore]
    have hd : '$' ∉ Nat.digitChar (n % 10) :: ds := by
      simp only [List.mem_cons, not_or]
      exact ⟨fun e => digitChar_ne_dollar _ e.symm, h⟩
    split
    · exact hd
    · exact ih _ _ hd

theorem toDigitsCore_length :
    ∀ (fuel n : Nat) (ds : List Char), ds.length ≤ (Nat.toDigitsCore 10 fuel n ds).length := by
  intro fuel
  induction fuel with
  | zero => intro n ds; simp [Nat.toDigitsCore]
  | succ fuel ih =>
    intro n ds
    simp only [Nat.toDigitsCore]
    split
    · simp
    · exact le_trans (by simp) (ih _ (Nat.digitChar (n % 10) :: ds))

theorem toDigits_ne_nil (m : Nat) : Nat.toDigits 10 m ≠ [] := by
  intro h
  have := congrArg List.length h
  simp only [Nat.toDigits, Nat.toDigitsCore, List.length_nil] at this
  split at this
  · simp at this
  · have := toDigitsCore_length m (m / 10) [Nat.digitChar (m % 10)]
    simp only [List.length_cons, List.length_nil] at this
    omega

theorem to_string_no_dollar (n : Int) : '$' ∉ to_string n := by
  cases n with
  | ofNat m => exact toDigitsCore_no_dollar _ _ _ (by simp)
  | negSucc m =>
    simp only [to_string, List.mem_cons, not_or]
    exact ⟨by decide, toDigitsCore_no_dollar _ _ _ (by simp)⟩

theorem to_string_ne_nil (n : Int) : to_string n ≠ [] := by
  cases n with
  | ofNat m => exact toDigits_ne_nil m
  | negSucc m => simp [to_string]

theorem to_string_eq_toString (n : Int) : to_string n = (toString n).toList := by
  cases n with
  | ofNat m => rfl
  | negSucc m => rfl

theorem Parse_to_string (n : Int) :
    Value.Parse (to_string n) = some [.String (to_string n)] := by
  rw [Parse_of_no_dollar (to_string_no_dollar n)]
  have := to_string_ne_nil n
  unfold Value.String
  cases h : to_string n with
  | nil => exact absurd h this
  | cons c t => rfl

/-! ## A bare-identifier reference in front of a text -/

/-- The top-level loop on `L ++ s`, past `L`, collects the concatenation of a
value `V` with what the loop on `s` collects, once its pending entries and
literal stand in that relation. -/
theorem PVL_behind_value (V : List Entry) (L s : List Char) :
    ∀ from_ so ao E, so ≤ s.length → ∀ (aoA fromA : Nat) (EA : List Entry),
      (∀ b, so ≤ b → b ≤ s.length →
        pushLiteral EA (L ++ s) aoA (b + L.length - aoA) =
          Value.add V (pushLiteral E s ao (b - ao))) →
      (PVL (L ++ s) fromA kDelimiterNone (so + L.length) aoA EA).value =
        Value.add V (PVL s from_ kDelimiterNone so ao E).value := by
  have h := PVL_induct s
    (fun _ end_ so ao E r => end_ = kDelimiterNone → ∀ (aoA fromA : Nat) (EA : List Entry),
      (∀ b, so ≤ b → b ≤ s.length →
        pushLiteral EA (L ++ s) aoA (b + L.length - aoA) =
          Value.add V (pushLiteral E s ao (b - ao))) →
      (PVL (L ++ s) fromA kDelimiterNone (so + L.length) aoA EA).value =
        Value.add V r.value)
    (by intro from_ end_ so ao E _ ht he; subst he; simp [terminator] at ht)
    (by
      intro from_ end_ so ao E to_ hso ht hd he aoA fromA EA hJ
      subst he
      simp only [terminator, Option.some.injEq] at ht
      subst ht
      have hd' : ∀ i, find_char '$' (L ++ s) (so + L.length) = some i →
          (L ++ s).length ≤ i := by
        intro i hi
        rw [find_char_shift] at hi
        rcases hd with h | ⟨k, h, hk⟩
        · rw [h] at hi; cases hi
        · rw [h] at hi
          simp only [Option.map_some', Option.some.injEq] at hi
          simp only [List.length_append]; omega
      rw [PVL_fin (by simp; omega) (terminator_none _ _) hd']
      simp only []
      have e : (L ++ s).length = s.length + L.length := by simp; omega
      rw [e]
      exact hJ s.length hso (le_refl _))
    (by
      intro from_ end_ so ao E to_ i r1 hso ht hd hlt hsoi hdol hr1 _ hfound pc he
        aoA fromA EA hJ
      subst he
      simp only [terminator, Option.some.injEq] at ht
      subst ht
      obtain ⟨k1, k2, k3⟩ := markerKind_facts hdol
      have hd' : find_char '$' (L ++ s) (so + L.length) = some (i + L.length) := by
        rw [find_char_shift, hd]; rfl
      have hk : markerKind (L ++ s) (i + L.length) =
          ((markerKind s i).1, (markerKind s i).2.1, (markerKind s i).2.2) := by
        rw [markerKind_shift]
      have e1 : i + L.length + (markerKind s i).1 = i + (markerKind s i).1 + L.length := by
        omega
      have hnested : PVL (L ++ s) (i + L.length + (markerKind s i).1) (markerKind s i).2.1
          (i + L.length + (markerKind s i).1) (i + L.length + (markerKind s i).1) [] =
            r1.shift L.length := by
        rw [e1, PVL_shift L s _ _ _ _ _ k2, hr1]
      have hfound' : (r1.shift L.length).found = true := hfound
      rw [PVL_ref (by simp; omega) (terminator_none _ _) hd' (by simp; omega) hk hnested
        hfound']
      have e2 : (r1.shift L.length).end_ + (markerKind s i).2.2 =
          r1.end_ + (markerKind s i).2.2 + L.length := by
        simp only [ParseResult.shift]; omega
      rw [e2]
      refine pc rfl _ _ _ ?_
      intro b hb1 hb2
      have e3 : b + L.length - (r1.end_ + (markerKind s i).2.2 + L.length) =
          b - (r1.end_ + (markerKind s i).2.2) := by omega
      rw [e3, hJ i hsoi (by omega), pushLiteral_append_value, pushLiteral_append_value,
        Value.add_append_value]
      have e4 := pushLiteral_shift [] L s (r1.end_ + (markerKind s i).2.2)
        (b - (r1.end_ + (markerKind s i).2.2))
      rw [e4]
      rfl)
    (by
      intro from_ end_ so ao E to_ i r1 hso ht hd hlt hsoi hdol hr1 _ hfound pc he
        aoA fromA EA hJ
      subst he
      simp only [terminator, Option.some.injEq] at ht
      subst ht
      obtain ⟨k1, k2, k3⟩ := markerKind_facts hdol
      have hd' : find_char '$' (L ++ s) (so + L.length) = some (i + L.length) := by
        rw [find_char_shift, hd]; rfl
      have hk : markerKind (L ++ s) (i + L.length) =
          ((markerKind s i).1, (markerKind s i).2.1, (markerKind s i).2.2) := by
        rw [markerKind_shift]
      have e1 : i + L.length + (markerKind s i).1 = i + (markerKind s i).1 + L.length := by
        omega
      have hfound' : (PVL (L ++ s) (i + L.length + (markerKind s i).1)
          (markerKind s i).2.1 (i + L.length + (markerKind s i).1)
          (i + L.length + (markerKind s i).1) []).found = false := by
        rw [e1, PVL_shift L s _ _ _ _ _ k2, ← hr1]; exact hfound
      rw [PVL_skip (by simp; omega) (terminator_none _ _) hd' (by simp; omega) hk hfound']
      have e2 : so + L.length + (markerKind s i).1 = so + (markerKind s i).1 + L.length := by
        omega
      rw [e2]
      exact pc rfl _ _ _ (fun b hb1 hb2 => hJ b (by omega) hb2))
  intro from_ so ao E hso aoA fromA EA hJ
  exact h from_ _ so ao E hso rfl aoA fromA EA hJ

theorem terminator_identifier_run {X r : List Char} (hne : X ≠ [])
    (hid : ∀ c ∈ X, c ∈ identifier) (hr : ∀ c, r.head? = some c → c ∉ identifier) :
    terminator ('$' :: X ++ r) kDelimiterIdentifier 1 = some (1 + X.length) := by
  have hXlen : 0 < X.length := List.length_pos.2 hne
  have hin : ∀ j, 1 ≤ j → j < 1 + X.length → ∀ c, ('$' :: X ++ r)[j]? = some c →
      c ∈ identifier := by
    intro j h1 h2 c hc
    have e : '$' :: X ++ r = ['$'] ++ (X ++ r) := by simp
    rw [e, getElem?_append_mid ['$'] X r (by simpa using h1) (by simpa using h2)] at hc
    exact hid c (List.mem_iff_getElem?.2 ⟨_, hc⟩)
  simp only [terminator]
  cases r with
  | nil =>
    have hnone : find_first_not_of identifier ('$' :: X ++ []) 1 = none := by
      rw [find_first_not_of_eq_none_iff]
      intro j hj c hc
      by_cases hlt : j < 1 + X.length
      · exact hin j hj hlt c hc
      · have := getElem?_lt_of_eq_some hc
        simp at this; omega
    rw [hnone]
    simp only [List.append_nil, List.length_cons]
    rw [if_neg (by omega)]
    congr 1; omega
  | cons c r' =>
    have hsome : find_first_not_of identifier ('$' :: X ++ c :: r') 1 =
        some (1 + X.length) := by
      rw [find_first_not_of_eq_some_iff]
      refine ⟨by omega, ⟨c, ?_, hr c rfl⟩, fun j h1 h2 => hin j h1 h2⟩
      have := getElem?_append_cons ('$' :: X) c r'
      simp only [List.length_cons, List.cons_append] at this
      rw [← this]; congr 1; omega
    rw [hsome]
    simp only []
    rw [if_neg (by omega)]

theorem Parse_bare_then {X r : List Char} (hne : X ≠ [])
    (hid : ∀ c ∈ X, c ∈ identifier) (hr : ∀ c, r.head? = some c → c ∉ identifier) :
    (PVL ('$' :: X ++ r) 0 kDelimiterNone 0 0 []).value =
      Value.add (Value.Variable X) (PVL r 0 kDelimiterNone 0 0 []).value := by
  generalize hs : '$' :: X ++ r = s
  have hs1 : s = [] ++ ([] ++ '$' :: (X ++ r)) := by rw [← hs]; simp
  have hs2 : s = ['$'] ++ (X ++ r) := by rw [← hs]; simp
  have hs3 : s = ('$' :: X) ++ r := by rw [← hs]
  have hlen : s.length = 1 + X.length + r.length := by rw [← hs]; simp; omega
  have hXlen : 0 < X.length := List.length_pos.2 hne
  have hd : find_char '$' s 0 = some 0 := by
    rw [hs1]; exact find_char_after [] [] _ (by simp)
  have hfirst : ∀ c, s[0 + 1]? = some c → c ∈ identifier := by
    intro c hc
    rw [hs2, getElem?_append_mid ['$'] X r (by simp) (by simpa using hXlen)] at hc
    exact hid c (List.mem_iff_getElem?.2 ⟨_, hc⟩)
  have hk : markerKind s 0 = (1, kDelimiterIdentifier, 0) := by
    have h1 : s[0 + 1]? ≠ some '(' := by
      intro h
      have := hfirst _ h
      revert this; decide
    have h2 : s[0 + 1]? ≠ some '\x7b' := by
      intro h
      have := hfirst _ h
      revert this; decide
    simp [markerKind, h1, h2]
  have hnested : PVL s (0 + 1) kDelimiterIdentifier (0 + 1) (0 + 1) [] =
      { found := true, end_ := 1 + X.length, value := [.String X] } := by
    have ht : terminator s kDelimiterIdentifier 1 = some (1 + X.length) := by
      rw [← hs]; exact terminator_identifier_run hne hid hr
    rw [PVL_identifier (by omega), ht]
    simp only []
    have e : 1 + X.length - (0 + 1) = X.length := by omega
    rw [e, hs2]
    have := pushLiteral_mid [] ['$'] X r
    simp only [List.length_cons, List.length_nil] at this
    rw [this]; simp [hne]
  rw [PVL_ref (Nat.zero_le _) (terminator_none s 0) hd (by omega) hk hnested rfl]
  simp only [Nat.add_zero, Nat.sub_self]
  have hp : pushLiteral [] s 0 0 = [] := by simp [pushLiteral]
  rw [hp, List.nil_append, hs3]
  have hL : ('$' :: X).length = 1 + X.length := by simp; omega
  have := PVL_behind_value (Value.Variable X) ('$' :: X) r 0 0 0 [] (Nat.zero_le _)
    (1 + X.length) 0 [.Value [.String X]]
    (by
      intro b _ _
      have e : b + ('$' :: X).length - (1 + X.length) = b - 0 := by rw [hL]; omega
      have e2 : 1 + X.length = 0 + ('$' :: X).length := by rw [hL]; omega
      rw [e, e2, pushLiteral_shift]
      have := pushLiteral_append_value [] [.String X] r 0 (b - 0)
      simp only [List.nil_append] at this
      rw [this, Value.Variable, Value.add_singleton])
  rw [hL] at this
  simpa using this

/-! ## Recovery after a failed nested parse -/

theorem terminator_later {s : List Char} {m : ValueDelimiter} {so so' t : Nat}
    (ht : terminator s m so = some t) (hm : m ≠ kDelimiterIdentifier)
    (h1 : so ≤ so') (h2 : so' ≤ t) : terminator s m so' = some t := by
  cases m with
  | kDelimiterNone => simpa [terminator] using ht
  | kDelimiterParentheses =>
    simp only [terminator] at ht ⊢
    obtain ⟨a1, a2, a3⟩ := find_char_eq_some_iff.1 ht
    exact find_char_eq_some_iff.2 ⟨h2, a2, fun j hj1 hj2 => a3 j (by omega) hj2⟩
  | kDelimiterBraces =>
    simp only [terminator] at ht ⊢
    obtain ⟨a1, a2, a3⟩ := find_char_eq_some_iff.1 ht
    exact find_char_eq_some_iff.2 ⟨h2, a2, fun j hj1 hj2 => a3 j (by omega) hj2⟩
  | kDelimiterIdentifier => exact absurd rfl hm

/-- In bare-identifier mode no marker lies before the terminator. -/
theorem mode_of_marker_before {s : List Char} {m : ValueDelimiter} {so t i : Nat}
    (ht : terminator s m so = some t) (hd : find_char '$' s so = some i) (hlt : i < t) :
    m ≠ kDelimiterIdentifier := by
  intro hm
  subst hm
  obtain ⟨i1, i2, _⟩ := find_char_eq_some_iff.1 hd
  obtain ⟨_, _, h3⟩ := terminator_identifier_some ht
  exact dollar_not_identifier (h3 i i1 hlt _ i2)

theorem markerKind_two {s : List Char} {i : Nat} (h : (markerKind s i).1 = 2) :
    s[i + 1]? = some '(' ∨ s[i + 1]? = some '\x7b' := by
  unfold markerKind at h
  by_cases hp : s[i + 1]? = some '('
  · exact Or.inl hp
  · by_cases hc : s[i + 1]? = some '\x7b'
    · exact Or.inr hc
    · rw [if_neg hp, if_neg hc] at h
      simp at h

/-- The terminator is not the character right after the `$` of a two-character
marker. -/
theorem terminator_past_opener {s : List Char} {m : ValueDelimiter} {so t i : Nat}
    (ht : terminator s m so = some t) (hlt : i < t)
    (hm : m ≠ kDelimiterIdentifier) (hi : i + 2 ≤ s.length)
    (h2 : s[i + 1]? = some '(' ∨ s[i + 1]? = some '\x7b') : i + 2 ≤ t := by
  cases m with
  | kDelimiterNone =>
    simp only [terminator, Option.some.injEq] at ht
    omega
  | kDelimiterParentheses =>
    obtain ⟨_, c2, _⟩ := terminator_close (Or.inl rfl) ht
    simp only [if_true] at c2
    by_contra hn
    have e : t = i + 1 := by omega
    subst e
    rcases h2 with h | h <;> rw [h] at c2 <;> revert c2 <;> decide
  | kDelimiterBraces =>
    obtain ⟨_, c2, _⟩ := terminator_close (Or.inr rfl) ht
    simp only [reduceCtorEq, if_false] at c2
    by_contra hn
    have e : t = i + 1 := by omega
    subst e
    rcases h2 with h | h <;> rw [h] at c2 <;> revert c2 <;> decide
  | kDelimiterIdentifier => exact absurd rfl hm

/-- In every mode the loop started at `so` does what it does when started at the
first `$` at or after `so`, when that `$` lies before the terminator. -/
theorem PVL_to_marker (s : List Char) :
    ∀ (n so : Nat), s.length - so ≤ n → so ≤ s.length →
      ∀ (m : ValueDelimiter) (t i : Nat), terminator s m so = some t →
        find_char '$' s so = some i → i < t → ∀ from_ ao E,
          PVL s from_ m so ao E = PVL s from_ m i ao E := by
  intro n
  induction n with
  | zero =>
    intro so hn hso m t i _ hd
    obtain ⟨i1, i2, _⟩ := find_char_eq_some_iff.1 hd
    have := getElem?_lt_of_eq_some i2
    omega
  | succ n ih =>
    intro so hn hso m t i ht hd hlt from_ ao E
    obtain ⟨i1, i2, i3⟩ := find_char_eq_some_iff.1 hd
    have hil := getElem?_lt_of_eq_some i2
    by_cases hsi : so = i
    · rw [hsi]
    have hm := mode_of_marker_before ht hd hlt
    have hti : terminator s m i = some t := terminator_later ht hm i1 (by omega)
    have hdi : find_char '$' s i = some i :=
      find_char_eq_some_iff.2 ⟨le_refl _, i2, fun j h1 h2 => by omega⟩
    obtain ⟨k1, k2, _⟩ := markerKind_facts i2
    have hk : markerKind s i =
        ((markerKind s i).1, (markerKind s i).2.1, (markerKind s i).2.2) := rfl
    by_cases hfound : (PVL s (i + (markerKind s i).1) (markerKind s i).2.1
        (i + (markerKind s i).1) (i + (markerKind s i).1) []).found = true
    · rw [PVL_ref hso ht hd hlt hk rfl hfound,
        PVL_ref (by omega) hti hdi hlt hk rfl hfound]
    · have hf : (PVL s (i + (markerKind s i).1) (markerKind s i).2.1
          (i + (markerKind s i).1) (i + (markerKind s i).1) []).found = false := by
        simpa using hfound
      rw [PVL_skip hso ht hd hlt hk hf, PVL_skip (by omega) hti hdi hlt hk hf]
      by_cases hle : so + (markerKind s i).1 ≤ i
      · have hd2 : find_char '$' s (so + (markerKind s i).1) = some i := by
          rw [← find_char_skip (by omega) (fun j h1 h2 => i3 j h1 (by omega))]
          exact hd
        have ht2 := terminator_later ht hm (Nat.le_add_right so (markerKind s i).1)
          (by omega)
        rw [ih (so + (markerKind s i).1) (by omega) (by omega) m t i ht2 hd2 hlt,
          PVL_skip (by omega) hti hdi hlt hk hf]
      · rcases markerKind_openlen s i with h1 | ⟨h2, hne⟩
        · omega
        · have e1 : so + (markerKind s i).1 = i + 1 := by omega
          have e2 : i + (markerKind s i).1 = i + 1 + 1 := by omega
          have hge : i + 2 ≤ t :=
            terminator_past_opener ht hlt hm (by omega) (markerKind_two h2)
          have ht1 := terminator_later ht hm (show so ≤ i + 1 by omega) (by omega)
          have ht2 := terminator_later ht hm (show so ≤ i + 1 + 1 by omega) (by omega)
          rw [e1, e2]
          have hsk : find_char '$' s (i + 1) = find_char '$' s (i + 1 + 1) :=
            find_char_skip (by omega) (fun j h1 h2 => by
              have : j = i + 1 := by omega
              subst this; exact hne)
          cases hd3 : find_char '$' s (i + 1 + 1) with
          | none =>
            rw [PVL_fin (by omega) ht1 (by rw [hsk, hd3]; intro i h; cases h),
              PVL_fin (by omega) ht2 (by rw [hd3]; intro i h; cases h)]
          | some j =>
            by_cases hj : j < t
            · rw [ih (i + 1) (by omega) (by omega) m t j ht1 (by rw [hsk]; exact hd3) hj,
                ih (i + 1 + 1) (by omega) (by omega) m t j ht2 hd3 hj]
            · rw [PVL_fin (by omega) ht1 (by
                  rw [hsk, hd3]; intro i' h
                  simp only [Option.some.injEq] at h; omega),
                PVL_fin (by omega) ht2 (by
                  rw [hd3]; intro i' h
                  simp only [Option.some.injEq] at h; omega)]

/-- After a failed nested parse, resuming at `search_offset + openlen` (the
source) or at `open + openlen` (the specification) gives the same result. -/
theorem PVL_resume {s : List Char} {so : Nat} (hso : so ≤ s.length) {m : ValueDelimiter}
    {t i : Nat} (ht : terminator s m so = some t) (hd : find_char '$' s so = some i)
    (hlt : i < t)
    (hf : (PVL s (i + (markerKind s i).1) (markerKind s i).2.1
      (i + (markerKind s i).1) (i + (markerKind s i).1) []).found = false)
    (from_ ao : Nat) (E : List Entry) :
    PVL s from_ m (so + (markerKind s i).1) ao E =
      PVL s from_ m (i + (markerKind s i).1) ao E := by
  obtain ⟨i1, i2, _⟩ := find_char_eq_some_iff.1 hd
  have hil := getElem?_lt_of_eq_some i2
  have hm := mode_of_marker_before ht hd hlt
  have hti : terminator s m i = some t := terminator_later ht hm i1 (by omega)
  have hdi : find_char '$' s i = some i :=
    find_char_eq_some_iff.2 ⟨le_refl _, i2, fun j h1 h2 => by omega⟩
  have hk : markerKind s i =
      ((markerKind s i).1, (markerKind s i).2.1, (markerKind s i).2.2) := rfl
  rw [← PVL_skip hso ht hd hlt hk hf, ← PVL_skip (by omega) hti hdi hlt hk hf]
  exact PVL_to_marker s _ so (le_refl _) hso m t i ht hd hlt from_ ao E

/-- The reference parser returns what the source's parser returns. -/
theorem ParseValueLoopResume_eq_PVL :
    ∀ (fuel : Nat) (s : List Char) (from_ : Nat) (end_ : ValueDelimiter) (so ao : Nat)
      (E : List Entry), so ≤ s.length → s.length + 1 - so ≤ fuel →
      ParseValueLoopResume fuel s from_ end_ so ao E = some (PVL s from_ end_ so ao E) := by
  intro fuel
  induction fuel with
  | zero => intro s from_ end_ so ao E h1 h2; omega
  | succ fuel ih =>
    intro s from_ end_ so ao E hso hfuel
    rw [ParseValueLoopResume]
    cases ht : terminator s end_ so with
    | none => rw [PVL_fail hso ht]
    | some to_ =>
      simp only []
      rw [selectMarker_eq]
      cases hd : find_char '$' s so with
      | none =>
        simp only []
        rw [PVL_fin hso ht (by rw [hd]; intro i h; cases h)]
      | some i =>
        simp only [markerKind_start_ne_none, false_or]
        by_cases hge : i ≥ to_
        · rw [if_pos hge, PVL_fin hso ht (by
            rw [hd]; intro i' h; simp only [Option.some.injEq] at h; omega)]
        · rw [if_neg hge]
          obtain ⟨i1, i2, _⟩ := find_char_eq_some_iff.1 hd
          obtain ⟨k1, k2, k3⟩ := markerKind_facts i2
          have hk : markerKind s i =
              ((markerKind s i).1, (markerKind s i).2.1, (markerKind s i).2.2) := rfl
          rw [ih s _ _ _ _ [] k2 (by omega)]
          simp only []
          by_cases hfound : (PVL s (i + (markerKind s i).1) (markerKind s i).2.1
              (i + (markerKind s i).1) (i + (markerKind s i).1) []).found = true
          · rw [if_pos hfound]
            obtain ⟨b1, b2⟩ := PVL_found_bounds k2 _ _ _ _ hfound
            rw [← k3] at b2
            rw [ih s _ _ _ _ _ b2 (by omega),
              PVL_ref hso ht hd (by omega) hk rfl hfound]
          · have hf : (PVL s (i + (markerKind s i).1) (markerKind s i).2.1
                (i + (markerKind s i).1) (i + (markerKind s i).1) []).found = false := by
              simpa using hfound
            rw [if_neg hfound, ih s _ _ _ _ _ k2 (by omega),
              PVL_skip hso ht hd (by omega) hk hf,
              PVL_resume hso ht hd (by omega) hf]

theorem ParseResume_eq (s : List Char) :
    Value.ParseResume s = some (PVL s 0 kDelimiterNone 0 0 []).value := by
  rw [Value.ParseResume, ParseValueResume,
    ParseValueLoopResume_eq_PVL _ s 0 _ 0 0 [] (Nat.zero_le _) (by omega)]
  rfl

/-- The offsets that `search_offset += openlen` passes over hold no `$` but the
one of the marker that failed. -/
theorem no_marker_skipped {s : List Char} {k i : Nat} (hd : find_char '$' s k = some i)
    {j : Nat} (h1 : k ≤ j) (h2 : j < k + (markerKind s i).1) (hj : s[j]? = some '$') :
    j = i := by
  obtain ⟨i1, _, i3⟩ := find_char_eq_some_iff.1 hd
  rcases Nat.lt_trichotomy j i with hlt | heq | hgt
  · exact absurd hj (i3 j h1 hlt)
  · exact heq
  · rcases markerKind_openlen s i with h | ⟨h, hne⟩
    · omega
    · have : j = i + 1 := by omega
      subst this
      exact absurd hj hne

/-! ## Progress and offset safety -/

/-- What a selected marker is: the first `$` at or after `search_offset`, with its
kind. -/
theorem selectMarker_some {s : List Char} {so open_ openlen closelen : Nat}
    {start : ValueDelimiter}
    (h : selectMarker s so = (some open_, openlen, start, closelen)) :
    find_char '$' s so = some open_ ∧ markerKind s open_ = (openlen, start, closelen) := by
  rw [selectMarker_eq] at h
  cases hd : find_char '$' s so with
  | none => rw [hd] at h; simp at h
  | some i =>
    rw [hd] at h
    simp only [Prod.mk.injEq, Option.some.injEq] at h
    obtain ⟨h1, h2⟩ := h
    subst h1
    exact ⟨rfl, h2⟩

/-- A selected marker lies inside the text, at or after `search_offset`, and so
does the offset right after its opening characters. -/
theorem selectMarker_bounds {s : List Char} {so open_ openlen closelen : Nat}
    {start : ValueDelimiter}
    (h : selectMarker s so = (some open_, openlen, start, closelen)) :
    so ≤ open_ ∧ open_ < s.length ∧ 1 ≤ openlen ∧ open_ + openlen ≤ s.length ∧
      closelen = closeLen start := by
  obtain ⟨hd, hk⟩ := selectMarker_some h
  obtain ⟨i1, i2, _⟩ := find_char_eq_some_iff.1 hd
  obtain ⟨k1, k2, k3⟩ := markerKind_facts i2
  rw [hk] at k1 k2 k3
  exact ⟨i1, getElem?_lt_of_eq_some i2, k1, k2, k3⟩

/-- A nested call that returns `found` ends inside the text, at or after its
start, with room for the closing delimiter. -/
theorem ParseValue_found_bounds {s : List Char} {from_ : Nat} (h : from_ ≤ s.length)
    {end_ : ValueDelimiter} {r : ParseResult} (hr : ParseValue s from_ end_ = some r)
    (hf : r.found = true) : from_ ≤ r.end_ ∧ r.end_ + closeLen end_ ≤ s.length := by
  rw [ParseValue_eq h] at hr
  simp only [Option.some.injEq] at hr
  subst hr
  exact PVL_found_bounds h _ _ _ _ hf

theorem Reachable_invariant {s : List Char} {from0 : Nat} {end0 : ValueDelimiter}
    (h0 : from0 ≤ s.length) {st : LoopState} (hr : Reachable s from0 end0 st) :
    st.from_ ≤ st.append_offset ∧ st.append_offset ≤ st.search_offset ∧
      st.search_offset ≤ s.length := by
  induction hr with
  | start => exact ⟨le_refl _, le_refl _, h0⟩
  | nested _ _ hm _ _ =>
    obtain ⟨_, _, _, b4, _⟩ := selectMarker_bounds hm
    exact ⟨le_refl _, le_refl _, b4⟩
  | found _ _ hm _ hres hf ih =>
    obtain ⟨b1, _, b3, b4, b5⟩ := selectMarker_bounds hm
    obtain ⟨c1, c2⟩ := ParseValue_found_bounds b4 hres hf
    rw [← b5] at c2
    simp only []
    exact ⟨by omega, le_refl _, c2⟩
  | failed _ _ hm _ _ _ ih =>
    obtain ⟨b1, _, b3, b4, _⟩ := selectMarker_bounds hm
    simp only []
    exact ⟨ih.1, by omega, by omega⟩

/-! ## Texts a first pass produces -/

theorem dollarFollowedBy_eq_false {p : Char → Bool} :
    ∀ {s : List Char}, (∀ i c, s[i]? = some '$' → s[i + 1]? = some c → p c = false) →
      dollarFollowedBy p s = false := by
  intro s
  induction s with
  | nil => intro _; rfl
  | cons a t ih =>
    intro h
    simp only [dollarFollowedBy, Bool.or_eq_false_iff]
    refine ⟨?_, ih (fun i c h1 h2 => h (i + 1) c (by simpa using h1) (by simpa using h2))⟩
    cases t with
    | nil => simp
    | cons d t' =>
      by_cases ha : a = '$'
      · subst ha
        have := h 0 d (by simp) (by simp)
        simp [this]
      · simp [ha]

theorem dollarFollowedBy_append_false {p : Char → Bool} {x y : List Char}
    (hx : dollarFollowedBy p x = false) (hy : dollarFollowedBy p y = false)
    (hxy : x.getLast? = some '$' → ∀ d, y[0]? = some d → p d = false) :
    dollarFollowedBy p (x ++ y) = false := by
  apply dollarFollowedBy_eq_false
  intro i c h1 h2
  by_cases hi : i + 1 < x.length
  · rw [List.getElem?_append_left (by omega)] at h1
    rw [List.getElem?_append_left hi] at h2
    exact dollarFollowedBy_false hx i c h1 h2
  · by_cases hi2 : i < x.length
    · have e : i + 1 = x.length := by omega
      rw [List.getElem?_append_left hi2] at h1
      rw [List.getElem?_append_right (by omega)] at h2
      have e2 : i + 1 - x.length = 0 := by omega
      rw [e2] at h2
      refine hxy ?_ c h2
      rw [List.getLast?_eq_getElem?]
      have e3 : x.length - 1 = i := by omega
      rw [e3]; exact h1
    · rw [List.getElem?_append_right (by omega)] at h1
      rw [List.getElem?_append_right (by omega)] at h2
      have e : i + 1 - x.length = (i - x.length) + 1 := by omega
      rw [e] at h2
      exact dollarFollowedBy_false hy _ c h1 h2

theorem substr_getElem?_some {s : List Char} {a n k : Nat} {c : Char}
    (h : (substr s a n)[k]? = some c) : k < n ∧ s[a + k]? = some c := by
  unfold substr at h
  rw [List.getElem?_take] at h
  by_cases hk : k < n
  · rw [if_pos hk, List.getElem?_drop] at h
    exact ⟨hk, h⟩
  · rw [if_neg hk] at h; cases h

/-- A slice of the text has no `$` followed by a character satisfying `p` when
the text has none inside the slice. -/
theorem dollarFollowedBy_substr {p : Char → Bool} {s : List Char} {a n : Nat}
    (h : ∀ i c, a ≤ i → i + 1 < a + n → s[i]? = some '$' → s[i + 1]? = some c →
      p c = false) :
    dollarFollowedBy p (substr s a n) = false := by
  apply dollarFollowedBy_eq_false
  intro k c h1 h2
  obtain ⟨_, a1⟩ := substr_getElem?_some h1
  obtain ⟨b0, b1⟩ := substr_getElem?_some h2
  exact h (a + k) c (by omega) (by omega) a1 (by rw [← b1]; congr 1)

/-- The serialization `$(` + `w` + `)` of a reference. -/
theorem dollarFollowedBy_reference {p : Char → Bool} {w : List Char}
    (hw : dollarFollowedBy p w = false) (ho : p '(' = false) (hc : p ')' = false) :
    dollarFollowedBy p (['$', '('] ++ w ++ [')']) = false := by
  rw [List.append_assoc]
  refine dollarFollowedBy_append_false (by simp [dollarFollowedBy, ho]) ?_ (by simp)
  refine dollarFollowedBy_append_false hw (by simp [dollarFollowedBy]) ?_
  intro _ d hd
  simp only [List.getElem?_cons_zero, Option.some.injEq] at hd
  subst hd; exact hc

theorem terminator_identifier_of_mem {s : List Char} {so : Nat} {c : Char}
    (h : s[so]? = some c) (hc : c ∈ identifier) :
    ∃ t, terminator s kDelimiterIdentifier so = some t := by
  cases ht : terminator s kDelimiterIdentifier so with
  | some t => exact ⟨t, rfl⟩
  | none =>
    exfalso
    have hlt := getElem?_lt_of_eq_some h
    simp only [terminator] at ht
    cases hf : find_first_not_of identifier s so with
    | none =>
      simp only [hf] at ht
      split at ht
      · omega
      · cases ht
    | some k =>
      simp only [hf] at ht
      obtain ⟨k1, ⟨d, k2, k3⟩, _⟩ := find_first_not_of_eq_some_iff.1 hf
      split at ht
      · have : k = so := by omega
        subst this
        rw [h] at k2
        simp only [Option.some.injEq] at k2
        subst k2
        exact k3 hc
      · cases ht

/-- A marker whose nested parse fails is not a `$` followed by an identifier
character. -/
theorem not_bare_of_not_found {s : List Char} {i : Nat} (h : s[i]? = some '$')
    (hfound : (PVL s (i + (markerKind s i).1) (markerKind s i).2.1
      (i + (markerKind s i).1) (i + (markerKind s i).1) []).found = false)
    {c : Char} (hc : s[i + 1]? = some c) : identifier.contains c = false := by
  cases hm : identifier.contains c with
  | false => rfl
  | true =>
    exfalso
    have hmem : c ∈ identifier := by simpa using hm
    have hp : s[i + 1]? ≠ some '(' := by
      rw [hc]; intro e
      simp only [Option.some.injEq] at e
      subst e; revert hmem; decide
    have hb : s[i + 1]? ≠ some '{' := by
      rw [hc]; intro e
      simp only [Option.some.injEq] at e
      subst e; revert hmem; decide
    have hk : markerKind s i = (1, kDelimiterIdentifier, 0) := by
      simp [markerKind, hp, hb]
    rw [hk] at hfound
    simp only [] at hfound
    have hlen : i + 1 ≤ s.length := getElem?_lt_of_eq_some h
    obtain ⟨t, ht⟩ := terminator_identifier_of_mem hc hmem
    rw [PVL_identifier hlen, ht] at hfound
    cases hfound

/-- The serialization of a parse result has no `$` followed by an identifier
character: a `$` kept in a literal is a marker whose nested parse failed, and
the `$` of a serialized reference is followed by `(`. -/
theorem PVL_raw_bare (s : List Char) :
    ∀ from_ end_ so ao E, so ≤ s.length → ao ≤ so →
      (∀ j c, ao ≤ j → j < so → s[j]? = some '$' → s[j + 1]? = some c →
        identifier.contains c = false) →
      dollarFollowedBy (fun c => identifier.contains c) (Value.raw E) = false →
      (Value.raw E).getLast? ≠ some '$' →
      (PVL s from_ end_ so ao E).found = true →
      dollarFollowedBy (fun c => identifier.contains c)
        (Value.raw (PVL s from_ end_ so ao E).value) = false := by
  refine PVL_induct s
    (fun _ _ so ao E r => ao ≤ so →
      (∀ j c, ao ≤ j → j < so → s[j]? = some '$' → s[j + 1]? = some c →
        identifier.contains c = false) →
      dollarFollowedBy (fun c => identifier.contains c) (Value.raw E) = false →
      (Value.raw E).getLast? ≠ some '$' →
      r.found = true →
      dollarFollowedBy (fun c => identifier.contains c) (Value.raw r.value) = false)
    ?_ ?_ ?_ ?_
  · intro from_ end_ so ao E _ _ _ _ _ _ hf; cases hf
  · intro from_ end_ so ao E to_ hso ht hd hao hinv hE hlast _
    simp only []
    rw [raw_pushLiteral]
    refine dollarFollowedBy_append_false hE ?_ (fun h => absurd h hlast)
    apply dollarFollowedBy_substr
    intro j c j1 j2 j3 j4
    by_cases hj : j < so
    · exact hinv j c j1 hj j3 j4
    · exfalso
      rcases hd with hd | ⟨i, hd, hge⟩
      · exact find_char_eq_none_iff.1 hd j (by omega) j3
      · obtain ⟨_, _, i3⟩ := find_char_eq_some_iff.1 hd
        exact i3 j (by omega) (by omega) j3
  · intro from_ end_ so ao E to_ i r1 hso ht hd hlt hsoi hdol hr1 p1 hfound pc hao hinv hE
      hlast hf
    have q1 := p1 (le_refl _) (fun j c h1 h2 => by omega)
      (by simp [Value.raw_nil, dollarFollowedBy]) (by simp [Value.raw_nil]) hfound
    have hraw : Value.raw (pushLiteral E s ao (i - ao) ++ [.Value r1.value]) =
        (Value.raw E ++ substr s ao (i - ao)) ++
          (['$', '('] ++ Value.raw r1.value ++ [')']) := by
      rw [Value.raw_append, raw_pushLiteral, Value.raw_value]
    refine pc (le_refl _) (fun j c h1 h2 => by omega) ?_ ?_ hf
    · rw [hraw]
      refine dollarFollowedBy_append_false
        (dollarFollowedBy_append_false hE ?_ (fun h => absurd h hlast))
        (dollarFollowedBy_reference q1 (by decide) (by decide)) ?_
      · apply dollarFollowedBy_substr
        intro j c j1 j2 j3 j4
        by_cases hj : j < so
        · exact hinv j c j1 hj j3 j4
        · exfalso
          obtain ⟨_, _, i3⟩ := find_char_eq_some_iff.1 hd
          exact i3 j (by omega) (by omega) j3
      · intro _ d hd0
        simp only [List.cons_append, List.getElem?_cons_zero, Option.some.injEq] at hd0
        subst hd0; decide
    · rw [hraw, ← List.append_assoc, List.getLast?_append]
      simp
  · intro from_ end_ so ao E to_ i r1 hso ht hd hlt hsoi hdol hr1 p1 hfound pc hao hinv hE
      hlast hf
    refine pc (by omega) ?_ hE hlast hf
    intro j c j1 j2 j3 j4
    by_cases hj : j < so
    · exact hinv j c j1 hj j3 j4
    · have e : j = i := no_marker_skipped hd (by omega) j2 j3
      subst e
      rw [hr1] at hfound
      exact not_bare_of_not_found hdol hfound j4

/-- The serialization of a parse result has no `$` followed by an identifier
character. -/
theorem Parse_raw_no_bare {s : List Char} {v : Value} (h : Value.Parse s = some v) :
    dollarFollowedBy (fun c => identifier.contains c) (Value.raw v) = false := by
  rw [Parse_eq] at h
  simp only [Option.some.injEq] at h
  subst h
  exact PVL_raw_bare s 0 _ 0 0 [] (Nat.zero_le _) (le_refl _)
    (fun j c h1 h2 => by omega) (by simp [Value.raw_nil, dollarFollowedBy])
    (by simp [Value.raw_nil]) (PVL_none_mode s 0 0 0 [] (Nat.zero_le _)).1

/-- When no `${` has a `}` after it and no `$` is followed by an identifier
character, a marker whose nested parse succeeds is a `$(`. -/
theorem markerKind_of_found_closed {s : List Char}
    (hb : openerHasCloser '{' '}' s = false)
    (hi : dollarFollowedBy (fun c => identifier.contains c) s = false)
    {i : Nat} (h : s[i]? = some '$')
    (hfound : (PVL s (i + (markerKind s i).1) (markerKind s i).2.1
      (i + (markerKind s i).1) (i + (markerKind s i).1) []).found = true) :
    s[i + 1]? = some '(' ∧ markerKind s i = (2, kDelimiterParentheses, 1) := by
  by_cases hp : s[i + 1]? = some '('
  · exact ⟨hp, by simp [markerKind, hp]⟩
  · exfalso
    obtain ⟨_, k2, _⟩ := markerKind_facts h
    by_cases hc : s[i + 1]? = some '{'
    · obtain ⟨so1, a1, a2, a3⟩ := PVL_found k2 _ _ _ _ hfound
      have hk : markerKind s i = (2, kDelimiterBraces, 1) := by simp [markerKind, hc]
      rw [hk] at a1 a3
      simp only [] at a1 a3
      obtain ⟨c1, c2, _⟩ := terminator_close (Or.inr rfl) a3
      simp only [reduceCtorEq, if_false] at c2
      exact openerHasCloser_false hb i _ h hc (by omega) c2
    · have hk : markerKind s i = (1, kDelimiterIdentifier, 0) := by
        simp [markerKind, hp, hc]
      rw [hk] at hfound
      simp only [] at hfound
      have hlen : i + 1 ≤ s.length := getElem?_lt_of_eq_some h
      rw [PVL_identifier hlen, terminator_identifier_none] at hfound
      · cases hfound
      · intro c hc2 hmem
        have := dollarFollowedBy_false hi i c h hc2
        simp only [List.contains_iff_exists_mem_beq, beq_iff_eq, exists_eq_right',
          decide_eq_false_iff_not] at this
        simp_all

/-- The loop reproduces the text it consumes when every reference it opens is
parenthesised: no `${` is closed and there is no bare form. -/
theorem PVL_raw_closed {s : List Char}
    (hb : openerHasCloser '{' '}' s = false)
    (hi : dollarFollowedBy (fun c => identifier.contains c) s = false) :
    ∀ from_ end_ so ao E, so ≤ s.length → ao ≤ so →
      (PVL s from_ end_ so ao E).found = true →
      Value.raw (PVL s from_ end_ so ao E).value =
        Value.raw E ++ substr s ao ((PVL s from_ end_ so ao E).end_ - ao) := by
  refine PVL_induct s
    (fun _ _ so ao E r => ao ≤ so → r.found = true →
      Value.raw r.value = Value.raw E ++ substr s ao (r.end_ - ao)) ?_ ?_ ?_ ?_
  · intro from_ end_ so ao E _ _ _ hf; cases hf
  · intro from_ end_ so ao E to_ hso ht _ _ _
    exact raw_pushLiteral _ _ _ _
  · intro from_ end_ so ao E to_ i r1 hso ht hd hlt hsoi hdol hr1 p1 hfound pc hao hf
    have hfound' := hfound
    rw [hr1] at hfound'
    obtain ⟨hparen, hk⟩ := markerKind_of_found_closed hb hi hdol hfound'
    rw [hk] at hr1 p1 pc hf ⊢
    simp only [] at hr1 p1 pc hf ⊢
    have hlen2 : i + 2 ≤ s.length := getElem?_lt_of_eq_some hparen
    have q1 := p1 (le_refl _) hfound
    rw [Value.raw_nil, List.nil_append] at q1
    have hfound2 := hfound
    rw [hr1] at hfound2
    obtain ⟨so1, a1, a2, a3⟩ := PVL_found hlen2 _ _ _ _ hfound2
    rw [← hr1] at a3
    obtain ⟨c1, c2, _⟩ := terminator_close (Or.inl rfl) a3
    simp only [if_true] at c2
    have hend : r1.end_ + 1 ≤ s.length := getElem?_lt_of_eq_some c2
    have q2 := pc (le_refl _) hf
    obtain ⟨b1, _⟩ := PVL_found_bounds hend _ _ _ _ hf
    rw [q2, Value.raw_append, raw_pushLiteral, Value.raw_value, q1]
    simp only [List.append_assoc]
    congr 1
    have e1 : substr s ao (i - ao) ++ ['$'] = substr s ao (i + 1 - ao) :=
      substr_snoc (by omega) hdol
    have e2 : substr s ao (i + 1 - ao) ++ ['('] = substr s ao (i + 2 - ao) :=
      substr_snoc (by omega) hparen
    have e3 : substr s ao (i + 2 - ao) ++ substr s (i + 2) (r1.end_ - (i + 2)) =
        substr s ao (r1.end_ - ao) := substr_append (by omega) (by omega)
    have e4 : substr s ao (r1.end_ - ao) ++ [')'] = substr s ao (r1.end_ + 1 - ao) :=
      substr_snoc (by omega) c2
    have e5 := @substr_append s ao (r1.end_ + 1) _ (by omega) b1
    rw [← e5, ← e4, ← e3, ← e2, ← e1]
    simp [List.append_assoc]
  · intro from_ end_ so ao E to_ i r1 _ _ _ _ _ _ _ _ _ pc hao hf
    exact pc (by omega) hf

/-- A text in which no `${` has a `}` after it and no `$` is followed by an
identifier character is reproduced by `Parse` followed by `raw`. -/
theorem Parse_raw_of_no_closed_brace (s : List Char)
    (hb : openerHasCloser '{' '}' s = false)
    (hi : dollarFollowedBy (fun c => identifier.contains c) s = false) :
    ∃ v, Value.Parse s = some v ∧ Value.raw v = s := by
  refine ⟨_, Parse_eq s, ?_⟩
  obtain ⟨hf, he⟩ := PVL_none_mode s 0 0 0 [] (Nat.zero_le _)
  rw [PVL_raw_closed hb hi 0 _ 0 0 [] (Nat.zero_le _) (le_refl _) hf, he]
  simp [Value.raw_nil, substr_full]

/-- The serialization of a value that is not a parse result may change under a
second pass although it holds no `${`: the literal `$a` is read back as a
reference. -/
theorem raw_Parse_changes_unparsed_literal :
    openerHasCloser '{' '}' (Value.raw [.String ['$', 'a']]) = false ∧
    Value.Parse (Value.raw [.String ['$', 'a']]) = some [.Value [.String ['a']]] ∧
    Value.raw [.Value [.String ['a']]] ≠ Value.raw [.String ['$', 'a']] :=
  ⟨by decide, by decide, by decide⟩

/-! ## The claims -/

/-- C2. Parse undoes raw on parenthesis-form structure: for every value `v`
that at every nesting level has no empty literal and no two adjacent literals,
whose literals contain no `$`, and whose literals nested inside a reference
contain no `)`, `Parse(v.raw())` is structurally equal to `v`. -/
theorem Parse_raw_roundtrip (v : Value) (hwf : Value.wellFormed v = true)
    (hdol : Value.literalsAvoid '$' v = true)
    (hpar : Value.nestedLiteralsAvoid ')' v = true) :
    ∃ w, Value.Parse (Value.raw v) = some w ∧ Value.beq w v = true :=
  ⟨v, Parse_raw_of_clean hwf hdol hpar, Value.beq_self v⟩

/-- C2. Witness: the five entries of `a$(B)c$(D)e`; with the parses of
`$(A$(B)C)` and `$(X)`. -/
theorem Parse_raw_roundtrip_witness :
    Value.wellFormed
      [.String ['a'], .Value [.String ['B']], .String ['c'], .Value [.String ['D']],
        .String ['e']] = true ∧
    Value.literalsAvoid '$'
      [.String ['a'], .Value [.String ['B']], .String ['c'], .Value [.String ['D']],
        .String ['e']] = true ∧
    Value.nestedLiteralsAvoid ')'
      [.String ['a'], .Value [.String ['B']], .String ['c'], .Value [.String ['D']],
        .String ['e']] = true ∧
    Value.raw
      [.String ['a'], .Value [.String ['B']], .String ['c'], .Value [.String ['D']],
        .String ['e']] = "a$(B)c$(D)e".toList ∧
    (∃ w, Value.Parse (Value.raw
      [.String ['a'], .Value [.String ['B']], .String ['c'], .Value [.String ['D']],
        .String ['e']]) = some w ∧
      Value.beq w
      [.String ['a'], .Value [.String ['B']], .String ['c'], .Value [.String ['D']],
        .String ['e']] = true) ∧
    Value.Parse "$(A$(B)C)".toList =
      some [.Value [.String ['A'], .Value [.String ['B']], .String ['C']]] ∧
    Value.Parse "$(X)".toList = some [.Value [.String ['X']]] :=
  ⟨by decide, by decide, by decide, by decide,
    Parse_raw_roundtrip _ (by decide) (by decide) (by decide), by decide, by decide⟩

/-- C3. Parser output invariant: for every string `s`, `Parse(s)` returns a
value that, at every nesting level, has no literal entry with empty text and no
two adjacent literal entries. -/
theorem Parse_wellFormed (s : List Char) :
    ∃ v, Value.Parse s = some v ∧ Value.wellFormed v = true :=
  ⟨_, Parse_eq s,
    PVL_wellFormed s 0 kDelimiterNone 0 0 [] (Nat.zero_le _) rfl rfl
      (PVL_none_mode s 0 0 0 [] (Nat.zero_le _)).1⟩

/-- C4. Associativity of concatenation: for all values `a`, `b`, `c`, with no
well-formedness assumed, `(a + b) + c` is structurally equal (`operator==`) to
`a + (b + c)`. -/
theorem Value.add_assoc_beq (a b c : Value) :
    Value.beq (Value.add (Value.add a b) c) (Value.add a (Value.add b c)) = true :=
  (Value.beq_iff _ _).2 (Value.add_assoc a b c)

/-- C5. Parsing never fails: for every string `s` the top-level call
`ParseValue(s, 0, kDelimiterNone)` returns a result with `found = true` and
`end` equal to the length of `s`. -/
theorem ParseValue_top_level_succeeds (s : List Char) :
    ∃ r, ParseValue s 0 kDelimiterNone = some r ∧ r.found = true ∧ r.end_ = s.length :=
  ⟨_, ParseValue_eq (Nat.zero_le _) _, PVL_none_mode s 0 0 0 [] (Nat.zero_le _)⟩

/-- C6. Malformed references degrade to literal text: for every string `s` in
which no `$(` has a `)` anywhere after it, no `${` has a `}` anywhere after it
and no `$` is immediately followed by a character of `[A-Za-z0-9_]`, `Parse(s)`
is `Value::String(s)`, which has zero entries when `s` is empty and otherwise the
single literal `s`, and whose `raw` is `s`. -/
theorem Parse_degrades_to_literal (s : List Char)
    (hparen : openerHasCloser '(' ')' s = false)
    (hbrace : openerHasCloser '{' '}' s = false)
    (hbare : dollarFollowedBy (fun c => identifier.contains c) s = false) :
    Value.Parse s = some (Value.String s) ∧
      Value.String s = (if s = [] then [] else [.String s]) ∧
      Value.raw (Value.String s) = s := by
  refine ⟨?_, ?_, Value.raw_String s⟩
  · rw [Parse_eq, PVL_literal hparen hbrace hbare 0 0 (Nat.zero_le _)]
  · unfold Value.String Value.Empty
    cases s <;> simp

/-- C6. Witness: a text with an unterminated `$(`, an unterminated `${` and a
`$` before a blank. -/
theorem Parse_degrades_to_literal_witness :
    openerHasCloser '(' ')' "a$(b$\x7bc$ d".toList = false ∧
    openerHasCloser '{' '}' "a$(b$\x7bc$ d".toList = false ∧
    dollarFollowedBy (fun c => identifier.contains c) "a$(b$\x7bc$ d".toList = false ∧
    (Value.Parse "a$(b$\x7bc$ d".toList = some (Value.String "a$(b$\x7bc$ d".toList) ∧
      Value.String "a$(b$\x7bc$ d".toList =
        (if "a$(b$\x7bc$ d".toList = [] then [] else [.String "a$(b$\x7bc$ d".toList]) ∧
      Value.raw (Value.String "a$(b$\x7bc$ d".toList) = "a$(b$\x7bc$ d".toList) :=
  ⟨by decide, by decide, by decide, Parse_degrades_to_literal _ (by decide) (by decide) (by decide)⟩

/-- C7. The three reference spellings are equivalent: for every non-empty
string `X` over `[A-Za-z0-9_]`, each of `Parse("$(" + X + ")")`,
`Parse("${" + X + "}")` and `Parse("$" + X)` is structurally equal to
`Value::Variable(X)`, the single reference holding the single literal `X`, and
`raw` of each is `"$(" + X + ")"`. -/
theorem Parse_reference_spellings (X : List Char) (hne : X ≠ [])
    (hid : ∀ c ∈ X, c ∈ identifier) :
    (∃ v, Value.Parse (['$', '('] ++ X ++ [')']) = some v ∧
      Value.beq v (Value.Variable X) = true ∧ Value.raw v = ['$', '('] ++ X ++ [')']) ∧
    (∃ v, Value.Parse (['$', '{'] ++ X ++ ['}']) = some v ∧
      Value.beq v (Value.Variable X) = true ∧ Value.raw v = ['$', '('] ++ X ++ [')']) ∧
    (∃ v, Value.Parse ('$' :: X) = some v ∧
      Value.beq v (Value.Variable X) = true ∧ Value.raw v = ['$', '('] ++ X ++ [')']) ∧
    Value.Variable X = [.Value [.String X]] := by
  have h1 : '$' ∉ X := not_mem_of_identifier hid (by decide)
  have h2 : ')' ∉ X := not_mem_of_identifier hid (by decide)
  have h3 : '}' ∉ X := not_mem_of_identifier hid (by decide)
  exact ⟨⟨_, Parse_paren hne h1 h2, Value.beq_self _, Value.raw_Variable X⟩,
    ⟨_, Parse_brace hne h1 h3, Value.beq_self _, Value.raw_Variable X⟩,
    ⟨_, Parse_bare hne hid, Value.beq_self _, Value.raw_Variable X⟩, rfl⟩

/-- C7. Witness: the name `X_1`. -/
theorem Parse_reference_spellings_witness :
    "X_1".toList ≠ [] ∧ (∀ c ∈ "X_1".toList, c ∈ identifier) ∧
    ((∃ v, Value.Parse (['$', '('] ++ "X_1".toList ++ [')']) = some v ∧
      Value.beq v (Value.Variable "X_1".toList) = true ∧
      Value.raw v = ['$', '('] ++ "X_1".toList ++ [')']) ∧
    (∃ v, Value.Parse (['$', '{'] ++ "X_1".toList ++ ['}']) = some v ∧
      Value.beq v (Value.Variable "X_1".toList) = true ∧
      Value.raw v = ['$', '('] ++ "X_1".toList ++ [')']) ∧
    (∃ v, Value.Parse ('$' :: "X_1".toList) = some v ∧
      Value.beq v (Value.Variable "X_1".toList) = true ∧
      Value.raw v = ['$', '('] ++ "X_1".toList ++ [')']) ∧
    Value.Variable "X_1".toList = [.Value [.String "X_1".toList]]) :=
  ⟨by decide, by decide, Parse_reference_spellings "X_1".toList (by decide) (by decide)⟩

/-- C8. Serialization is byte-identical when no brace or bare form is present:
for every string `s` with no occurrence of `${` and no `$` immediately followed
by a character of `[A-Za-z0-9_]`, `Parse(s).raw() == s`. -/
theorem Parse_raw_identity (s : List Char)
    (hbrace : dollarFollowedBy (fun c => c == '{') s = false)
    (hbare : dollarFollowedBy (fun c => identifier.contains c) s = false) :
    ∃ v, Value.Parse s = some v ∧ Value.raw v = s := by
  refine ⟨_, Parse_eq s, ?_⟩
  obtain ⟨hf, he⟩ := PVL_none_mode s 0 0 0 [] (Nat.zero_le _)
  rw [PVL_raw hbrace hbare 0 _ 0 0 [] (Nat.zero_le _) (le_refl _) hf, he]
  simp [Value.raw_nil, substr_full]

/-- C8. Witness: a text with nested parenthesised references and an unterminated
`$(`. -/
theorem Parse_raw_identity_witness :
    dollarFollowedBy (fun c => c == '{') "a$(B$(C))$(".toList = false ∧
    dollarFollowedBy (fun c => identifier.contains c) "a$(B$(C))$(".toList = false ∧
    ∃ v, Value.Parse "a$(B$(C))$(".toList = some v ∧ Value.raw v = "a$(B$(C))$(".toList :=
  ⟨by decide, by decide, Parse_raw_identity _ (by decide) (by decide)⟩

/-- C9. Counterexample to the claim as stated: for `s = ${$(${)}})` the text
`t = Parse(s).raw()` is `${$($())})`, and `Parse(t).raw()` is `$($($())))`,
which differs from `t`: a second normalization pass changes the text. -/
theorem raw_Parse_not_idempotent :
    Value.Parse hiddenBrace =
      some [.String ['$', '\x7b'], .Value [.Value [.String [')']], .String ['\x7d']]] ∧
    Value.raw [.String ['$', '\x7b'], .Value [.Value [.String [')']], .String ['\x7d']]] =
      ['$', '\x7b', '$', '(', '$', '(', ')', ')', '\x7d', ')'] ∧
    Value.Parse ['$', '\x7b', '$', '(', '$', '(', ')', ')', '\x7d', ')'] =
      some [.Value [.Value [.Value []]], .String [')']] ∧
    Value.raw [.Value [.Value [.Value []]], .String [')']] =
      ['$', '(', '$', '(', '$', '(', ')', ')', ')', ')'] ∧
    ['$', '(', '$', '(', '$', '(', ')', ')', ')', ')'] ≠
      ['$', '\x7b', '$', '(', '$', '(', ')', ')', '\x7d', ')'] :=
  ⟨by decide, by decide, by decide, by decide, by decide⟩

/-- C9. Amended: textual idempotence of the parse→raw round trip when the first
pass leaves no closed brace marker: for every string `s`, with
`t = Parse(s).raw()`, if no occurrence of `${` in `t` has a `}` anywhere after
it, then `Parse(t).raw() == t`. -/
theorem raw_Parse_idempotent_of_no_closed_brace (s : List Char) (v : Value)
    (h : Value.Parse s = some v)
    (ht : openerHasCloser '{' '}' (Value.raw v) = false) :
    ∃ w, Value.Parse (Value.raw v) = some w ∧ Value.raw w = Value.raw v :=
  Parse_raw_of_no_closed_brace (Value.raw v) ht (Parse_raw_no_bare h)

/-- C9. Witness: `${)}${`, serialized as `$())${`: a brace reference around `)`
followed by a brace marker that stays literal text. -/
theorem raw_Parse_idempotent_of_no_closed_brace_witness :
    Value.Parse ['$', '\x7b', ')', '\x7d', '$', '\x7b'] =
      some [.Value [.String [')']], .String ['$', '\x7b']] ∧
    Value.raw [.Value [.String [')']], .String ['$', '\x7b']] =
      ['$', '(', ')', ')', '$', '\x7b'] ∧
    openerHasCloser '{' '}'
      (Value.raw [.Value [.String [')']], .String ['$', '\x7b']]) = false ∧
    ∃ w, Value.Parse (Value.raw [.Value [.String [')']], .String ['$', '\x7b']]) = some w ∧
      Value.raw w = Value.raw [.Value [.String [')']], .String ['$', '\x7b']] :=
  ⟨by decide, by decide, by decide,
    raw_Parse_idempotent_of_no_closed_brace ['$', '\x7b', ')', '\x7d', '$', '\x7b'] _
      (by decide) (by decide)⟩

/-- C10. Concatenation agrees with parsing on a literal prefix: for every string
`L` containing no `$` and every string `s`, `Parse(L) + Parse(s)` is
structurally equal to `Parse(L + s)`. -/
theorem Parse_add_literal_prefix (L s : List Char) (hL : '$' ∉ L) :
    ∃ a b c, Value.Parse L = some a ∧ Value.Parse s = some b ∧
      Value.Parse (L ++ s) = some c ∧ Value.beq (Value.add a b) c = true :=
  ⟨_, _, _, Parse_of_no_dollar hL, Parse_eq s, Parse_eq (L ++ s),
    (Value.beq_iff _ _).2 (Parse_behind_literal hL s).symm⟩

/-- C10. Witness: `foo` before `$(X)` stays a separate literal, and `foo`
before `bar` merges into the one literal `foobar`. -/
theorem Parse_add_literal_prefix_witness :
    '$' ∉ "foo".toList ∧
    (∃ a b c, Value.Parse "foo".toList = some a ∧ Value.Parse "$(X)".toList = some b ∧
      Value.Parse ("foo".toList ++ "$(X)".toList) = some c ∧
      Value.beq (Value.add a b) c = true) ∧
    Value.add [.String "foo".toList] [.Value [.String ['X']]] =
      [.String "foo".toList, .Value [.String ['X']]] ∧
    Value.Parse "foo$(X)".toList = some [.String "foo".toList, .Value [.String ['X']]] ∧
    Value.add [.String "foo".toList] [.String "bar".toList] = [.String "foobar".toList] ∧
    Value.Parse "foobar".toList = some [.String "foobar".toList] :=
  ⟨by decide, Parse_add_literal_prefix "foo".toList "$(X)".toList (by decide),
    by decide, by decide, by decide, by decide⟩

/-- C11. The Combinator preserves the literal-run invariant: for all values `a`
and `b` that at every nesting level have no empty literal and no two adjacent
literals, `a + b` has no empty literal and no two adjacent literals at any
nesting level. -/
theorem Value.add_preserves_wellFormed (a b : Value)
    (ha : Value.wellFormed a = true) (hb : Value.wellFormed b = true) :
    Value.wellFormed (Value.add a b) = true :=
  Value.wellFormed_add ha hb

/-- C11. Witness: a value ending in a literal against a value starting with
one. -/
theorem Value.add_preserves_wellFormed_witness :
    Value.wellFormed [.Value [.String ['a']], .String ['b']] = true ∧
    Value.wellFormed [.String ['c'], .Value []] = true ∧
    Value.add [.Value [.String ['a']], .String ['b']] [.String ['c'], .Value []] =
      [.Value [.String ['a']], .String ['b', 'c'], .Value []] ∧
    Value.wellFormed
      (Value.add [.Value [.String ['a']], .String ['b']] [.String ['c'], .Value []]) = true :=
  ⟨by decide, by decide, by decide,
    Value.add_preserves_wellFormed _ _ (by decide) (by decide)⟩

/-- C12. The code against the claim on the array `[42, "a"]`: the loop adds the
separator whenever the index is not 0, so the string it builds is ` a` with a
leading space, while the string elements joined by single spaces give `a`. -/
theorem FromObject_array_leading_space :
    stringItems [.Integer 42, .String ['a']] = [['a']] ∧
    joinWithSpace (stringItems [.Integer 42, .String ['a']]) = ['a'] ∧
    Value.Parse (joinWithSpace (stringItems [.Integer 42, .String ['a']])) =
      some [.String ['a']] ∧
    arrayJoin [.Integer 42, .String ['a']] 0 [] = [' ', 'a'] ∧
    Value.FromObject (some (.Array [.Integer 42, .String ['a']])) =
      some [.String [' ', 'a']] ∧
    Value.FromObject (some (.Array [.String ['a'], .String ['b']])) =
      some [.String ['a', ' ', 'b']] :=
  ⟨by decide, by decide, by decide, by decide, by decide, by decide⟩

/-- C13. Scalar dispatch for non-array kinds: `FromObject` of a string `s` is
`Parse(s)`; of a boolean, the single literal `YES` when it is true and `NO` when
it is false; of an integer `n`, the single literal holding the decimal
representation of `n`, with a leading `-` for a negative one; of the null
pointer or of an object of another kind, the empty value. -/
theorem FromObject_scalars :
    (∀ s : List Char, Value.FromObject (some (.String s)) = Value.Parse s) ∧
    Value.FromObject (some (.Boolean true)) = some [.String ['Y', 'E', 'S']] ∧
    Value.FromObject (some (.Boolean false)) = some [.String ['N', 'O']] ∧
    (∀ n : Int, Value.FromObject (some (.Integer n)) = some [.String (to_string n)] ∧
      to_string n = (toString n).toList) ∧
    to_string (-42) = ['-', '4', '2'] ∧
    Value.FromObject none = some [] ∧
    Value.FromObject (some .Other) = some [] :=
  ⟨fun _ => rfl, by decide, by decide,
    fun n => ⟨Parse_to_string n, to_string_eq_toString n⟩, by decide, rfl, rfl⟩

/-- C14. Termination: for every string `s`, every offset `from <= |s|` and every
terminator mode, `ParseValue(s, from, mode)` returns a result, the same for any
fuel of at least `|s| + 1 - from`, so the fuel of the embedding plays no part and
the parser is a total function of its arguments, by recursion on `|s| - offset`:
in an iteration at `search_offset <= |s|` that selects a marker before the
terminator, the nested call starts at `open + openlen`, strictly after
`search_offset` and at most `|s|`; it returns a result; and the next iteration's
`search_offset`, `result.end + closelen` after a successful nested call and
`search_offset + openlen` after a failed one, is strictly larger and at most
`|s|`. -/
theorem ParseValue_terminates (s : List Char) (from_ : Nat) (mode : ValueDelimiter)
    (hfrom : from_ ≤ s.length) :
    (∃ r, ParseValue s from_ mode = some r ∧
      ∀ fuel, s.length + 1 - from_ ≤ fuel →
        ParseValueLoop fuel s from_ mode from_ from_ [] = some r) ∧
    (∀ so to_ open_ openlen start closelen, so ≤ s.length →
      terminator s mode so = some to_ →
      selectMarker s so = (some open_, openlen, start, closelen) → open_ < to_ →
      (so < open_ + openlen ∧ open_ + openlen ≤ s.length) ∧
      (∃ r1, ParseValue s (open_ + openlen) start = some r1 ∧
        (∀ fuel, s.length + 1 - (open_ + openlen) ≤ fuel →
          ParseValueLoop fuel s (open_ + openlen) start (open_ + openlen)
            (open_ + openlen) [] = some r1) ∧
        (r1.found = true → so < r1.end_ + closelen ∧ r1.end_ + closelen ≤ s.length)) ∧
      (so < so + openlen ∧ so + openlen ≤ s.length)) := by
  refine ⟨⟨_, ParseValue_eq hfrom mode, fun fuel hf =>
    ParseValueLoop_eq_PVL hfrom hf _ _ _ _⟩, ?_⟩
  intro so to_ open_ openlen start closelen hso _ hm _
  obtain ⟨b1, b2, b3, b4, b5⟩ := selectMarker_bounds hm
  refine ⟨⟨by omega, b4⟩, ⟨_, ParseValue_eq b4 start, fun fuel hf =>
    ParseValueLoop_eq_PVL b4 hf _ _ _ _, ?_⟩, ⟨by omega, by omega⟩⟩
  intro hf
  obtain ⟨c1, c2⟩ := PVL_found_bounds b4 _ _ _ _ hf
  rw [← b5] at c2
  exact ⟨by omega, c2⟩

/-- C14. Witness: the nested call of `$(a)$` at offset 2 in parenthesis mode. -/
theorem ParseValue_terminates_witness :
    2 ≤ "$(a)$".toList.length ∧
    ∃ r, ParseValue "$(a)$".toList 2 kDelimiterParentheses = some r ∧
      ∀ fuel, "$(a)$".toList.length + 1 - 2 ≤ fuel →
        ParseValueLoop fuel "$(a)$".toList 2 kDelimiterParentheses 2 2 [] = some r :=
  ⟨by decide, (ParseValue_terminates "$(a)$".toList 2 kDelimiterParentheses (by decide)).1⟩

/-- C15. Equality is structural and strictly finer than textual equality:
`v == w` holds exactly when the entry sequences have the same length and agree
position by position under `Entry::operator==`, which compares the kind, the
literal text and, recursively, the nested value; `v == w` is equality of the
values, it implies `v.raw() == w.raw()`, and the converse fails: the literals
`a`, `b` and the one literal `ab` have the same `raw` and are not `==`. -/
theorem Value.beq_structural :
    (∀ v w : Value, Value.beq v w = true ↔
      (v.length = w.length ∧
        ∀ (i : Nat) (e r : Entry), v[i]? = some e → w[i]? = some r → Entry.beq e r = true)) ∧
    (∀ e r : Entry, Entry.beq e r = true ↔
      match e, r with
      | .String a, .String b => a = b
      | .Value a, .Value b => Value.beq a b = true
      | _, _ => False) ∧
    (∀ v w : Value, Value.beq v w = true ↔ v = w) ∧
    (∀ v w : Value, Value.beq v w = true → Value.raw v = Value.raw w) ∧
    (∃ v w : Value, Value.raw v = Value.raw w ∧ Value.beq v w = false) :=
  ⟨Value.beq_pointwise, Entry.beq_cases, Value.beq_iff,
    fun v w h => by rw [(Value.beq_iff v w).1 h],
    ⟨[.String ['a'], .String ['b']], [.String ['a', 'b']], by decide, by decide⟩⟩

/-- C16. Marker selection: for every string `s` and search offset `k`, when no
`$` occurs at or after `k` no marker is selected (`open = npos`); otherwise the
selected `open` is the first `$` at or after `k`, with parentheses
(`openlen` 2, `closelen` 1) when the next character is `(`, braces (2, 1) when it
is `{`, and bare-identifier (1, 0) in every other case, the end of the input
included; exactly one of the three branch conditions holds when there is such a
`$`, and none otherwise. -/
theorem selectMarker_first_dollar (s : List Char) (k : Nat) :
    (selectMarker s k =
      match find_str ['$'] s k with
      | none => (none, 0, kDelimiterNone, 0)
      | some i =>
        if s[i + 1]? = some '(' then (some i, 2, kDelimiterParentheses, 1)
        else if s[i + 1]? = some '\x7b' then (some i, 2, kDelimiterBraces, 1)
        else (some i, 1, kDelimiterIdentifier, 0)) ∧
    (∀ i, find_str ['$'] s k = some i ↔
      k ≤ i ∧ s[i]? = some '$' ∧ ∀ j, k ≤ j → j < i → s[j]? ≠ some '$') ∧
    (let pno := find_str ['$', '('] s k
     let cbo := find_str ['$', '\x7b'] s k
     let ido := find_str ['$'] s k
     let c1 := pno != none && (Npos.le pno ido || ido == none) &&
       (Npos.lt pno cbo || cbo == none)
     let c2 := cbo != none && (Npos.le cbo ido || ido == none) &&
       (Npos.lt cbo pno || pno == none)
     let c3 := ido != none && (Npos.lt ido pno || pno == none) &&
       (Npos.lt ido cbo || cbo == none)
     ((c1 && !c2 && !c3) || (!c1 && c2 && !c3) || (!c1 && !c2 && c3)) = ido.isSome) := by
  refine ⟨?_, ?_, selectMarker_branches s k⟩
  · rw [selectMarker_eq, find_str_one]
    cases find_char '$' s k with
    | none => rfl
    | some i =>
      simp only [markerKind]
      split
      · rfl
      · split <;> rfl
  · intro i
    rw [find_str_one]
    exact find_char_eq_some_iff

/-- C17. Recovery after a failed nested parse resumes strictly after the marker:
for every string `s`, `Parse(s)` is structurally equal to the result of the
reference parser, which is `ParseValue` except that after a failed nested parse
of the marker at `open` it sets `search_offset` to `open + openlen` and leaves
`append_offset` as it is; the two parsers return the same result from every
offset in every mode; and the offsets that the source's `search_offset +=
openlen` passes over hold no `$` other than the one of the failed marker, so no
marker is skipped. -/
theorem Parse_eq_ParseResume (s : List Char) :
    (∃ v w, Value.Parse s = some v ∧ Value.ParseResume s = some w ∧
      Value.beq v w = true) ∧
    (∀ from_ mode, from_ ≤ s.length →
      ParseValue s from_ mode = ParseValueResume s from_ mode) ∧
    (∀ k i j, find_str ['$'] s k = some i → k ≤ j → j < k + (selectMarker s k).2.1 →
      s[j]? = some '$' → j = i) := by
  refine ⟨⟨_, _, Parse_eq s, ParseResume_eq s, Value.beq_self _⟩, ?_, ?_⟩
  · intro from_ mode h
    rw [ParseValue_eq h, ParseValueResume,
      ParseValueLoopResume_eq_PVL _ s from_ mode from_ from_ [] h (by omega)]
  · intro k i j hd h1 h2 hj
    rw [find_str_one] at hd
    rw [selectMarker_eq, hd] at h2
    exact no_marker_skipped hd h1 h2 hj

/-- C18. Bare-identifier references end at the first non-identifier character
and consume no closing delimiter: for every non-empty string `X` over
`[A-Za-z0-9_]` and every string `r` that is empty or starts with a character
outside `[A-Za-z0-9_]`, `Parse("$" + X + r)` is structurally equal to
`Value::Variable(X) + Parse(r)`. -/
theorem Parse_bare_reference_then (X r : List Char) (hne : X ≠ [])
    (hid : ∀ c ∈ X, c ∈ identifier) (hr : ∀ c, r.head? = some c → c ∉ identifier) :
    ∃ v w, Value.Parse ('$' :: X ++ r) = some v ∧ Value.Parse r = some w ∧
      Value.beq v (Value.add (Value.Variable X) w) = true :=
  ⟨_, _, Parse_eq _, Parse_eq r, (Value.beq_iff _ _).2 (Parse_bare_then hne hid hr)⟩

/-- C18. Witness: `$AB` before `-c$(D)`, and before the empty text. -/
theorem Parse_bare_reference_then_witness :
    "AB".toList ≠ [] ∧ (∀ c ∈ "AB".toList, c ∈ identifier) ∧
    (∀ c, "-c$(D)".toList.head? = some c → c ∉ identifier) ∧
    (∃ v w, Value.Parse ('$' :: "AB".toList ++ "-c$(D)".toList) = some v ∧
      Value.Parse "-c$(D)".toList = some w ∧
      Value.beq v (Value.add (Value.Variable "AB".toList) w) = true) ∧
    Value.Parse "$AB-c$(D)".toList =
      some [.Value [.String ['A', 'B']], .String ['-', 'c'], .Value [.String ['D']]] ∧
    Value.Parse "$AB".toList = some [.Value [.String ['A', 'B']]] :=
  ⟨by decide, by decide, by decide,
    Parse_bare_reference_then "AB".toList "-c$(D)".toList (by decide) (by decide) (by decide),
    by decide, by decide⟩

/-- C19. Offset safety of the parser: for every string `s`, every `from <= |s|`
and every mode, each loop state of `ParseValue(s, from, mode)` and of its nested
calls has `from <= append_offset <= search_offset <= |s|`; a terminator found
there has `search_offset <= to <= |s|`, so `to - append_offset` and
`to - search_offset` do not underflow and the finalizing `substr` lies inside
`s`; a marker selected before the terminator has
`append_offset <= open < |s|`, so `open - append_offset` does not underflow and
the flushing `substr` lies inside `s`, and the nested call's offset
`open + openlen` is at most `|s|`; and the offset that `find_first_not_of`
returns in bare-identifier mode is at least `search_offset`. -/
theorem Reachable_offsets_safe (s : List Char) (from0 : Nat) (end0 : ValueDelimiter)
    (h0 : from0 ≤ s.length) (st : LoopState) (hr : Reachable s from0 end0 st) :
    (st.from_ ≤ st.append_offset ∧ st.append_offset ≤ st.search_offset ∧
      st.search_offset ≤ s.length) ∧
    (∀ to_, terminator s st.end_ st.search_offset = some to_ →
      st.append_offset ≤ to_ ∧ st.search_offset ≤ to_ ∧ to_ ≤ s.length ∧
      st.append_offset + (to_ - st.append_offset) ≤ s.length) ∧
    (∀ to_ open_ openlen start closelen,
      terminator s st.end_ st.search_offset = some to_ →
      selectMarker s st.search_offset = (some open_, openlen, start, closelen) →
      open_ < to_ →
      st.append_offset ≤ open_ ∧ open_ < s.length ∧
      st.append_offset + (open_ - st.append_offset) ≤ s.length ∧
      open_ + openlen ≤ s.length) ∧
    (∀ k, find_first_not_of identifier s st.search_offset = some k →
      st.search_offset ≤ k) := by
  obtain ⟨i1, i2, i3⟩ := Reachable_invariant h0 hr
  refine ⟨⟨i1, i2, i3⟩, ?_, ?_, ?_⟩
  · intro to_ ht
    obtain ⟨t1, t2⟩ := terminator_bounds i3 ht
    exact ⟨by omega, t1, by omega, by omega⟩
  · intro to_ open_ openlen start closelen _ hm _
    obtain ⟨b1, b2, _, b4, _⟩ := selectMarker_bounds hm
    exact ⟨by omega, b2, by omega, b4⟩
  · intro k hk
    exact (find_first_not_of_eq_some_iff.1 hk).1

/-- C19. Witness: in `a$(b)c` parsed from offset 0, the state after the reference
`$(b)` has both offsets at 5. -/
theorem Reachable_offsets_safe_witness :
    0 ≤ "a$(b)c".toList.length ∧
    Reachable "a$(b)c".toList 0 kDelimiterNone
      { from_ := 0, end_ := kDelimiterNone, search_offset := 5, append_offset := 5 } ∧
    (0 ≤ 5 ∧ 5 ≤ 5 ∧ 5 ≤ "a$(b)c".toList.length) :=
  have hr : Reachable "a$(b)c".toList 0 kDelimiterNone
      { from_ := 0, end_ := kDelimiterNone, search_offset := 5, append_offset := 5 } :=
    @Reachable.found "a$(b)c".toList 0 kDelimiterNone
      { from_ := 0, end_ := kDelimiterNone, search_offset := 0, append_offset := 0 }
      6 1 2 1 kDelimiterParentheses { found := true, end_ := 4, value := [.String ['b']] }
      Reachable.start (by decide) (by decide) (by decide) (by rfl) rfl
  ⟨by decide, hr,
    (Reachable_offsets_safe "a$(b)c".toList 0 kDelimiterNone (by decide) _ hr).1⟩

/-- C20. `raw` is a homomorphism from concatenation of values to concatenation of
strings: for all values `a` and `b`, with no well-formedness assumed,
`(a + b).raw() == a.raw() + b.raw()`. -/
theorem Value.raw_add_homomorphism (a b : Value) :
    Value.raw (Value.add a b) = Value.raw a ++ Value.raw b :=
  Value.raw_add a b

end pbxsetting
